import Mathlib

/-!
Verification of the thread-to-page rendering pipeline of `src/app.ts`
(a Discord-forum to static-site generator).

Modelling conventions:
* JavaScript strings are modelled as `List Char` (`Str`), character by
  character; JavaScript truthiness of a string is emptiness of the list.
* JavaScript `Map` objects are modelled as association lists whose lookup
  takes the most recent binding.
* Asynchronous external effects (network fetches, guild-member lookups,
  the markdown renderer from the `markdown-it` dependency, locale and ISO
  date formatting, and the system clock) are modelled as explicit function
  parameters; mutable caches are threaded as explicit state.
-/

namespace VrcHelp

/-- JavaScript strings, character by character. -/
abbrev Str := List Char

/-- Association-list lookup modelling JavaScript `Map.get` / object indexing
(the newest binding wins, matching `Map.set` overwrite semantics). -/
def lookupA {α : Type} (m : List (Str × α)) (k : Str) : Option α :=
  match m with
  | [] => none
  | (k', v) :: rest => if k' = k then some v else lookupA rest k

/-! ## Asset store (`downloadAsset`, `getAssetRel`) -/

/-- `getAssetRel` from `src/app.ts` (line 492): `path.join(assetRoot, fileName)`
with backslashes normalised to forward slashes.  On the separator-free POSIX
inputs the pipeline passes, `path.join` is plain slash-joining. -/
def getAssetRel (assetRoot fileName : Str) : Str :=
  assetRoot ++ '/' :: fileName

/-- Result of one `downloadAsset` call: the returned relative path (`none`
models the JavaScript `null` failure return), the updated URL-to-path cache,
and how many network fetches (`downloadToFile` calls) the call performed. -/
structure DlResult where
  res : Option Str
  downloaded : List (Str × Str)
  fetches : Nat
  deriving Repr, DecidableEq

/-- `downloadAsset` from `src/app.ts` (lines 496-516).  `fetchOk url` models
whether the single `downloadToFile url dest` attempt succeeds (non-ok HTTP
status or a transport error makes `downloadToFile` throw, which the `catch`
turns into a `null` return).  The JavaScript `if (existing)` truthiness test
is emptiness of the cached string. -/
def downloadAsset (fetchOk : Str → Bool) (url assetRelDir fileName : Str)
    (downloaded : List (Str × Str)) : DlResult :=
  let existing := (lookupA downloaded url).getD []
  if existing ≠ [] then ⟨some existing, downloaded, 0⟩
  else
    let rel := getAssetRel assetRelDir fileName
    if fetchOk url then ⟨some rel, (url, rel) :: downloaded, 1⟩
    else ⟨none, downloaded, 1⟩

/-- A successful `lookupA` result is a binding of the association list. -/
theorem lookupA_mem {α : Type} (m : List (Str × α)) (k : Str) (v : α)
    (h : lookupA m k = some v) : (k, v) ∈ m := by
  induction m with
  | nil => simp [lookupA] at h
  | cons p rest ih =>
    obtain ⟨k', v'⟩ := p
    by_cases hk : k' = k
    · subst hk
      simp [lookupA] at h
      simp [h]
    · simp only [lookupA, if_neg hk] at h
      exact List.mem_cons_of_mem _ (ih h)

/-- C1: `downloadAsset` maintains the asset-store cache invariant: a URL
already in the `downloaded` map is answered from the cache with no network
fetch; a new URL causes exactly one fetch; the mapping is recorded only when
the fetch succeeds, and a failed fetch leaves the map unchanged (so a later
call for the same URL makes exactly one fresh attempt); and every cached path
stays nonempty, so cache hits keep being recognised. -/
theorem downloadAsset_cache_invariant
    (fetchOk : Str → Bool) (url assetRelDir fileName : Str)
    (downloaded : List (Str × Str))
    (hvals : ∀ p ∈ downloaded, p.2 ≠ ([] : Str)) :
    (∀ r, lookupA downloaded url = some r →
        downloadAsset fetchOk url assetRelDir fileName downloaded =
          ⟨some r, downloaded, 0⟩) ∧
    (lookupA downloaded url = none →
        (downloadAsset fetchOk url assetRelDir fileName downloaded).fetches = 1 ∧
        (fetchOk url = true →
          downloadAsset fetchOk url assetRelDir fileName downloaded =
            ⟨some (getAssetRel assetRelDir fileName),
             (url, getAssetRel assetRelDir fileName) :: downloaded, 1⟩) ∧
        (fetchOk url = false →
          downloadAsset fetchOk url assetRelDir fileName downloaded =
            ⟨none, downloaded, 1⟩)) ∧
    (∀ p ∈ (downloadAsset fetchOk url assetRelDir fileName downloaded).downloaded,
        p.2 ≠ ([] : Str)) := by
  have hlookup_mem : ∀ r, lookupA downloaded url = some r → (url, r) ∈ downloaded :=
    fun r h => lookupA_mem downloaded url r h
  have hrel_ne : getAssetRel assetRelDir fileName ≠ ([] : Str) := by
    simp [getAssetRel]
  refine ⟨?_, ?_, ?_⟩
  · intro r hr
    have hne : r ≠ ([] : Str) := hvals _ (hlookup_mem r hr)
    simp [downloadAsset, hr, hne]
  · intro hnone
    refine ⟨?_, ?_, ?_⟩
    · by_cases hf : fetchOk url
      · simp [downloadAsset, hnone, hf]
      · simp [downloadAsset, hnone, hf]
    · intro hf; simp [downloadAsset, hnone, hf]
    · intro hf; simp [downloadAsset, hnone, hf]
  · intro p hp
    rcases hlk : lookupA downloaded url with _ | r
    · by_cases hf : fetchOk url
      · simp [downloadAsset, hlk, hf] at hp
        rcases hp with hp | hp
        · rw [hp]; exact hrel_ne
        · exact hvals _ hp
      · simp [downloadAsset, hlk, hf] at hp
        exact hvals _ hp
    · have hne : r ≠ ([] : Str) := hvals _ (hlookup_mem r hlk)
      simp [downloadAsset, hlk, hne] at hp
      exact hvals _ hp

/-- Witness for C1 at a concrete input: a fresh URL with an empty cache
performs exactly one fetch. -/
theorem downloadAsset_cache_invariant_witness :
    (downloadAsset (fun _ => true) ['u'] ['a'] ['f'] []).fetches = 1 := by
  have h := downloadAsset_cache_invariant (fun _ => true) ['u'] ['a'] ['f'] []
    (by intro p hp; cases hp)
  exact (h.2.1 rfl).1

/-! ## Data model: roles, members, users, reactions, messages -/

/-- A guild role (only the fields the pipeline reads). -/
structure Role where
  id : Str
  position : Int
  iconURL : Option Str
  deriving Repr, DecidableEq

/-- A resolved guild member.  `displayHexColor` is always a string in
`discord.js` (defaulting to `"#000000"`); `avatarURL` models
`member.displayAvatarURL(...)`. -/
structure Member where
  displayName : Str
  displayHexColor : Str
  roles : List Role
  avatarURL : Str
  deriving Repr, DecidableEq

/-- A Discord user as the pipeline sees it. -/
structure MUser where
  id : Str
  username : Option Str
  tag : Option Str
  bot : Bool
  avatarURL : Str
  deriving Repr, DecidableEq

/-- The emoji of a reaction: custom emoji have an `id`, unicode emoji only a
`name`. -/
structure ReactionEmoji where
  id : Option Str
  name : Option Str
  animated : Bool
  deriving Repr, DecidableEq

/-- A reaction entry on a message; `users` is the result of the
`reaction.users.fetch()` call. -/
structure Reaction where
  emoji : ReactionEmoji
  count : Option Int
  users : List MUser
  deriving Repr, DecidableEq

/-- A message attachment. -/
structure Attachment where
  url : Str
  name : Option Str
  contentType : Option Str
  deriving Repr, DecidableEq

/-- A message embed (only the image and thumbnail URLs are consumed). -/
structure Embed where
  imageUrl : Option Str
  thumbnailUrl : Option Str
  deriving Repr, DecidableEq

/-- A Discord message as consumed by the pipeline.  `member` is the possibly
missing `message.member`; `createdAt` is the epoch timestamp in milliseconds
(`discord.js` derives it from the snowflake, so it is never null);
`reference` is `message.reference?.messageId`; `mentionUsers` is
`message.mentions.users`. -/
structure Msg where
  id : Str
  author : Option MUser
  member : Option Member
  createdAt : Int
  content : Str
  attachments : List Attachment
  embeds : List Embed
  reactions : List Reaction
  reference : Option Str
  mentionUsers : List MUser
  deriving Repr, DecidableEq

/-! ## Message grouping (`buildThreadPage` lines 1112-1129) -/

/-- `GROUP_WINDOW_MS` from `src/app.ts` (line 82): `10 * 60 * 1000`. -/
def GROUP_WINDOW_MS : Nat := 10 * 60 * 1000

/-- `isSameAuthor` from `src/app.ts` (lines 185-187):
`Boolean(a.author?.id && b.author?.id && a.author.id === b.author.id)`;
the truthiness guards require both author ids to be present and nonempty. -/
def isSameAuthor (a b : Msg) : Bool :=
  match a.author, b.author with
  | some ua, some ub => ua.id ≠ [] && ub.id ≠ [] && ua.id = ub.id
  | _, _ => false

/-- One iteration of the grouping loop of `buildThreadPage`
(`src/app.ts` lines 1112-1129), on a reversed representation: `rgroups` is
the group list most-recent-first and each group is most-recent-message-first,
so `lastGroup` is the head of `rgroups` and `lastMessage` (the last message
appended to the current group) is the head of that head; `prev?` is
`messages[index-1]`.  `canGroup` holds iff the last group, its last message
and the preceding message all exist, the current and preceding messages have
the same author, and the distance to the last appended message is within
`GROUP_WINDOW_MS`; otherwise a new group is pushed. -/
def groupStep (rgroups : List (List Msg)) (prev? : Option Msg) (m : Msg) :
    List (List Msg) :=
  match rgroups, prev? with
  | (lastMsg :: g) :: gs, some prev =>
    if isSameAuthor m prev &&
        decide ((m.createdAt - lastMsg.createdAt).natAbs ≤ GROUP_WINDOW_MS)
    then (m :: lastMsg :: g) :: gs
    else [m] :: (lastMsg :: g) :: gs
  | _, _ => [m] :: rgroups

/-- The grouping loop folded over the message list (reversed representation). -/
def buildGroupsAux : List (List Msg) → Option Msg → List Msg → List (List Msg)
  | rgs, _, [] => rgs
  | rgs, prev?, m :: rest => buildGroupsAux (groupStep rgs prev? m) (some m) rest

/-- The visual message groups `buildThreadPage` builds from the
chronologically sorted message list, in document order with each group's
messages in order. -/
def buildGroups (ms : List Msg) : List (List Msg) :=
  ((buildGroupsAux [] none ms).map List.reverse).reverse

/-- The last message appended to the current (last) group. -/
def lastAppended (gs : List (List Msg)) : Option Msg :=
  gs.getLast?.bind List.getLast?

/-- `lastGroup.messages.push(rendered)`: append a message to the last group. -/
def appendLast (gs : List (List Msg)) (m : Msg) : List (List Msg) :=
  gs.dropLast ++ [(gs.getLast?.getD []) ++ [m]]

/-- The previous message after folding over `xs` starting from `p`. -/
def prevO (p : Option Msg) : List Msg → Option Msg
  | [] => p
  | x :: xs => prevO (some x) xs

theorem prevO_concat (p : Option Msg) (xs : List Msg) (x : Msg) :
    prevO p (xs ++ [x]) = some x := by
  induction xs generalizing p with
  | nil => rfl
  | cons y ys ih => simpa [prevO] using ih (some y)

theorem buildGroupsAux_append (rgs : List (List Msg)) (p : Option Msg)
    (xs ys : List Msg) :
    buildGroupsAux rgs p (xs ++ ys) =
      buildGroupsAux (buildGroupsAux rgs p xs) (prevO p xs) ys := by
  induction xs generalizing rgs p with
  | nil => simp [buildGroupsAux, prevO]
  | cons x xs ih => exact ih (groupStep rgs p x) (some x)

theorem groupStep_shape (rgs : List (List Msg)) (p : Option Msg) (m : Msg) :
    ∃ g gs, groupStep rgs p m = (m :: g) :: gs := by
  unfold groupStep
  rcases rgs with _ | ⟨_ | ⟨lm, g⟩, gs⟩ <;> rcases p with _ | prev
  · exact ⟨[], [], rfl⟩
  · exact ⟨[], [], rfl⟩
  · exact ⟨[], [] :: gs, rfl⟩
  · exact ⟨[], [] :: gs, rfl⟩
  · exact ⟨[], (lm :: g) :: gs, rfl⟩
  · by_cases h : (isSameAuthor m prev &&
        decide ((m.createdAt - lm.createdAt).natAbs ≤ GROUP_WINDOW_MS)) = true
    · exact ⟨lm :: g, gs, by simp [h]⟩
    · exact ⟨[], (lm :: g) :: gs, by simp [h]⟩

/-- C2: the grouping transition of `buildThreadPage`.  The first message
always starts a group; afterwards a message is appended to the current group
iff the current group exists, the immediately preceding message in original
order has the same author id, and the gap to the last message appended to the
current group is within the fixed ten-minute window (`GROUP_WINDOW_MS`,
600000 ms); otherwise it starts a new group. -/
theorem grouping_transition :
    (∀ m : Msg, buildGroups [m] = [[m]]) ∧
    (∀ (ms : List Msg) (m : Msg), ms ≠ [] →
      buildGroups (ms ++ [m]) =
        if (match ms.getLast?, lastAppended (buildGroups ms) with
            | some p, some la =>
                isSameAuthor m p &&
                  decide ((m.createdAt - la.createdAt).natAbs ≤ GROUP_WINDOW_MS)
            | _, _ => false) = true
        then appendLast (buildGroups ms) m
        else buildGroups ms ++ [[m]]) := by
  constructor
  · intro m
    simp [buildGroups, buildGroupsAux, groupStep]
  · intro ms m hne
    induction ms using List.reverseRecOn with
    | nil => exact absurd rfl hne
    | append_singleton xs x _ =>
      obtain ⟨g, gs, hshape⟩ :=
        groupStep_shape (buildGroupsAux [] none xs) (prevO none xs) x
      have haux : buildGroupsAux [] none (xs ++ [x]) = (x :: g) :: gs := by
        rw [buildGroupsAux_append]
        simpa [buildGroupsAux] using hshape
      have haux2 : buildGroupsAux [] none ((xs ++ [x]) ++ [m]) =
          groupStep ((x :: g) :: gs) (some x) m := by
        rw [buildGroupsAux_append, haux, prevO_concat]
        simp [buildGroupsAux]
      have h2 : buildGroups (xs ++ [x]) =
          (((x :: g) :: gs).map List.reverse).reverse := by
        unfold buildGroups
        rw [haux]
      have hgl : (xs ++ [x]).getLast? = some x := List.getLast?_concat xs
      have hla : lastAppended (buildGroups (xs ++ [x])) = some x := by
        rw [h2]
        simp [lastAppended, List.getLast?_concat]
      rw [hgl, hla]
      dsimp only
      by_cases hc : (isSameAuthor m x &&
          decide ((m.createdAt - x.createdAt).natAbs ≤ GROUP_WINDOW_MS)) = true
      · have hstep : groupStep ((x :: g) :: gs) (some x) m =
            (m :: x :: g) :: gs := by
          simp [groupStep, hc]
        rw [if_pos hc]
        have h1 : buildGroups (xs ++ [x] ++ [m]) =
            (((m :: x :: g) :: gs).map List.reverse).reverse := by
          unfold buildGroups
          rw [haux2, hstep]
        rw [h1, h2]
        simp [appendLast, List.dropLast_concat, List.getLast?_concat]
      · have hstep : groupStep ((x :: g) :: gs) (some x) m =
            [m] :: (x :: g) :: gs := by
          simp only [groupStep, if_neg hc]
        rw [if_neg hc]
        have h1 : buildGroups (xs ++ [x] ++ [m]) =
            (([m] :: (x :: g) :: gs).map List.reverse).reverse := by
          unfold buildGroups
          rw [haux2, hstep]
        rw [h1, h2]
        simp

/-- A minimal concrete message used by witnesses. -/
def sampleMsg (i : Str) (aid : Str) (t : Int) : Msg :=
  Msg.mk i (some (MUser.mk aid none none false [])) none t [] [] [] [] none []

/-- Witness for C2 at a concrete two-message input. -/
theorem grouping_transition_witness :
    buildGroups ([sampleMsg ['1'] ['a'] 0] ++ [sampleMsg ['2'] ['a'] 1000]) =
      if (match ([sampleMsg ['1'] ['a'] 0] : List Msg).getLast?,
            lastAppended (buildGroups [sampleMsg ['1'] ['a'] 0]) with
          | some p, some la =>
              isSameAuthor (sampleMsg ['2'] ['a'] 1000) p &&
                decide (((sampleMsg ['2'] ['a'] 1000).createdAt -
                  la.createdAt).natAbs ≤ GROUP_WINDOW_MS)
          | _, _ => false) = true
      then appendLast (buildGroups [sampleMsg ['1'] ['a'] 0])
            (sampleMsg ['2'] ['a'] 1000)
      else buildGroups [sampleMsg ['1'] ['a'] 0] ++
            [[sampleMsg ['2'] ['a'] 1000]] :=
  grouping_transition.2 [sampleMsg ['1'] ['a'] 0] (sampleMsg ['2'] ['a'] 1000)
    (by simp)

/-! ## String helpers: `truncateText`, `stripMarkdown` -/

theorem dropWhile_length_le (p : Char → Bool) (l : Str) :
    (l.dropWhile p).length ≤ l.length := by
  induction l with
  | nil => simp
  | cons c rest ih =>
    by_cases h : p c
    · rw [List.dropWhile_cons_of_pos h]
      have : rest.length ≤ (c :: rest).length := by simp
      omega
    · rw [List.dropWhile_cons_of_neg (by simpa using h)]

/-- JavaScript regex `\s` / `trim` whitespace (the characters that occur in
practice: space, tab, line feed, carriage return, vertical tab, form feed). -/
def isWsChar (c : Char) : Bool :=
  c = ' ' || c = '\t' || c = '\n' || c = '\r' ||
    c = Char.ofNat 11 || c = Char.ofNat 12

/-- JavaScript `String.prototype.trimEnd`. -/
def trimEnd (s : Str) : Str :=
  (s.reverse.dropWhile isWsChar).reverse

/-- JavaScript `String.prototype.trim`. -/
def trimJs (s : Str) : Str :=
  trimEnd (s.dropWhile isWsChar)

/-- `truncateText` from `src/app.ts` (lines 143-146): text of at most
`maxLen` characters is returned unchanged; otherwise
`text.slice(0, maxLen - 1).trimEnd() + "..."`. -/
def truncateText (text : Str) (maxLen : Nat) : Str :=
  if text.length ≤ maxLen then text
  else trimEnd (text.take (maxLen - 1)) ++ ['.', '.', '.']

/-- Leftmost match of the code-span regex `` `{1,3}[^`]+`{1,3} `` anchored at
the start of `s`: returns the length of the match.  The opening quantifier is
greedy over the full backtick run, the content class stops at the next
backtick, and the closing quantifier greedily takes up to three backticks, so
the match is deterministic. -/
def codeSpanMatch (s : Str) : Option Nat :=
  let o := (s.takeWhile (· = '`')).length
  if o = 0 || o > 3 then none
  else
    let afterOpen := s.drop o
    let c := (afterOpen.takeWhile (· ≠ '`')).length
    if c = 0 then none
    else
      let afterContent := afterOpen.drop c
      let e := (afterContent.takeWhile (· = '`')).length
      if e = 0 then none
      else some (o + c + min e 3)

/-- Generic left-to-right global regex replace, the semantics of JavaScript
`String.prototype.replace` with a `g` flag: at each position try the anchored
`matcher`; on a match of length `n ≥ 1` with replacement `rep`, emit `rep`
and continue after the match; otherwise keep one character and move on.
`fuel` only bounds the recursion depth so that the recursion is structural;
every use passes `fuel = s.length`, and since every step consumes at least
one character while spending one unit of fuel, the bound is never hit. -/
def scanRewrite (matcher : Str → Option (Nat × Str)) : Nat → Str → Str
  | _, [] => []
  | 0, s => s
  | fuel + 1, c :: rest =>
    match matcher (c :: rest) with
    | some (n, rep) => rep ++ scanRewrite matcher fuel (rest.drop (n - 1))
    | none => c :: scanRewrite matcher fuel rest

/-- One global-replace pass of the code-span regex with a single space
(first replace in `stripMarkdown`, `src/app.ts` line 150). -/
def stripCodeSpans (s : Str) : Str :=
  scanRewrite (fun t => (codeSpanMatch t).map (fun n => (n, [' ']))) s.length s

/-- Leftmost match of `!\[[^\]]*]\([^)]+\)` (with `bang`) or
`\[[^\]]*]\([^)]+\)` (without) anchored at the start of `s`, returning the
match length.  Both character classes are stopped by their closing bracket,
so matching is deterministic. -/
def mdBracketMatch (bang : Bool) (s : Str) : Option Nat :=
  let hdr : Str := if bang then ['!', '['] else ['[']
  if hdr.isPrefixOf s then
    let s1 := s.drop hdr.length
    let a := (s1.takeWhile (· ≠ ']')).length
    match s1.drop a with
    | ']' :: '(' :: s2 =>
      let b := (s2.takeWhile (· ≠ ')')).length
      if b = 0 then none
      else
        match s2.drop b with
        | ')' :: _ => some (hdr.length + a + 2 + b + 1)
        | _ => none
    | _ => none
  else none

/-- One global-replace pass of the markdown image (`bang = true`) or link
(`bang = false`) regex with a single space (second and third replaces in
`stripMarkdown`, `src/app.ts` lines 151-152). -/
def replaceMdPattern (bang : Bool) (s : Str) : Str :=
  scanRewrite (fun t => (mdBracketMatch bang t).map (fun n => (n, [' '])))
    s.length s

/-- The character class `[*_~>#-]` (fourth replace in `stripMarkdown`,
`src/app.ts` line 153). -/
def isMdPunct (c : Char) : Bool :=
  c = '*' || c = '_' || c = '~' || c = '>' || c = '#' || c = '-'

/-- Replace every `[*_~>#-]` character by a space. -/
def stripMdPunct (s : Str) : Str :=
  s.map (fun c => if isMdPunct c then ' ' else c)

/-- Collapse every whitespace run to a single space (fifth replace in
`stripMarkdown`, `src/app.ts` line 154), written structurally: `inRun` says
whether the previous character was part of a whitespace run that has already
emitted its single space. -/
def collapseWsGo : Bool → Str → Str
  | _, [] => []
  | inRun, c :: rest =>
    if isWsChar c then
      if inRun then collapseWsGo true rest
      else ' ' :: collapseWsGo true rest
    else c :: collapseWsGo false rest

/-- `\s+` → `" "` as a single pass. -/
def collapseWs (s : Str) : Str :=
  collapseWsGo false s

/-- `stripMarkdown` from `src/app.ts` (lines 148-156): remove code spans,
markdown images and links, markdown punctuation, collapse whitespace and
trim. -/
def stripMarkdown (markdown : Str) : Str :=
  trimJs (collapseWs (stripMdPunct (replaceMdPattern false
    (replaceMdPattern true (stripCodeSpans markdown)))))

theorem trimEnd_length_le (s : Str) : (trimEnd s).length ≤ s.length := by
  unfold trimEnd
  calc (s.reverse.dropWhile isWsChar).reverse.length
      = (s.reverse.dropWhile isWsChar).length := by simp
    _ ≤ s.reverse.length := dropWhile_length_le isWsChar s.reverse
    _ = s.length := by simp

/-- C3 counterexample: the claim "the excerpt is at most 180 characters"
fails: a stripped starter text of 181 plain characters yields an excerpt of
182 characters (179 kept characters plus the three-character `"..."`
marker). -/
theorem excerpt_truncation_cex :
    180 < (stripMarkdown (List.replicate 181 'a')).length ∧
    ¬ (truncateText (stripMarkdown (List.replicate 181 'a')) 180).length ≤ 180 := by
  set_option maxRecDepth 10000 in decide

/-- C3 (amended): the thread excerpt `truncateText (stripMarkdown starter) 180`
is at most 182 characters long (at most 179 kept source characters plus the
three-character `"..."` marker) and ends with the ellipsis marker whenever
the stripped starter text is longer than 180 characters, and is returned
unchanged whenever the stripped source is at most 180 characters. -/
theorem excerpt_truncation (s : Str) :
    (180 < (stripMarkdown s).length →
      (truncateText (stripMarkdown s) 180).length ≤ 182 ∧
      ['.', '.', '.'] <:+ truncateText (stripMarkdown s) 180) ∧
    ((stripMarkdown s).length ≤ 180 →
      truncateText (stripMarkdown s) 180 = stripMarkdown s) := by
  constructor
  · intro h
    have hnot : ¬ (stripMarkdown s).length ≤ 180 := by omega
    constructor
    · simp only [truncateText, if_neg hnot, List.length_append]
      have h2 : ((stripMarkdown s).take (180 - 1)).length ≤ 179 := by
        simp [List.length_take]
      have h1 := trimEnd_length_le ((stripMarkdown s).take (180 - 1))
      simp only [List.length_cons, List.length_nil]
      omega
    · simp only [truncateText, if_neg hnot]
      exact List.suffix_append _ _
  · intro h
    simp only [truncateText, if_pos h]

/-- Witness for C3 at a concrete 181-character stripped source. -/
theorem excerpt_truncation_witness :
    (truncateText (stripMarkdown (List.replicate 181 'a')) 180).length ≤ 182 ∧
    ['.', '.', '.'] <:+ truncateText (stripMarkdown (List.replicate 181 'a')) 180 :=
  (excerpt_truncation (List.replicate 181 'a')).1
    (by set_option maxRecDepth 10000 in decide)

/-! ## Gif-link normalisation (`normalizeGifLinks`, `src/app.ts` 158-166) -/

/-- Coerce a Lean string literal to the character-list model. -/
def str (s : String) : Str := s.data

/-- `text.split(/(\s+)/)`: the list of pieces alternating between
non-whitespace tokens (possibly empty at either end) and the captured
whitespace separators.  `fuel` only makes the recursion structural; every
use passes `fuel = s.length`, which suffices since each round consumes at
least one character. -/
def splitWsGo : Nat → Str → List Str
  | _, [] => [[]]
  | 0, s => [s]
  | fuel + 1, c :: cs =>
    let s := c :: cs
    let tok := s.takeWhile (fun ch => !isWsChar ch)
    let rest := s.drop tok.length
    match rest with
    | [] => [tok]
    | _ =>
      let ws := rest.takeWhile isWsChar
      tok :: ws :: splitWsGo fuel (rest.drop ws.length)

/-- `"http://"` as a character list. -/
def httpPrefix : Str := ['h', 't', 't', 'p', ':', '/', '/']

/-- `"https://"` as a character list. -/
def httpsPrefix : Str := ['h', 't', 't', 'p', 's', ':', '/', '/']

/-- The regex test `/^https?:\/\//i`. -/
def isHttpToken (t : Str) : Bool :=
  httpPrefix.isPrefixOf (t.map Char.toLower) ||
  httpsPrefix.isPrefixOf (t.map Char.toLower)

/-- The regex test `/\.gif(\?|#|$)/i`: somewhere in the token, `.gif`
(case-insensitive) immediately followed by `?`, `#` or the end. -/
def hasGifSuffix : Str → Bool
  | [] => false
  | c :: rest =>
    ((str ".gif").isPrefixOf ((c :: rest).map Char.toLower) &&
      (match rest.drop 3 with
       | [] => true
       | '?' :: _ => true
       | '#' :: _ => true
       | _ => false)) || hasGifSuffix rest

/-- The per-piece rewriting of `normalizeGifLinks`: a piece that starts with
`http(s)://` and passes the gif test becomes `![](token)`, every other piece
is kept. -/
def gifMapPiece (token : Str) : Str :=
  if !isHttpToken token then token
  else if !hasGifSuffix token then token
  else str "![](" ++ token ++ str ")"

/-- `normalizeGifLinks` from `src/app.ts` (lines 158-166): split on
whitespace keeping separators, rewrite bare gif URLs into markdown image
syntax, and join. -/
def normalizeGifLinks (text : Str) : Str :=
  ((splitWsGo text.length text).map gifMapPiece).flatten

/-- The gif predicate as the claim words it ("ends its path in `.gif`,
optionally followed by a query or fragment"): the part of the token before
any `?` or `#` ends in `.gif`.  Stated from the claim's words only, for
comparison with the code's `hasGifSuffix`. -/
def gifPathSpec (t : Str) : Bool :=
  isHttpToken t &&
    (str ".gif").isSuffixOf
      ((t.takeWhile (fun c => c ≠ '?' && c ≠ '#')).map Char.toLower)

/-- The combined rewriting condition of `normalizeGifLinks`. -/
def isGifUrlToken (t : Str) : Bool := isHttpToken t && hasGifSuffix t

theorem gifMapPiece_id_of_not (t : Str) (h : isGifUrlToken t = false) :
    gifMapPiece t = t := by
  unfold isGifUrlToken at h
  unfold gifMapPiece
  by_cases h1 : isHttpToken t
  · simp only [h1, Bool.true_and] at h
    simp [h1, h]
  · simp [Bool.eq_false_iff.mpr h1]

theorem dropWhile_head_not (p : Char → Bool) (l : Str) (c : Char) (r : Str)
    (h : l.dropWhile p = c :: r) : p c = false := by
  induction l with
  | nil => cases h
  | cons a t ih =>
    rw [List.dropWhile_cons] at h
    by_cases hp : p a = true
    · rw [if_pos hp] at h
      exact ih h
    · rw [if_neg hp] at h
      injection h with h1 _
      subst h1
      simpa using hp

theorem drop_takeWhile_length (p : Char → Bool) (l : Str) :
    l.drop (l.takeWhile p).length = l.dropWhile p := by
  have h := @List.drop_left' Char (l.takeWhile p) (l.dropWhile p)
    ((l.takeWhile p).length) rfl
  rwa [List.takeWhile_append_dropWhile] at h

theorem isWsChar_cases (c : Char) (h : isWsChar c = true) :
    c = ' ' ∨ c = '\t' ∨ c = '\n' ∨ c = '\r' ∨
      c = Char.ofNat 11 ∨ c = Char.ofNat 12 := by
  have h2 := h
  simp only [isWsChar, Bool.or_eq_true, decide_eq_true_eq] at h2
  tauto

theorem gifMapPiece_ws (c : Char) (w : Str) (hc : isWsChar c = true) :
    gifMapPiece (c :: w) = c :: w := by
  have hne : ∀ pre : Str, pre.isPrefixOf ((c :: w).map Char.toLower) = true →
      pre = [] ∨ ∃ tl, pre = Char.toLower c :: tl := by
    intro pre hpre
    cases pre with
    | nil => exact Or.inl rfl
    | cons p0 ptl =>
      right
      simp only [List.map_cons, List.isPrefixOf, Bool.and_eq_true, beq_iff_eq] at hpre
      exact ⟨ptl, by rw [hpre.1]⟩
  have hlower : Char.toLower c ≠ 'h' := by
    rcases isWsChar_cases c hc with h | h | h | h | h | h <;> subst h <;> decide
  have hhttp : isHttpToken (c :: w) = false := by
    unfold isHttpToken
    rw [Bool.or_eq_false_iff]
    constructor
    · by_contra hcon
      rcases hne httpPrefix (by simpa using hcon) with h | ⟨tl, h⟩
      · cases h
      · rw [httpPrefix] at h
        injection h with h1 _
        exact hlower h1.symm
    · by_contra hcon
      rcases hne httpsPrefix (by simpa using hcon) with h | ⟨tl, h⟩
      · cases h
      · rw [httpsPrefix] at h
        injection h with h1 _
        exact hlower h1.symm
  simp [gifMapPiece, hhttp]

theorem gifMapPiece_nonws (t : Str) (ht : ∀ c ∈ t, isWsChar c = false) :
    (∀ c ∈ gifMapPiece t, isWsChar c = false) ∧
      (t ≠ [] → gifMapPiece t ≠ []) := by
  unfold gifMapPiece
  by_cases h1 : isHttpToken t
  · by_cases h2 : hasGifSuffix t
    · simp only [h1, h2, Bool.not_true, Bool.false_eq_true, if_false]
      constructor
      · intro c hc
        simp only [str, List.mem_append] at hc
        rcases hc with (hc | hc) | hc
        · fin_cases hc <;> decide
        · exact ht c hc
        · fin_cases hc <;> decide
      · intro _
        simp [str]
    · simp only [h2, Bool.not_false, if_true]
      exact ⟨fun c hc =>
        by simp only [h1, Bool.not_true, Bool.false_eq_true, if_false] at hc
           exact ht c hc,
        fun h => by simpa [h1] using h⟩
  · simp only [Bool.eq_false_iff.mpr h1, Bool.not_false, if_true]
    exact ⟨ht, fun h => h⟩

/-- A whitespace-free string splits into itself as a single token. -/
theorem splitWsGo_single (f2 : Nat) (a : Str)
    (ha : ∀ c ∈ a, isWsChar c = false) (h : a.length ≤ f2) :
    splitWsGo f2 a = [a] := by
  cases a with
  | nil => cases f2 <;> rfl
  | cons c cs =>
    cases f2 with
    | zero => simp at h
    | succ g =>
      simp only [splitWsGo]
      have htok : (c :: cs).takeWhile (fun ch => !isWsChar ch) = c :: cs :=
        List.takeWhile_eq_self_iff.mpr (fun x hx => by simp [ha x hx])
      rw [htok, List.drop_length]

/-- Splitting one token, one separator run and a rest whose head is not
whitespace peels off exactly that token and separator. -/
theorem splitWsGo_step (g : Nat) (a w r : Str)
    (ha : ∀ c ∈ a, isWsChar c = false)
    (hw : w ≠ []) (hws : ∀ c ∈ w, isWsChar c = true)
    (hr : ∀ c rr, r = c :: rr → isWsChar c = false) :
    splitWsGo (g + 1) (a ++ w ++ r) = a :: w :: splitWsGo g r := by
  rcases hx : a ++ w ++ r with _ | ⟨d, ds⟩
  · rcases List.append_eq_nil.mp hx with ⟨h1, _⟩
    rcases List.append_eq_nil.mp h1 with ⟨_, h3⟩
    exact absurd h3 hw
  · simp only [splitWsGo]
    rw [← hx]
    obtain ⟨w0, wtl, hw0⟩ : ∃ w0 wtl, w = w0 :: wtl := by
      cases w with
      | nil => exact absurd rfl hw
      | cons w0 wtl => exact ⟨w0, wtl, rfl⟩
    have hw0ws : isWsChar w0 = true := hws w0 (by simp [hw0])
    have h0 : List.takeWhile (fun ch => !isWsChar ch) (w0 :: (wtl ++ r)) = [] :=
      List.takeWhile_cons_of_neg (by simp [hw0ws])
    have htok : (a ++ w ++ r).takeWhile (fun ch => !isWsChar ch) = a := by
      rw [List.append_assoc, List.takeWhile_append_of_pos
        (fun c hc => by simp [ha c hc]), hw0, List.cons_append, h0]
      simp
    have hrest : (a ++ w ++ r).drop a.length = w ++ r := by
      rw [List.append_assoc]
      exact List.drop_left a (w ++ r)
    rw [htok, hrest]
    have hwconsr : w ++ r = w0 :: (wtl ++ r) := by rw [hw0]; rfl
    have hws2 : (w ++ r).takeWhile isWsChar = w := by
      rw [List.takeWhile_append_of_pos hws]
      cases r with
      | nil => simp
      | cons r0 rtl =>
        rw [List.takeWhile_cons_of_neg (by simp [hr r0 rtl rfl])]
        simp
    rw [hwconsr]
    dsimp only
    rw [← hwconsr, hws2, List.drop_left]

/-- Joining the pieces of the whitespace-keeping split gives back the
original string. -/
theorem splitWsGo_flatten (fuel : Nat) (s : Str) (h : s.length ≤ fuel) :
    (splitWsGo fuel s).flatten = s := by
  induction fuel generalizing s with
  | zero =>
    cases s with
    | nil => rfl
    | cons c cs => simp at h
  | succ fuel ih =>
    cases s with
    | nil => rfl
    | cons c cs =>
      simp only [splitWsGo]
      rcases hrest : (c :: cs).drop
          ((c :: cs).takeWhile (fun ch => !isWsChar ch)).length with _ | ⟨r0, rtl⟩
      · rw [drop_takeWhile_length] at hrest
        have hfull := List.takeWhile_append_dropWhile
          (fun ch => !isWsChar ch) (c :: cs)
        rw [hrest, List.append_nil] at hfull
        simpa using hfull
      · have hres2 : (c :: cs).drop
            ((c :: cs).takeWhile (fun ch => !isWsChar ch)).length =
            (c :: cs).dropWhile (fun ch => !isWsChar ch) :=
          drop_takeWhile_length _ _
        have hr0 : isWsChar r0 = true := by
          have := dropWhile_head_not (fun ch => !isWsChar ch) (c :: cs) r0 rtl
            (by rw [← hres2, hrest])
          simpa using this
        have hws1 : (r0 :: rtl).takeWhile isWsChar =
            r0 :: rtl.takeWhile isWsChar := List.takeWhile_cons_of_pos hr0
        have hlen1 : rtl.length + 1 ≤ cs.length + 1 := by
          have hcg := congrArg List.length hrest
          simp only [List.length_drop, List.length_cons] at hcg
          omega
        have hlen2 : ((r0 :: rtl).drop
            ((r0 :: rtl).takeWhile isWsChar).length).length ≤ fuel := by
          rw [hws1]
          simp only [List.length_drop, List.length_cons]
          have h3 : cs.length + 1 ≤ fuel + 1 := by simpa using h
          omega
        rw [List.flatten_cons, List.flatten_cons, ih _ hlen2]
        rw [drop_takeWhile_length]
        rw [List.takeWhile_append_dropWhile]
        rw [← hrest, drop_takeWhile_length]
        rw [List.takeWhile_append_dropWhile]

/-- The flattened rewritten pieces of a string whose head is not whitespace
start with a non-whitespace character. -/
theorem splitWs_map_flatten_head (fuel : Nat) (s : Str) (h : s.length ≤ fuel)
    (hhd : ∀ c r, s = c :: r → isWsChar c = false) :
    ∀ c r, ((splitWsGo fuel s).map gifMapPiece).flatten = c :: r →
      isWsChar c = false := by
  cases s with
  | nil =>
    intro c r hcr
    have : ((splitWsGo fuel ([] : Str)).map gifMapPiece).flatten = [] := by
      cases fuel <;> simp [splitWsGo, gifMapPiece, isHttpToken, httpPrefix,
        httpsPrefix, List.isPrefixOf]
    rw [this] at hcr
    cases hcr
  | cons c0 cs =>
    have hc0 : isWsChar c0 = false := hhd c0 cs rfl
    cases fuel with
    | zero => simp at h
    | succ fuel =>
      have htokc : (c0 :: cs).takeWhile (fun ch => !isWsChar ch) =
          c0 :: cs.takeWhile (fun ch => !isWsChar ch) :=
        List.takeWhile_cons_of_pos (by simp [hc0])
      have htoknws : ∀ c ∈ (c0 :: cs).takeWhile (fun ch => !isWsChar ch),
          isWsChar c = false := by
        intro c hc
        have := List.mem_takeWhile_imp hc
        simpa using this
      obtain ⟨hnws, hne⟩ := gifMapPiece_nonws _ htoknws
      have hfne : gifMapPiece ((c0 :: cs).takeWhile (fun ch => !isWsChar ch)) ≠ [] :=
        hne (by rw [htokc]; exact List.cons_ne_nil _ _)
      obtain ⟨d, ds, hds⟩ : ∃ d ds,
          gifMapPiece ((c0 :: cs).takeWhile (fun ch => !isWsChar ch)) = d :: ds := by
        rcases hgf : gifMapPiece ((c0 :: cs).takeWhile (fun ch => !isWsChar ch)) with
          _ | ⟨d, ds⟩
        · exact absurd hgf hfne
        · exact ⟨d, ds, rfl⟩
      have hd : isWsChar d = false := hnws d (by rw [hds]; exact List.mem_cons_self _ _)
      intro c r hcr
      simp only [splitWsGo] at hcr
      rcases hrest : (c0 :: cs).drop
          ((c0 :: cs).takeWhile (fun ch => !isWsChar ch)).length with _ | ⟨r0, rtl⟩
      · rw [hrest] at hcr
        simp only [List.map_cons, List.map_nil, List.flatten_cons,
          List.flatten_nil, List.append_nil] at hcr
        rw [hds] at hcr
        injection hcr with h1 _
        rw [← h1]
        exact hd
      · rw [hrest] at hcr
        simp only [List.map_cons, List.flatten_cons] at hcr
        rw [hds] at hcr
        injection hcr with h1 _
        rw [← h1]
        exact hd

theorem gifMapPiece_nil : gifMapPiece [] = [] := by decide

/-- Re-splitting the rewritten, re-joined pieces recovers exactly the
rewritten pieces: the whitespace separators survive unchanged and every
rewritten token is still a single whitespace-free token. -/
theorem splitWsGo_map_resplit (fuel : Nat) (s : Str) (h : s.length ≤ fuel)
    (fuel2 : Nat)
    (h2 : (((splitWsGo fuel s).map gifMapPiece).flatten).length ≤ fuel2) :
    splitWsGo fuel2 (((splitWsGo fuel s).map gifMapPiece).flatten) =
      (splitWsGo fuel s).map gifMapPiece := by
  induction fuel generalizing s fuel2 with
  | zero =>
    have hs : s = [] := by
      cases s with
      | nil => rfl
      | cons c cs => simp at h
    subst hs
    cases fuel2 <;> simp [splitWsGo, gifMapPiece_nil]
  | succ fuel ih =>
    cases s with
    | nil =>
      cases fuel2 <;> simp [splitWsGo, gifMapPiece_nil]
    | cons c cs =>
      have htoknws : ∀ x ∈ (c :: cs).takeWhile (fun ch => !isWsChar ch),
          isWsChar x = false := by
        intro x hx
        simpa using List.mem_takeWhile_imp hx
      rcases hrest : (c :: cs).drop
          ((c :: cs).takeWhile (fun ch => !isWsChar ch)).length with _ | ⟨r0, rtl⟩
      · have hps : splitWsGo (fuel + 1) (c :: cs) =
            [(c :: cs).takeWhile (fun ch => !isWsChar ch)] := by
          simp only [splitWsGo]
          rw [hrest]
        rw [hps] at h2 ⊢
        simp only [List.map_cons, List.map_nil, List.flatten_cons,
          List.flatten_nil, List.append_nil] at h2 ⊢
        exact splitWsGo_single _ _ (gifMapPiece_nonws _ htoknws).1 h2
      · have hr0 : isWsChar r0 = true := by
          have hres2 : (c :: cs).drop
              ((c :: cs).takeWhile (fun ch => !isWsChar ch)).length =
              (c :: cs).dropWhile (fun ch => !isWsChar ch) :=
            drop_takeWhile_length _ _
          have := dropWhile_head_not (fun ch => !isWsChar ch) (c :: cs) r0 rtl
            (by rw [← hres2, hrest])
          simpa using this
        have hws1 : (r0 :: rtl).takeWhile isWsChar =
            r0 :: rtl.takeWhile isWsChar := List.takeWhile_cons_of_pos hr0
        have hps : splitWsGo (fuel + 1) (c :: cs) =
            (c :: cs).takeWhile (fun ch => !isWsChar ch) ::
              (r0 :: rtl).takeWhile isWsChar ::
              splitWsGo fuel
                ((r0 :: rtl).drop ((r0 :: rtl).takeWhile isWsChar).length) := by
          simp only [splitWsGo]
          rw [hrest]
        rw [hps] at h2 ⊢
        have hfws : gifMapPiece ((r0 :: rtl).takeWhile isWsChar) =
            (r0 :: rtl).takeWhile isWsChar := by
          rw [hws1]
          exact gifMapPiece_ws r0 (rtl.takeWhile isWsChar) hr0
        simp only [List.map_cons, List.flatten_cons, hfws] at h2 ⊢
        -- abbreviations
        have hs2head : ∀ a rr,
            (r0 :: rtl).drop ((r0 :: rtl).takeWhile isWsChar).length = a :: rr →
            isWsChar a = false := by
          intro a rr ha
          rw [drop_takeWhile_length] at ha
          have := dropWhile_head_not isWsChar (r0 :: rtl) a rr ha
          exact this
        have hlen1 : rtl.length + 1 ≤ cs.length + 1 := by
          have hcg := congrArg List.length hrest
          simp only [List.length_drop, List.length_cons] at hcg
          omega
        have hs2len : ((r0 :: rtl).drop
            ((r0 :: rtl).takeWhile isWsChar).length).length ≤ fuel := by
          rw [hws1]
          simp only [List.length_drop, List.length_cons]
          have h3 : cs.length + 1 ≤ fuel + 1 := by simpa using h
          omega
        cases fuel2 with
        | zero =>
          exfalso
          rw [hws1] at h2
          simp only [List.length_append, List.length_cons, Nat.le_zero] at h2
          omega
        | succ g =>
          have hflen : (((splitWsGo fuel ((r0 :: rtl).drop
              ((r0 :: rtl).takeWhile isWsChar).length)).map
                gifMapPiece).flatten).length ≤ g := by
            rw [hws1] at h2 ⊢
            simp only [List.length_append, List.length_cons] at h2 ⊢
            omega
          have hstep := splitWsGo_step g
            (gifMapPiece ((c :: cs).takeWhile (fun ch => !isWsChar ch)))
            ((r0 :: rtl).takeWhile isWsChar)
            (((splitWsGo fuel ((r0 :: rtl).drop
              ((r0 :: rtl).takeWhile isWsChar).length)).map gifMapPiece).flatten)
            (gifMapPiece_nonws _ htoknws).1
            (by rw [hws1]; exact List.cons_ne_nil _ _)
            (fun x hx => List.mem_takeWhile_imp hx)
            (splitWs_map_flatten_head fuel _ hs2len hs2head)
          rw [← List.append_assoc] at *
          rw [hstep]
          rw [ih _ hs2len g hflen]

/-- C10 counterexample: for the single-token input `https://a/b?c=.gif`, no
whitespace-delimited token ends its *path* in `.gif` (the `.gif` sits at the
end of the query string), yet `normalizeGifLinks` rewrites the token, so the
input is not returned unchanged. -/
theorem normalizeGifLinks_cex :
    (∀ tok ∈ splitWsGo (str "https://a/b?c=.gif").length
        (str "https://a/b?c=.gif"), gifPathSpec tok = false) ∧
    normalizeGifLinks (str "https://a/b?c=.gif") ≠ str "https://a/b?c=.gif" := by
  decide

/-- C10 (amended): `normalizeGifLinks` returns its input unchanged whenever
no whitespace-delimited piece both starts with `http://`/`https://`
(case-insensitively) and contains `.gif` immediately followed by `?`, `#` or
the end of the token (case-insensitively); and for every input, re-splitting
the output yields exactly the input's pieces with the whitespace separators
preserved verbatim and only whole gif-URL tokens rewritten into `![](url)`
image syntax. -/
theorem normalizeGifLinks_spec (text : Str) :
    ((∀ tok ∈ splitWsGo text.length text, isGifUrlToken tok = false) →
      normalizeGifLinks text = text) ∧
    splitWsGo (normalizeGifLinks text).length (normalizeGifLinks text) =
      (splitWsGo text.length text).map gifMapPiece := by
  constructor
  · intro h
    unfold normalizeGifLinks
    have hid : (splitWsGo text.length text).map gifMapPiece =
        (splitWsGo text.length text).map id :=
      List.map_congr_left (fun a ha => gifMapPiece_id_of_not a (h a ha))
    rw [hid, List.map_id]
    exact splitWsGo_flatten text.length text (le_refl _)
  · exact splitWsGo_map_resplit text.length text (le_refl _)
      (normalizeGifLinks text).length (le_refl _)

/-- Witness for C10 at a concrete input without gif URLs. -/
theorem normalizeGifLinks_spec_witness :
    normalizeGifLinks (str "hello world") = str "hello world" :=
  (normalizeGifLinks_spec (str "hello world")).1 (by decide)

/-! ## Reaction matching and answer detection -/

/-- `reactionMatches` from `src/app.ts` (376-384): the target equals the
reaction emoji's id or name; an empty target, id or name never matches
(JavaScript truthiness guards). -/
def reactionMatches (e : ReactionEmoji) (target : Str) : Bool :=
  if target = [] then false
  else
    (match e.id with
     | some i => i ≠ [] && i = target
     | none => false) ||
    (match e.name with
     | some n => n ≠ [] && n = target
     | none => false)

/-- A per-run member cache: `Map<string, GuildMember | null>`; a cached
`none` records a failed lookup. -/
abbrev MemberCache := List (Str × Option Member)

/-- The member-resolution idiom used throughout `src/app.ts` (e.g. lines
916-922): use the cached value when the id is cached, otherwise fetch and
store (`resolve` models `guild.members.fetch(id).catch(() => null)`). -/
def getCachedMember (resolve : Str → Option Member) (cache : MemberCache)
    (id : Str) : Option Member × MemberCache :=
  match lookupA cache id with
  | some v => (v, cache)
  | none => (resolve id, (id, resolve id) :: cache)

/-- `member?.roles.cache.has(roleId)`. -/
def memberHasRole (m : Option Member) (roleId : Str) : Bool :=
  match m with
  | some mem => mem.roles.any (fun r => r.id = roleId)
  | none => false

/-- The reactor loop of `isAnswerMessage` (`src/app.ts` 916-927): skip bots,
resolve each reacting user through the member cache, and short-circuit to
`true` on the first user holding the publisher role. -/
def isAnswerLoop (resolve : Str → Option Member) (publisherRoleId : Str) :
    List MUser → MemberCache → Bool × MemberCache
  | [], cache => (false, cache)
  | u :: rest, cache =>
    if u.bot then isAnswerLoop resolve publisherRoleId rest cache
    else
      let mc := getCachedMember resolve cache u.id
      if memberHasRole mc.1 publisherRoleId then (true, mc.2)
      else isAnswerLoop resolve publisherRoleId rest mc.2

/-- `isAnswerMessage` from `src/app.ts` (903-928): find the first reaction
matching the answer emoji; without one the message is not an answer;
otherwise run the reactor loop over the fetched reacting users. -/
def isAnswerMessage (resolve : Str → Option Member)
    (publisherRoleId answerEmoji : Str) (message : Msg)
    (memberCache : MemberCache) : Bool × MemberCache :=
  match message.reactions.find?
      (fun entry => reactionMatches entry.emoji answerEmoji) with
  | none => (false, memberCache)
  | some reaction => isAnswerLoop resolve publisherRoleId reaction.users memberCache

/-- The member a user id effectively resolves to, given the cache state at
entry to the loop. -/
def effMember (resolve : Str → Option Member) (cache : MemberCache)
    (id : Str) : Option Member :=
  match lookupA cache id with
  | some v => v
  | none => resolve id

theorem effMember_insert (resolve : Str → Option Member) (cache : MemberCache)
    (id : Str) (hid : lookupA cache id = none) (x : Str) :
    effMember resolve ((id, resolve id) :: cache) x =
      effMember resolve cache x := by
  unfold effMember
  by_cases hx : id = x
  · subst hx
    simp [lookupA, hid]
  · simp [lookupA, hx]

theorem isAnswerLoop_spec (resolve : Str → Option Member)
    (publisherRoleId : Str) (users : List MUser) (cache : MemberCache) :
    (isAnswerLoop resolve publisherRoleId users cache).1 =
      users.any (fun u => !u.bot &&
        memberHasRole (effMember resolve cache u.id) publisherRoleId) := by
  induction users generalizing cache with
  | nil => rfl
  | cons u rest ih =>
    rw [List.any_cons]
    cases hb : u.bot with
    | true => simp [isAnswerLoop, hb, ih]
    | false =>
      simp only [isAnswerLoop, hb]
      rw [if_neg (by decide)]
      simp only [getCachedMember]
      rcases hlk : lookupA cache u.id with _ | v
      · have heff : effMember resolve cache u.id = resolve u.id := by
          simp [effMember, hlk]
        by_cases hrole : memberHasRole (resolve u.id) publisherRoleId = true
        · simp [hrole, heff]
        · rw [if_neg hrole, ih]
          have hcongr : (fun u' : MUser => !u'.bot && memberHasRole
              (effMember resolve ((u.id, resolve u.id) :: cache) u'.id)
              publisherRoleId) = (fun u' : MUser => !u'.bot && memberHasRole
              (effMember resolve cache u'.id) publisherRoleId) := by
            funext u'
            rw [effMember_insert resolve cache u.id hlk]
          rw [hcongr, heff]
          simp [Bool.eq_false_iff.mpr hrole]
      · have heff : effMember resolve cache u.id = v := by
          simp [effMember, hlk]
        by_cases hrole : memberHasRole v publisherRoleId = true
        · simp [hrole, heff]
        · rw [if_neg hrole, ih, heff]
          simp [Bool.eq_false_iff.mpr hrole]

theorem mem_of_length_le_one {α : Type} (l : List α) (hl : l.length ≤ 1)
    (a b : α) (ha : a ∈ l) (hb : b ∈ l) : a = b := by
  cases l with
  | nil => cases ha
  | cons x xs =>
    cases xs with
    | nil =>
      rw [List.mem_singleton] at ha hb
      rw [ha, hb]
    | cons y ys => simp at hl

/-- C6: `isAnswerMessage` returns `true` iff the message carries a reaction
matching the configured answer emoji and at least one non-bot reacting user
resolves to a guild member holding the configured publisher role (the loop
short-circuits on the first such user); in particular a message whose
answer-emoji reactors are all bots or non-publishers yields `false`.  The
`huniq` hypothesis states that at most one reaction entry matches the answer
emoji, which Discord guarantees (one reaction entry per distinct emoji). -/
theorem isAnswerMessage_iff (resolve : Str → Option Member)
    (publisherRoleId answerEmoji : Str) (message : Msg) (cache : MemberCache)
    (huniq : (message.reactions.filter
        (fun entry => reactionMatches entry.emoji answerEmoji)).length ≤ 1) :
    (isAnswerMessage resolve publisherRoleId answerEmoji message cache).1 = true ↔
      ∃ reaction ∈ message.reactions,
        reactionMatches reaction.emoji answerEmoji = true ∧
        ∃ u ∈ reaction.users, u.bot = false ∧
          memberHasRole (effMember resolve cache u.id) publisherRoleId = true := by
  rcases hf : message.reactions.find?
      (fun entry => reactionMatches entry.emoji answerEmoji) with _ | r
  · simp only [isAnswerMessage, hf]
    constructor
    · intro h
      exact Bool.noConfusion h
    · rintro ⟨reaction, hmem, hmatch, _⟩
      have hnone := List.find?_eq_none.mp hf reaction hmem
      exact absurd hmatch (by simpa using hnone)
  · simp only [isAnswerMessage, hf]
    rw [isAnswerLoop_spec]
    rw [List.any_eq_true]
    constructor
    · rintro ⟨u, hu, hcond⟩
      refine ⟨r, List.mem_of_find?_eq_some hf, by simpa using List.find?_some hf,
        u, hu, ?_, ?_⟩
      · rcases Bool.and_eq_true_iff.mp hcond with ⟨h1, _⟩
        simpa using h1
      · exact (Bool.and_eq_true_iff.mp hcond).2
    · rintro ⟨reaction, hmem, hmatch, u, hu, hbot, hrole⟩
      have hreq : reaction = r := by
        apply mem_of_length_le_one _ huniq
        · exact List.mem_filter.mpr ⟨hmem, hmatch⟩
        · exact List.mem_filter.mpr ⟨List.mem_of_find?_eq_some hf,
            by simpa using List.find?_some hf⟩
      subst hreq
      exact ⟨u, hu, by simp [hbot, hrole]⟩

/-- Witness for C6 at a concrete message: one matching reaction whose single
reactor is a non-bot publisher. -/
theorem isAnswerMessage_iff_witness :
    (isAnswerMessage
        (fun _ => some (Member.mk (str "n") (str "#ffffff")
          [Role.mk (str "pub") 1 none] (str "a")))
        (str "pub") (str "ok")
        (Msg.mk (str "1") none none 0 [] [] []
          [Reaction.mk (ReactionEmoji.mk none (some (str "ok")) false)
            (some 1) [MUser.mk (str "u") none none false []]] none [])
        []).1 = true ↔
      ∃ reaction ∈ (Msg.mk (str "1") none none 0 [] [] []
          [Reaction.mk (ReactionEmoji.mk none (some (str "ok")) false)
            (some 1) [MUser.mk (str "u") none none false []]] none []).reactions,
        reactionMatches reaction.emoji (str "ok") = true ∧
        ∃ u ∈ reaction.users, u.bot = false ∧
          memberHasRole (effMember
            (fun _ => some (Member.mk (str "n") (str "#ffffff")
              [Role.mk (str "pub") 1 none] (str "a"))) [] u.id)
            (str "pub") = true :=
  isAnswerMessage_iff _ _ _ _ _ (by decide)

/-! ## Output deletion and the page index (`removeThread`) -/

/-- A filesystem path as a list of segments. -/
abbrev FsPath := List Str

/-- The files on disk, as a list of file paths. -/
abbrev Fs := List FsPath

/-- `deleteDir` from `src/app.ts` (193-195): `rm(dir, { recursive: true,
force: true })` removes every file under the directory and, thanks to
`force`, succeeds (as a no-op) when nothing exists; it is modelled as a total
filter. -/
def deleteDir (dir : FsPath) (fs : Fs) : Fs :=
  fs.filter (fun p => !(dir.isPrefixOf p))

/-- `getThreadOutputDir` from `src/app.ts` (484-486):
`path.join(outputDir, "threads", threadId)` as path segments. -/
def getThreadOutputDirP (outputDir : FsPath) (threadId : Str) : FsPath :=
  outputDir ++ [str "threads", threadId]

/-- The asset namespace directory `assets/{threadId}` of a thread. -/
def threadAssetsDirP (outputDir : FsPath) (threadId : Str) : FsPath :=
  outputDir ++ [str "assets", threadId]

/-- `deleteThreadOutput` from `src/app.ts` (1214-1217): delete the thread's
page directory, then its asset namespace. -/
def deleteThreadOutput (outputDir : FsPath) (threadId : Str) (fs : Fs) : Fs :=
  deleteDir (threadAssetsDirP outputDir threadId)
    (deleteDir (getThreadOutputDirP outputDir threadId) fs)

/-- Persisted per-thread metadata (`PageMeta`, `src/app.ts` 29-35). -/
structure PageMeta where
  threadId : Str
  title : Str
  createdAt : Int
  excerpt : Str
  pageRelPath : Str
  deriving Repr, DecidableEq

/-- The process-wide in-memory page index (`pageIndex : Map<string, PageMeta>`). -/
abbrev PageIndex := List (Str × PageMeta)

/-- The state `removeThread`/`generateThread` act on: the output files on
disk and the in-memory page index. -/
structure SiteState where
  fs : Fs
  pageIndex : PageIndex
  deriving Repr, DecidableEq

/-- `removeThread` from `src/app.ts` (1490-1509), restricted to its effect on
disk and on the in-memory index (the log message and the debounced index
rebuild are outward notifications): `deleteThreadOutput` then
`pageIndex.delete(thread.id)`. -/
def removeThread (outputDir : FsPath) (threadId : Str) (st : SiteState) :
    SiteState :=
  ⟨deleteThreadOutput outputDir threadId st.fs,
   st.pageIndex.filter (fun e => e.1 ≠ threadId)⟩

/-- C7: `removeThread` removes exactly the files under the thread's page
directory `threads/{threadId}` and its asset namespace `assets/{threadId}`,
removes the thread id from the in-memory page index, and is a total function
that acts as a no-op (never an error) when no such thread was ever
generated. -/
theorem removeThread_spec (outputDir : FsPath) (threadId : Str)
    (st : SiteState) :
    (∀ p, p ∈ (removeThread outputDir threadId st).fs ↔ p ∈ st.fs ∧
      (getThreadOutputDirP outputDir threadId).isPrefixOf p = false ∧
      (threadAssetsDirP outputDir threadId).isPrefixOf p = false) ∧
    (∀ e, e ∈ (removeThread outputDir threadId st).pageIndex ↔
      e ∈ st.pageIndex ∧ e.1 ≠ threadId) ∧
    ((∀ p ∈ st.fs,
        (getThreadOutputDirP outputDir threadId).isPrefixOf p = false ∧
        (threadAssetsDirP outputDir threadId).isPrefixOf p = false) →
      (∀ e ∈ st.pageIndex, e.1 ≠ threadId) →
      removeThread outputDir threadId st = st) := by
  refine ⟨?_, ?_, ?_⟩
  · intro p
    simp only [removeThread, deleteThreadOutput, deleteDir, List.mem_filter,
      Bool.not_eq_true']
    constructor
    · rintro ⟨⟨hmem, h1⟩, h2⟩
      exact ⟨hmem, h1, h2⟩
    · rintro ⟨hmem, h1, h2⟩
      exact ⟨⟨hmem, h1⟩, h2⟩
  · intro e
    simp only [removeThread, List.mem_filter, decide_eq_true_eq]
  · intro hfs hidx
    have h1 : deleteThreadOutput outputDir threadId st.fs = st.fs := by
      have hinner : st.fs.filter
          (fun p => !(getThreadOutputDirP outputDir threadId).isPrefixOf p) =
          st.fs :=
        List.filter_eq_self.mpr (fun p hp => by simp [(hfs p hp).1])
      have houter : st.fs.filter
          (fun p => !(threadAssetsDirP outputDir threadId).isPrefixOf p) =
          st.fs :=
        List.filter_eq_self.mpr (fun p hp => by simp [(hfs p hp).2])
      unfold deleteThreadOutput deleteDir
      rw [hinner, houter]
    have h2 : st.pageIndex.filter (fun e => e.1 ≠ threadId) = st.pageIndex :=
      List.filter_eq_self.mpr (fun e he => by simp [hidx e he])
    unfold removeThread
    rw [h1, h2]

/-- Witness for C7: removing a never-generated thread from an empty state is
a successful no-op. -/
theorem removeThread_spec_witness :
    removeThread [str "out"] (str "t1") ⟨[], []⟩ = ⟨[], []⟩ :=
  (removeThread_spec [str "out"] (str "t1") ⟨[], []⟩).2.2
    (by intro p hp; cases hp) (by intro e he; cases he)

/-! ## HTML escaping, mention replacement, reply blocks -/

/-- JavaScript global literal replace (`s.split(pat).join(rep)` and
single-character regex replaces). -/
def replaceAllL (pat rep : Str) (s : Str) : Str :=
  scanRewrite
    (fun t => if pat ≠ [] ∧ pat.isPrefixOf t then some (pat.length, rep)
      else none) s.length s

/-- `escapeHtml` from `src/app.ts` (130-137): the five sequential global
character replaces. -/
def escapeHtml (value : Str) : Str :=
  replaceAllL [Char.ofNat 39] (str "&#39;")
    (replaceAllL [Char.ofNat 34] (str "&quot;")
      (replaceAllL ['>'] (str "&gt;")
        (replaceAllL ['<'] (str "&lt;")
          (replaceAllL ['&'] (str "&amp;") value))))

/-- `DEFAULT_AUTHOR_COLOR` from `src/app.ts` (line 81). -/
def DEFAULT_AUTHOR_COLOR : Str := str "#8b949e"

/-- ASCII `toLowerCase`. -/
def lowerStr (s : Str) : Str := s.map Char.toLower

/-- `isDefaultColor` from `src/app.ts` (181-183):
`!color || color.toLowerCase() === "#000000"`; `none` models the missing
member (`member?.displayHexColor` undefined). -/
def isDefaultColor (color : Option Str) : Bool :=
  match color with
  | none => true
  | some c => c = [] || lowerStr c = str "#000000"

/-- Per-mention resolved display data (`MentionInfo`, `src/app.ts` 51-54). -/
structure MentionInfo where
  name : Str
  color : Str
  deriving Repr, DecidableEq

/-- The resolved display name
`member?.displayName ?? user.username ?? user.tag ?? "Unknown"`
(also used with a possibly missing author in `buildReplyHtml`). -/
def resolvedNameOpt (member : Option Member) (user : Option MUser) : Str :=
  match member with
  | some m => m.displayName
  | none =>
    match user with
    | some u =>
      match u.username with
      | some n => n
      | none => u.tag.getD (str "Unknown")
    | none => str "Unknown"

/-- The resolved display color: the default on an unset or pure-black color,
otherwise the member's color. -/
def resolvedColor (member : Option Member) : Str :=
  if isDefaultColor (member.map (fun m => m.displayHexColor)) then
    DEFAULT_AUTHOR_COLOR
  else (member.map (fun m => m.displayHexColor)).getD DEFAULT_AUTHOR_COLOR

/-- `buildMentionMap` from `src/app.ts` (644-664): resolve each mentioned
user's display name and color through the member cache, in mention order. -/
def buildMentionMap (resolve : Str → Option Member) :
    List MUser → MemberCache → List (Str × MentionInfo) × MemberCache
  | [], cache => ([], cache)
  | user :: rest, cache =>
    let mc := getCachedMember resolve cache user.id
    let r := buildMentionMap resolve rest mc.2
    ((user.id, ⟨resolvedNameOpt mc.1 (some user), resolvedColor mc.1⟩) :: r.1,
      r.2)

/-- The literal form `<@id>`. -/
def mentionPat (id : Str) : Str := '<' :: '@' :: id ++ ['>']

/-- The literal form `<@!id>`. -/
def mentionPatBang (id : Str) : Str := '<' :: '@' :: '!' :: id ++ ['>']

/-- One global replace of the regex `` `<@!?${id}>` `` by `rep`: the greedy
`!?` tries the `<@!id>` form first at each position. -/
def replaceMention (id rep : Str) (s : Str) : Str :=
  scanRewrite (fun t =>
    if (mentionPatBang id).isPrefixOf t then
      some ((mentionPatBang id).length, rep)
    else if (mentionPat id).isPrefixOf t then
      some ((mentionPat id).length, rep)
    else none) s.length s

/-- `replaceMentionsPlain` from `src/app.ts` (692-701): for each mentioned
identity replace `<@id>`/`<@!id>` with plain `@name` text. -/
def replaceMentionsPlain (mentionMap : List (Str × MentionInfo))
    (text : Str) : Str :=
  mentionMap.foldl (fun result e => replaceMention e.1 ('@' :: e.2.name) result)
    text

/-- The reply block markup emitted by `buildReplyHtml`
(`src/app.ts` 1335-1340). -/
def replyBlockHtml (refId color author cleanText : Str) : Str :=
  str "<div class=\"reply\">\n  <span>Ответ на <a href=\"#m-" ++
    escapeHtml refId ++ str "\" style=\"color: " ++ escapeHtml color ++
    str "\">" ++ escapeHtml author ++ str "</a></span>\n  <p>" ++
    escapeHtml cleanText ++ str "</p>\n</div>"

/-- `buildReplyHtml` from `src/app.ts` (1300-1341): resolve the referenced
message from the already-fetched message set, build its mention map, resolve
the referenced author, and produce a reply block with a truncated plain-text
preview; the block is omitted (empty string) when there is no reference, the
referenced message is absent, or the preview is empty. -/
def buildReplyHtml (resolve : Str → Option Member) (message : Msg)
    (messageById : List (Str × Msg)) (memberCache : MemberCache) :
    Str × MemberCache :=
  match message.reference with
  | none => ([], memberCache)
  | some refId =>
    match lookupA messageById refId with
    | none => ([], memberCache)
    | some referenced =>
      let mm := buildMentionMap resolve referenced.mentionUsers memberCache
      let authorId : Option Str :=
        match referenced.author with
        | some au => if au.id = [] then none else some au.id
        | none => none
      let mc2 :=
        match authorId with
        | some aid => getCachedMember resolve mm.2 aid
        | none => (referenced.member, mm.2)
      let author := resolvedNameOpt mc2.1 referenced.author
      let color := resolvedColor mc2.1
      let plainText := stripMarkdown referenced.content
      let cleanText := truncateText (replaceMentionsPlain mm.1 plainText) 80
      if cleanText = [] then ([], mc2.2)
      else (replyBlockHtml refId color author cleanText, mc2.2)

theorem replyBlockHtml_ne_nil (refId color author cleanText : Str) :
    replyBlockHtml refId color author cleanText ≠ [] := by
  unfold replyBlockHtml
  intro h
  have := congrArg List.length h
  simp [str, List.length_append] at this

/-- C9: `buildReplyHtml` returns the empty string (the reply block is
silently omitted, not an error) iff the message has no reply reference, the
referenced message id is absent from the thread's already-fetched message
set, or the markdown-stripped, mention-replaced, truncated preview text is
empty; otherwise it returns the reply block containing the truncated
plain-text preview of the referenced message. -/
theorem buildReplyHtml_spec (resolve : Str → Option Member) (message : Msg)
    (messageById : List (Str × Msg)) (cache : MemberCache) :
    ((buildReplyHtml resolve message messageById cache).1 = [] ↔
      message.reference = none ∨
      (∃ refId, message.reference = some refId ∧
        lookupA messageById refId = none) ∨
      (∃ refId referenced, message.reference = some refId ∧
        lookupA messageById refId = some referenced ∧
        truncateText (replaceMentionsPlain
            (buildMentionMap resolve referenced.mentionUsers cache).1
            (stripMarkdown referenced.content)) 80 = [])) ∧
    (∀ refId referenced, message.reference = some refId →
      lookupA messageById refId = some referenced →
      truncateText (replaceMentionsPlain
          (buildMentionMap resolve referenced.mentionUsers cache).1
          (stripMarkdown referenced.content)) 80 ≠ [] →
      ∃ color author,
        (buildReplyHtml resolve message messageById cache).1 =
          replyBlockHtml refId color author
            (truncateText (replaceMentionsPlain
                (buildMentionMap resolve referenced.mentionUsers cache).1
                (stripMarkdown referenced.content)) 80)) := by
  constructor
  · rcases href : message.reference with _ | refId
    · simp [buildReplyHtml, href]
    · rcases hlk : lookupA messageById refId with _ | referenced
      · simp [buildReplyHtml, href, hlk]
      · simp only [buildReplyHtml, href, hlk]
        by_cases hclean : truncateText (replaceMentionsPlain
            (buildMentionMap resolve referenced.mentionUsers cache).1
            (stripMarkdown referenced.content)) 80 = []
        · simp only [hclean, if_pos rfl]
          constructor
          · intro _
            exact Or.inr (Or.inr ⟨refId, referenced, rfl, hlk, hclean⟩)
          · intro _
            rfl
        · rw [if_neg hclean]
          constructor
          · intro h
            exact absurd h (replyBlockHtml_ne_nil _ _ _ _)
          · rintro (h | ⟨rid, hrid, hnone⟩ | ⟨rid, ref2, hrid, hsome, hempty⟩)
            · exact Option.noConfusion h
            · injection hrid with hrid
              subst hrid
              rw [hlk] at hnone
              exact Option.noConfusion hnone
            · injection hrid with hrid
              subst hrid
              rw [hlk] at hsome
              injection hsome with hsome
              subst hsome
              exact absurd hempty hclean
  · intro refId referenced hrid hsome hclean
    simp only [buildReplyHtml, hrid, hsome]
    rw [if_neg hclean]
    exact ⟨_, _, rfl⟩

/-- Witness for C9 at a concrete reply to a present referenced message. -/
theorem buildReplyHtml_spec_witness :
    ∃ color author,
      (buildReplyHtml (fun _ => none)
        (Msg.mk (str "1") none none 0 [] [] [] [] (some (str "2")) [])
        [(str "2", Msg.mk (str "2") none none 0 (str "hi") [] [] [] none [])]
        []).1 =
      replyBlockHtml (str "2") color author
        (truncateText (replaceMentionsPlain
          (buildMentionMap (fun _ => none)
            (Msg.mk (str "2") none none 0 (str "hi") [] [] [] none
              []).mentionUsers []).1
          (stripMarkdown
            (Msg.mk (str "2") none none 0 (str "hi") [] [] [] none
              []).content)) 80) :=
  (buildReplyHtml_spec (fun _ => none)
      (Msg.mk (str "1") none none 0 [] [] [] [] (some (str "2")) [])
      [(str "2", Msg.mk (str "2") none none 0 (str "hi") [] [] [] none [])]
      []).2 (str "2") (Msg.mk (str "2") none none 0 (str "hi") [] [] [] none [])
    rfl (by decide) (by decide)

/-! ## Small utilities shared by the page pipeline -/

/-- Decimal rendering of the numbers interpolated into templates. -/
def intToStr (i : Int) : Str :=
  if i < 0 then '-' :: Nat.toDigits 10 i.natAbs else Nat.toDigits 10 i.toNat

/-- `sanitizeFilename` from `src/app.ts` (168-171): trim, replace the
reserved characters by `-`, fall back to `"file"`. -/
def sanitizeFilename (name : Str) : Str :=
  let trimmed := (trimJs name).map (fun c =>
    if c = '/' || c = '\\' || c = '?' || c = '%' || c = '*' || c = ':' ||
        c = '|' || c = Char.ofNat 34 || c = '<' || c = '>' then '-' else c)
  if trimmed = [] then str "file" else trimmed

/-- Case-insensitive suffix test (regex `\.ext$/i`). -/
def hasSuffixCI (suf : Str) (s : Str) : Bool :=
  suf.isSuffixOf (lowerStr s)

/-- `looksLikeImageFile` from `src/app.ts` (173-175). -/
def looksLikeImageFile (name : Str) : Bool :=
  hasSuffixCI (str ".png") name || hasSuffixCI (str ".jpg") name ||
  hasSuffixCI (str ".jpeg") name || hasSuffixCI (str ".gif") name ||
  hasSuffixCI (str ".webp") name || hasSuffixCI (str ".bmp") name ||
  hasSuffixCI (str ".svg") name

/-- `looksLikeVideoFile` from `src/app.ts` (177-179). -/
def looksLikeVideoFile (name : Str) : Bool :=
  hasSuffixCI (str ".mp4") name || hasSuffixCI (str ".webm") name ||
  hasSuffixCI (str ".mov") name || hasSuffixCI (str ".m4v") name

/-- The suffix after the first occurrence of `pat`. -/
def afterSubstr (pat : Str) : Str → Option Str
  | [] => if pat = [] then some [] else none
  | c :: rest =>
    if pat.isPrefixOf (c :: rest) then some ((c :: rest).drop pat.length)
    else afterSubstr pat rest

/-- Drop characters up to (but not including) the first `/`. -/
def dropUntilSlash : Str → Str
  | [] => []
  | '/' :: r => '/' :: r
  | _ :: r => dropUntilSlash r

/-- `new URL(url).pathname` for an `http(s)://` URL: the part after the
authority up to any query or fragment (`"/"` when the URL has no path). -/
def urlPathname (url : Str) : Str :=
  match afterSubstr (str "://") url with
  | some r =>
    let afterHost := dropUntilSlash r
    if afterHost = [] then ['/']
    else afterHost.takeWhile (fun c => c ≠ '?' && c ≠ '#')
  | none => url

/-- `path.basename`: the segment after the last `/`. -/
def basenameP (p : Str) : Str :=
  (p.reverse.takeWhile (fun c => c ≠ '/')).reverse

/-- Replace the first occurrence of `pat` (JavaScript
`String.prototype.replace` with a string pattern). -/
def replaceFirst (pat rep : Str) : Str → Str
  | [] => []
  | c :: rest =>
    if pat ≠ [] ∧ pat.isPrefixOf (c :: rest) then
      rep ++ (c :: rest).drop pat.length
    else c :: replaceFirst pat rep rest

/-- `String.prototype.matchAll`: collect every leftmost non-overlapping
match, returning the match text and the matcher's capture.  `fuel` makes the
recursion structural; every use passes `s.length`. -/
def collectMatches {γ : Type} (matcher : Str → Option (Nat × γ)) :
    Nat → Str → List (Str × γ)
  | _, [] => []
  | 0, _ => []
  | fuel + 1, c :: rest =>
    match matcher (c :: rest) with
    | some (n, cap) =>
      ((c :: rest).take n, cap) :: collectMatches matcher fuel (rest.drop (n - 1))
    | none => collectMatches matcher fuel rest

/-- JavaScript `Array.prototype.join`. -/
def joinSep (sep : Str) : List Str → Str
  | [] => []
  | [x] => x
  | x :: xs => x ++ sep ++ joinSep sep xs

/-- One character of `JSON.stringify` string escaping. -/
def jsonEscapeChar (c : Char) : Str :=
  if c = Char.ofNat 34 then ['\\', Char.ofNat 34]
  else if c = '\\' then ['\\', '\\']
  else if c = Char.ofNat 8 then ['\\', 'b']
  else if c = Char.ofNat 9 then ['\\', 't']
  else if c = Char.ofNat 10 then ['\\', 'n']
  else if c = Char.ofNat 12 then ['\\', 'f']
  else if c = Char.ofNat 13 then ['\\', 'r']
  else if c.toNat < 32 then
    '\\' :: 'u' :: '0' :: '0' ::
      [(str "0123456789abcdef").getD (c.toNat / 16) '0',
       (str "0123456789abcdef").getD (c.toNat % 16) '0']
  else [c]

/-- `JSON.stringify` escaping of a string body. -/
def jsonEscape (s : Str) : Str :=
  (s.map jsonEscapeChar).flatten

/-- A JSON string literal. -/
def jsonStr (s : Str) : Str :=
  Char.ofNat 34 :: jsonEscape s ++ [Char.ofNat 34]

/-- The regex `\w` class `[A-Za-z0-9_]`. -/
def isWordChar (c : Char) : Bool :=
  c.isAlpha || c.isDigit || c = '_'

/-- `\x7b` as a character. -/
def lbrace : Char := Char.ofNat 123

/-- `\x7d` as a character. -/
def rbrace : Char := Char.ofNat 125

/-- `renderTemplate` from `src/app.ts` (213-220): replace every
`\x7b\x7bkey\x7d\x7d` placeholder whose key is a known variable by its
value; placeholders with unknown keys stay as literal text. -/
def renderTemplate (template : Str) (vars : List (Str × Str)) : Str :=
  scanRewrite (fun t =>
    match t with
    | c1 :: c2 :: rest =>
      if c1 = lbrace ∧ c2 = lbrace then
        let w := rest.takeWhile isWordChar
        if w ≠ [] ∧ (rest.drop w.length).take 2 = [rbrace, rbrace] then
          some (w.length + 4,
            match lookupA vars w with
            | some v => v
            | none => lbrace :: lbrace :: w ++ [rbrace, rbrace])
        else none
      else none
    | _ => none) template.length template

/-! ## The page-build environment and thread inputs -/

/-- A forum tag definition from the parent channel. -/
structure ForumTag where
  id : Str
  name : Str
  emojiId : Option Str
  emojiName : Option Str
  emojiAnimated : Bool
  deriving Repr, DecidableEq

/-- The thread identity `buildThreadPage` consumes. -/
structure ThreadCh where
  id : Str
  name : Str
  url : Str
  createdAt : Option Int
  appliedTags : List Str
  parentId : Option Str
  deriving Repr, DecidableEq

/-- The external collaborators and configuration fixed for one
`buildThreadPage` run: the `markdown-it` renderer with the custom link and
image rules installed (`mdRender`), the date formatters
(`toLocaleString("ru-RU")` and `toISOString`), URL resolution
(`new URL(rel, base).toString()`), the network (`fetchOk`), the member and
parent-forum lookups, the loaded thread template and the configured
constants. -/
structure Env where
  mdRender : Str → Str
  fmtRu : Int → Str
  isoFmt : Int → Str
  resolveUrl : Str → Str → Str
  fetchOk : Str → Bool
  resolveMember : Str → Option Member
  fetchForumTags : Str → Option (List ForumTag)
  threadTemplate : Str
  publisherRoleId : Str
  answerEmoji : Str
  publishEmoji : Str
  siteKeywords : Str
  siteTitle : Str
  baseUrl : Option Str

/-! ## Content rewriting (`collectMessageAssets` and its passes) -/

/-- The `../../` prefix from a thread page to the output root. -/
def assetRelPrefix : Str := str "../../"

/-- The body of the list-marker regex after the `(^|\n)` anchor:
`\s*(\d+)\)\s+`, returning the match length and the replacement `$2\) `
(without the captured anchor). -/
def listMarkerBody (t : Str) : Option (Nat × Str) :=
  let ws := t.takeWhile isWsChar
  let t1 := t.drop ws.length
  let ds := t1.takeWhile Char.isDigit
  if ds = [] then none
  else
    match t1.drop ds.length with
    | ')' :: t2 =>
      let ws2 := t2.takeWhile isWsChar
      if ws2 = [] then none
      else some (ws.length + ds.length + 1 + ws2.length, ds ++ ['\\', ')', ' '])
    | _ => none

/-- The `\n`-anchored alternative of the list-marker regex. -/
def listMarkerNl (t : Str) : Option (Nat × Str) :=
  match t with
  | '\n' :: t1 => (listMarkerBody t1).map (fun x => (1 + x.1, '\n' :: x.2))
  | _ => none

/-- The replace `markdown.replace(/(^|\n)\s*(\d+)\)\s+/g, "$1$2\\) ")`
(`src/app.ts` line 722): escape numeric list markers at the start of the
text or of a line. -/
def escapeListMarkers (s : Str) : Str :=
  match listMarkerBody s with
  | some (n, rep) => rep ++ scanRewrite listMarkerNl (s.drop n).length (s.drop n)
  | none => scanRewrite listMarkerNl s.length s

/-- The opaque placeholder token for a mentioned identity
(`src/app.ts` line 674). -/
def mentionToken (id : Str) : Str :=
  str "@@MENTION:" ++ id ++ str "@@"

/-- The finished mention markup (`src/app.ts` lines 675-677). -/
def mentionHtml (info : MentionInfo) : Str :=
  str "<span class=\"mention\" style=\"color: " ++ escapeHtml info.color ++
    str "\">@" ++ escapeHtml info.name ++ str "</span>"

/-- `replaceMentionsWithTokens` from `src/app.ts` (666-682): for each
mention-map entry replace `<@id>`/`<@!id>` with the opaque token and record
the token-to-markup pair, in map order. -/
def replaceMentionsWithTokens (mentionMap : List (Str × MentionInfo))
    (text : Str) : Str × List (Str × Str) :=
  mentionMap.foldl (fun acc e =>
    (replaceMention e.1 (mentionToken e.1) acc.1,
     acc.2 ++ [(mentionToken e.1, mentionHtml e.2)])) (text, [])

/-- `applyMentionTokens` from `src/app.ts` (684-690):
`result.split(token).join(value)` for each recorded token. -/
def applyMentionTokens (html : Str) (tokens : List (Str × Str)) : Str :=
  tokens.foldl (fun result e => replaceAllL e.1 e.2 result) html

/-- The `name:id>` tail of the custom-emoji regex
`<(?<animated>a)?:(?<name>[a-zA-Z0-9_]+):(?<id>\d+)>`, returning the
consumed length and the name and id captures. -/
def customEmojiAfterColon (r : Str) : Option (Nat × (Str × Str)) :=
  let nm := r.takeWhile isWordChar
  if nm = [] then none
  else
    match r.drop nm.length with
    | ':' :: r2 =>
      let idd := r2.takeWhile Char.isDigit
      if idd = [] then none
      else
        match r2.drop idd.length with
        | '>' :: _ => some (nm.length + 1 + idd.length + 1, (nm, idd))
        | _ => none
    | _ => none

/-- The custom-emoji regex anchored at the current position, returning the
match length and the `(animated, name, id)` captures. -/
def customEmojiMatchAt (t : Str) : Option (Nat × (Bool × Str × Str)) :=
  match t with
  | '<' :: 'a' :: ':' :: r =>
    (customEmojiAfterColon r).map (fun x => (3 + x.1, (true, x.2)))
  | '<' :: ':' :: r =>
    (customEmojiAfterColon r).map (fun x => (2 + x.1, (false, x.2)))
  | _ => none

/-- The Discord CDN URL of a custom emoji. -/
def emojiCdnUrl (id ext : Str) : Str :=
  str "https://cdn.discordapp.com/emojis/" ++ id ++ '.' :: ext

/-- `rewriteCustomEmojis` from `src/app.ts` (556-585): download each custom
emoji through the asset store and replace the first occurrence of its raw
syntax with markdown image syntax whose alt text starts with `:`; failures
leave the raw syntax in place. -/
def rewriteCustomEmojis (env : Env) (content : Str)
    (downloaded : List (Str × Str)) : Str × List (Str × Str) :=
  (collectMatches customEmojiMatchAt content.length content).foldl
    (fun acc m =>
      let isAnimated := m.2.1
      let nm := m.2.2.1
      let idd := m.2.2.2
      let ext := if isAnimated then str "gif" else str "png"
      let url := emojiCdnUrl idd ext
      let fileName := str "emoji-" ++ idd ++ '.' :: ext
      let d := downloadAsset env.fetchOk url (str "assets/emojis") fileName acc.2
      match d.res with
      | some localRel =>
        (replaceFirst m.1
          (str "![:" ++ nm ++ str "](" ++ assetRelPrefix ++ localRel ++ str ")")
          acc.1, d.downloaded)
      | none => (acc.1, d.downloaded))
    (content, downloaded)

/-- The inline-image regex `!\[[^\]]*]\((https?:\/\/[^)]+)\)` anchored at
the current position, returning the match length and the captured URL. -/
def inlineImageMatchAt (t : Str) : Option (Nat × Str) :=
  match t with
  | '!' :: '[' :: rest =>
    let a := rest.takeWhile (fun c => c ≠ ']')
    match rest.drop a.length with
    | ']' :: '(' :: s2 =>
      let b := s2.takeWhile (fun c => c ≠ ')')
      if ((str "http://").isPrefixOf b && decide (7 < b.length)) ||
          ((str "https://").isPrefixOf b && decide (8 < b.length)) then
        match s2.drop b.length with
        | ')' :: _ => some (2 + a.length + 2 + b.length + 1, b)
        | _ => none
      else none
    | _ => none
  | _ => none

/-- `rewriteInlineImages` from `src/app.ts` (518-554): download each inline
remote image through the asset store; on success replace the URL inside the
first occurrence of the match with the local path and record the local path
as an image candidate; on failure keep the match unchanged. -/
def rewriteInlineImages (env : Env) (threadId messageId : Str) (content : Str)
    (downloaded : List (Str × Str)) : Str × List (Str × Str) × List Str :=
  (collectMatches inlineImageMatchAt content.length content).foldl
    (fun acc m =>
      let url := m.2
      let fileName := messageId ++ str "-inline-" ++
        sanitizeFilename (basenameP (urlPathname url))
      let d := downloadAsset env.fetchOk url (str "assets/" ++ threadId)
        fileName acc.2.1
      match d.res with
      | some localRel =>
        (replaceFirst m.1 (replaceFirst url (assetRelPrefix ++ localRel) m.1)
          acc.1, d.downloaded, acc.2.2 ++ [localRel])
      | none =>
        (replaceFirst m.1 m.1 acc.1, d.downloaded, acc.2.2))
    (content, downloaded, [])

/-- The result of `collectMessageAssets` (`AssetResult`, `src/app.ts`
56-61). -/
structure AssetResult where
  markdown : Str
  extraHtml : List Str
  imageRels : List Str
  mentionTokens : List (Str × Str)
  deriving Repr, DecidableEq

/-- The evolving state of the attachment and embed loops of
`collectMessageAssets`. -/
structure AttState where
  markdown : Str
  extraHtml : List Str
  images : List Str
  downloaded : List (Str × Str)
  deriving Repr, DecidableEq

/-- One attachment iteration of `collectMessageAssets`
(`src/app.ts` 744-781): download the attachment, then emit a raw video
player, an inline image, or a plain link depending on its type. -/
def attachmentStep (env : Env) (threadId messageId : Str) (att : Attachment)
    (st : AttState) : AttState :=
  let url := att.url
  let safeName := sanitizeFilename (att.name.getD (basenameP url))
  let fileName := messageId ++ '-' :: safeName
  let d := downloadAsset env.fetchOk url (str "assets/" ++ threadId) fileName
    st.downloaded
  let link := match d.res with
    | some localRel => assetRelPrefix ++ localRel
    | none => url
  let isImage := (match att.contentType with
    | some ct => (str "image/").isPrefixOf ct
    | none => false) || looksLikeImageFile url
  let isGif := att.contentType = some (str "image/gif") ||
    hasSuffixCI (str ".gif") url || hasSuffixCI (str ".gif") (att.name.getD [])
  let isVideo := (match att.contentType with
    | some ct => (str "video/").isPrefixOf ct
    | none => false) || looksLikeVideoFile url
  if isVideo then
    ⟨st.markdown,
     st.extraHtml ++ [str "<video controls preload=\"none\"><source src=\"" ++
       escapeHtml link ++ str "\"></video>"],
     st.images, d.downloaded⟩
  else if isImage || isGif then
    ⟨st.markdown ++ str "\n\n![" ++ att.name.getD (str "image") ++
       str "](" ++ link ++ str ")",
     st.extraHtml, st.images ++ [d.res.getD url], d.downloaded⟩
  else
    ⟨st.markdown ++ str "\n\n[" ++ att.name.getD (str "file") ++
       str "](" ++ link ++ str ")",
     st.extraHtml, st.images, d.downloaded⟩

/-- One embed iteration of `collectMessageAssets` (`src/app.ts` 783-799). -/
def embedStep (env : Env) (threadId messageId : Str) (embed : Embed)
    (st : AttState) : AttState :=
  match (match embed.imageUrl with
         | some u => some u
         | none => embed.thumbnailUrl) with
  | none => st
  | some embedUrl =>
    let fileName := messageId ++ str "-embed-" ++
      sanitizeFilename (basenameP (urlPathname embedUrl))
    let d := downloadAsset env.fetchOk embedUrl (str "assets/" ++ threadId)
      fileName st.downloaded
    let link := match d.res with
      | some localRel => assetRelPrefix ++ localRel
      | none => embedUrl
    ⟨st.markdown ++ str "\n\n![embed](" ++ link ++ str ")",
     st.extraHtml, st.images ++ [d.res.getD embedUrl], d.downloaded⟩

/-- `collectMessageAssets` from `src/app.ts` (703-802): list-marker
escaping, gif normalisation, mention tokenisation, custom-emoji and inline
image localisation, then attachments and embeds. -/
def collectMessageAssets (env : Env) (message : Msg) (threadId : Str)
    (mentionMap : List (Str × MentionInfo))
    (downloaded : List (Str × Str)) : AssetResult × List (Str × Str) :=
  let md0 := escapeListMarkers message.content
  let md1 := normalizeGifLinks md0
  let rep := replaceMentionsWithTokens mentionMap md1
  let ce := rewriteCustomEmojis env rep.1 downloaded
  let ri := rewriteInlineImages env threadId message.id ce.1 ce.2
  let afterAtt := message.attachments.foldl
    (fun st att => attachmentStep env threadId message.id att st)
    ⟨ri.1, [], ri.2.2, ri.2.1⟩
  let afterEmb := message.embeds.foldl
    (fun st emb => embedStep env threadId message.id emb st) afterAtt
  (⟨afterEmb.markdown, afterEmb.extraHtml, afterEmb.images, rep.2⟩,
   afterEmb.downloaded)

/-! ## Author profiles, reactions and tags -/

/-- `AuthorProfile` from `src/app.ts` (44-49). -/
structure AuthorProfile where
  name : Str
  color : Str
  avatarRel : Option Str
  roleIconRel : Option Str
  deriving Repr, DecidableEq

/-- The per-run caches threaded through `getAuthorProfile`. -/
structure ProfileCaches where
  avatarCache : List (Str × Str)
  roleIconCache : List (Str × Str)
  memberCache : MemberCache
  downloaded : List (Str × Str)
  deriving Repr, DecidableEq

/-- `getAuthorProfile` from `src/app.ts` (804-901): resolve the author's
member, display name and color, the best avatar (cached per user per run)
and the highest-positioned role icon (cached per role per run). -/
def getAuthorProfile (env : Env) (message : Msg) (pc : ProfileCaches) :
    AuthorProfile × ProfileCaches :=
  match message.author with
  | none => (⟨str "Unknown", DEFAULT_AUTHOR_COLOR, none, none⟩, pc)
  | some user =>
    let mc := getCachedMember env.resolveMember pc.memberCache user.id
    let member := mc.1
    let memberCache := mc.2
    let name := resolvedNameOpt member (some user)
    let color := resolvedColor member
    let avatarUrl := match member with
      | some m => m.avatarURL
      | none => user.avatarURL
    let av : Option Str × List (Str × Str) × List (Str × Str) :=
      if avatarUrl ≠ [] then
        let cached := (lookupA pc.avatarCache user.id).getD []
        if cached ≠ [] then (some cached, pc.avatarCache, pc.downloaded)
        else
          let d := downloadAsset env.fetchOk avatarUrl (str "assets/avatars")
            (str "avatar-" ++ user.id ++ str ".png") pc.downloaded
          match d.res with
          | some rel => (some rel, (user.id, rel) :: pc.avatarCache, d.downloaded)
          | none => (none, pc.avatarCache, d.downloaded)
      else (none, pc.avatarCache, pc.downloaded)
    let ri : Option Str × List (Str × Str) × List (Str × Str) :=
      match member with
      | none => (none, pc.roleIconCache, av.2.2)
      | some m =>
        let sorted := m.roles.mergeSort (fun a b => decide (b.position ≤ a.position))
        match sorted.find? (fun role => role.iconURL.isSome) with
        | none => (none, pc.roleIconCache, av.2.2)
        | some roleWithIcon =>
          let cached := (lookupA pc.roleIconCache roleWithIcon.id).getD []
          if cached ≠ [] then (some cached, pc.roleIconCache, av.2.2)
          else
            match roleWithIcon.iconURL with
            | some iconUrl =>
              if iconUrl ≠ [] then
                let d := downloadAsset env.fetchOk iconUrl (str "assets/roles")
                  (str "role-" ++ roleWithIcon.id ++ str ".png") av.2.2
                match d.res with
                | some rel =>
                  (some rel, (roleWithIcon.id, rel) :: pc.roleIconCache,
                   d.downloaded)
                | none => (none, pc.roleIconCache, d.downloaded)
              else (none, pc.roleIconCache, av.2.2)
            | none => (none, pc.roleIconCache, av.2.2)
    (⟨name, color, av.1, ri.1⟩, ⟨av.2.1, ri.2.1, memberCache, ri.2.2⟩)

/-- One reaction badge of `buildReactionsHtml` (`src/app.ts` 597-639). -/
def reactionPart (env : Env) (excludeEmojis : List Str) (r : Reaction)
    (st : List Str × List (Str × Str)) : List Str × List (Str × Str) :=
  let count := r.count.getD 0
  if count ≤ 0 then st
  else if excludeEmojis.any (fun e => reactionMatches r.emoji e) then st
  else
    match r.emoji.id with
    | some eid =>
      let ext := if r.emoji.animated then str "gif" else str "png"
      let url := emojiCdnUrl eid ext
      let fileName := str "emoji-" ++ eid ++ '.' :: ext
      let d := downloadAsset env.fetchOk url (str "assets/emojis") fileName st.2
      match d.res with
      | some localRel =>
        (st.1 ++ [str "<span class=\"reaction\"><img src=\"" ++
          escapeHtml (assetRelPrefix ++ localRel) ++ str "\" alt=\"" ++
          escapeHtml (r.emoji.name.getD (str "emoji")) ++
          str "\" width=\"18\" height=\"18\" loading=\"lazy\" decoding=\"async\"><em>" ++
          intToStr count ++ str "</em></span>"], d.downloaded)
      | none =>
        match r.emoji.name with
        | some nm =>
          (st.1 ++ [str "<span class=\"reaction\"><span class=\"emoji\">" ++
            escapeHtml nm ++ str "</span><em>" ++ intToStr count ++
            str "</em></span>"], d.downloaded)
        | none => (st.1, d.downloaded)
    | none =>
      match r.emoji.name with
      | some nm =>
        (st.1 ++ [str "<span class=\"reaction\"><span class=\"emoji\">" ++
          escapeHtml nm ++ str "</span><em>" ++ intToStr count ++
          str "</em></span>"], st.2)
      | none => st

/-- `buildReactionsHtml` from `src/app.ts` (587-642). -/
def buildReactionsHtml (env : Env) (message : Msg)
    (downloaded : List (Str × Str)) (excludeEmojis : List Str) :
    Str × List (Str × Str) :=
  if message.reactions.length = 0 then ([], downloaded)
  else
    let res := message.reactions.foldl
      (fun st r => reactionPart env excludeEmojis r st) ([], downloaded)
    if res.1 = [] then ([], res.2)
    else (str "<div class=\"reactions\">" ++ res.1.flatten ++ str "</div>",
      res.2)

/-- The icon markup of one thread tag (`src/app.ts` 343-363). -/
def tagIconPart (env : Env) (tag : ForumTag) (dl : List (Str × Str)) :
    Str × List (Str × Str) :=
  match tag.emojiId with
  | some eid =>
    let ext := if tag.emojiAnimated then str "gif" else str "png"
    let url := emojiCdnUrl eid ext
    let fileName := str "tag-" ++ eid ++ '.' :: ext
    let d := downloadAsset env.fetchOk url (str "assets/tags") fileName dl
    match d.res with
    | some localRel =>
      (str "<img src=\"" ++ escapeHtml (assetRelPrefix ++ localRel) ++
        str "\" alt=\"\" width=\"16\" height=\"16\" loading=\"lazy\" decoding=\"async\">",
       d.downloaded)
    | none => ([], d.downloaded)
  | none =>
    match tag.emojiName with
    | some nm =>
      (str "<span class=\"tag-emoji\">" ++ escapeHtml nm ++ str "</span>", dl)
    | none => ([], dl)

/-- `buildThreadTagsHtml` from `src/app.ts` (325-370): resolve each applied
tag id against the parent forum's tag table (ids missing from the table are
silently skipped) and render the tag chips. -/
def buildThreadTagsHtml (env : Env) (thread : ThreadCh)
    (downloaded : List (Str × Str)) : Str × List (Str × Str) :=
  match thread.parentId with
  | none => ([], downloaded)
  | some pid =>
    if thread.appliedTags.length = 0 then ([], downloaded)
    else
      match env.fetchForumTags pid with
      | none => ([], downloaded)
      | some availableTags =>
        let res := thread.appliedTags.foldl (fun st tagId =>
          match availableTags.find? (fun t => t.id = tagId) with
          | none => st
          | some tag =>
            let ic := tagIconPart env tag st.2
            (st.1 ++ [str "<span class=\"tag\">" ++ ic.1 ++
              escapeHtml tag.name ++ str "</span>"], ic.2))
          (([] : List Str), downloaded)
        if res.1 = [] then ([], res.2)
        else (str "<div class=\"tags\">" ++ res.1.flatten ++ str "</div>",
          res.2)

/-! ## Group rendering -/

/-- `RenderedMessage` from `src/app.ts` (63-71). -/
structure RenderedMessage where
  messageId : Str
  createdAt : Int
  htmlContent : Str
  extraHtml : List Str
  reactionsHtml : Str
  isAnswer : Bool
  replyHtml : Str
  deriving Repr, DecidableEq

/-- `MessageGroup` from `src/app.ts` (73-76). -/
structure MessageGroup where
  author : AuthorProfile
  messages : List RenderedMessage
  deriving Repr, DecidableEq

/-- One message item inside a group (`src/app.ts` 945-961). -/
def renderMessageItem (entry : RenderedMessage) : Str :=
  let answerBadge :=
    if entry.isAnswer then str "<span class=\"badge\">Ответ</span>" else []
  let body := joinSep (str "\n")
    (([entry.replyHtml, entry.htmlContent] ++ entry.extraHtml).filter
      (fun s => s ≠ []))
  str "<div id=\"m-" ++ escapeHtml entry.messageId ++
    str "\" class=\"message\" data-answer=\"" ++
    (if entry.isAnswer then str "true" else str "false") ++
    str "\">\n  <div class=\"meta\">" ++ answerBadge ++
    str "</div>\n  <div class=\"body\">\n" ++ body ++
    str "\n  </div>\n  " ++ entry.reactionsHtml ++ str "\n</div>"

/-- `renderGroupHtml` from `src/app.ts` (930-983).  `now` models the
`new Date()` fallback taken when a group is empty, which never happens in
the pipeline. -/
def renderGroupHtml (env : Env) (now : Int) (author : AuthorProfile)
    (messages : List RenderedMessage) : Str :=
  let groupTime := match messages.head? with
    | some m => m.createdAt
    | none => now
  let avatarHtml := match author.avatarRel with
    | some rel => str "<img src=\"" ++ escapeHtml (assetRelPrefix ++ rel) ++
        str "\" alt=\"" ++ escapeHtml author.name ++
        str "\" width=\"48\" height=\"48\" loading=\"lazy\" decoding=\"async\">"
    | none => []
  let items := joinSep (str "\n") (messages.map renderMessageItem)
  let roleIconHtml := match author.roleIconRel with
    | some rel => str "<img class=\"role-icon\" src=\"" ++
        escapeHtml (assetRelPrefix ++ rel) ++
        str "\" alt=\"\" width=\"18\" height=\"18\" loading=\"lazy\" decoding=\"async\">"
    | none => []
  str "<article class=\"group\">\n  <header>\n    " ++ avatarHtml ++
    str "\n    <div>\n      <h3 style=\"color: " ++ escapeHtml author.color ++
    str "\">" ++ escapeHtml author.name ++ roleIconHtml ++
    str "</h3>\n      <time datetime=\"" ++ env.isoFmt groupTime ++
    str "\">" ++ escapeHtml (env.fmtRu groupTime) ++
    str "</time>\n    </div>\n  </header>\n  <section>\n" ++ items ++
    str "\n  </section>\n</article>"

/-! ## The per-message pipeline and page assembly (`buildThreadPage`) -/

/-- The state threaded through the message loop of `buildThreadPage`
(lines 1040-1130): the asset store, the per-run caches, the social-preview
image candidates, the groups built so far (most recent first, each group's
messages most recent first) and the previously processed message. -/
structure PipeState where
  downloaded : List (Str × Str)
  avatarCache : List (Str × Str)
  roleIconCache : List (Str × Str)
  memberCache : MemberCache
  imageCandidates : List Str
  rgroups : List MessageGroup
  prev : Option Msg
  deriving Repr, DecidableEq

/-- The grouping transition of the message loop (lines 1112-1129), on the
reversed representation (`lastGroup` is the head, `lastMessage` the head of
its messages). -/
def groupPush (rgroups : List MessageGroup) (prev? : Option Msg)
    (message : Msg) (author : AuthorProfile) (rendered : RenderedMessage) :
    List MessageGroup :=
  match rgroups, prev? with
  | ⟨gAuthor, lastMsg :: gMsgs⟩ :: gs, some prev =>
    if isSameAuthor message prev &&
        decide ((rendered.createdAt - lastMsg.createdAt).natAbs ≤
          GROUP_WINDOW_MS)
    then ⟨gAuthor, rendered :: lastMsg :: gMsgs⟩ :: gs
    else ⟨author, [rendered]⟩ :: ⟨gAuthor, lastMsg :: gMsgs⟩ :: gs
  | _, _ => ⟨author, [rendered]⟩ :: rgroups

/-- One iteration of the message loop of `buildThreadPage`
(lines 1056-1130): mention map, asset collection, markdown rendering with
token substitution, author profile, answer detection, reaction badges,
reply block, then the grouping transition. -/
def processMessage (env : Env) (threadId : Str)
    (messageById : List (Str × Msg)) (st : PipeState) (message : Msg) :
    PipeState :=
  let mm := buildMentionMap env.resolveMember message.mentionUsers
    st.memberCache
  let ca := collectMessageAssets env message threadId mm.1 st.downloaded
  let assetRes := ca.1
  let imageCandidates := st.imageCandidates ++ assetRes.imageRels
  let htmlContent := applyMentionTokens (env.mdRender assetRes.markdown)
    assetRes.mentionTokens
  let ap := getAuthorProfile env message
    ⟨st.avatarCache, st.roleIconCache, mm.2, ca.2⟩
  let ia := isAnswerMessage env.resolveMember env.publisherRoleId
    env.answerEmoji message ap.2.memberCache
  let rh := buildReactionsHtml env message ap.2.downloaded
    [env.publishEmoji, env.answerEmoji]
  let rp := buildReplyHtml env.resolveMember message messageById ia.2
  let rendered : RenderedMessage :=
    ⟨message.id, message.createdAt, htmlContent, assetRes.extraHtml,
     rh.1, ia.1, rp.1⟩
  ⟨rh.2, ap.2.avatarCache, ap.2.roleIconCache, rp.2, imageCandidates,
   groupPush st.rgroups st.prev message ap.1 rendered, some message⟩

/-- The message loop of `buildThreadPage` over the chronologically sorted
message list, with the `messageById` map built once up front
(lines 1051-1054). -/
def processMessages (env : Env) (threadId : Str) (messages : List Msg) :
    PipeState :=
  messages.foldl
    (processMessage env threadId (messages.map (fun m => (m.id, m))))
    ⟨[], [], [], [], [], [], none⟩

/-- `getThreadPageRelPath` from `src/app.ts` (488-490). -/
def getThreadPageRelPath (threadId : Str) : Str :=
  str "threads/" ++ threadId ++ str "/index.html"

/-- The sidecar written next to the page:
`JSON.stringify({threadId, title, createdAt, excerpt, pageRelPath}, null, 2)`
(lines 1189-1203). -/
def sidecarJson (env : Env) (threadId title : Str) (createdAt : Int)
    (excerpt pageRelPath : Str) : Str :=
  str "\x7b\n  " ++ jsonStr (str "threadId") ++ str ": " ++ jsonStr threadId ++
    str ",\n  " ++ jsonStr (str "title") ++ str ": " ++ jsonStr title ++
    str ",\n  " ++ jsonStr (str "createdAt") ++ str ": " ++
    jsonStr (env.isoFmt createdAt) ++
    str ",\n  " ++ jsonStr (str "excerpt") ++ str ": " ++ jsonStr excerpt ++
    str ",\n  " ++ jsonStr (str "pageRelPath") ++ str ": " ++
    jsonStr pageRelPath ++ str "\n\x7d"

/-- The `JSON.stringify` of the Article JSON-LD object of `buildThreadMeta`
(lines 306-317), with `undefined` members omitted. -/
def jsonLdArticle (env : Env) (headline description : Str)
    (publishedAt updatedAt : Int) (authorName : Option Str)
    (canonical : Option Str) (ogImage : Option Str) (keywords : Str) : Str :=
  str "<script type=\"application/ld+json\">\x7b\"@context\":\"https://schema.org\",\"@type\":\"Article\",\"headline\":" ++
    jsonStr headline ++ str ",\"description\":" ++ jsonStr description ++
    str ",\"datePublished\":" ++ jsonStr (env.isoFmt publishedAt) ++
    str ",\"dateModified\":" ++ jsonStr (env.isoFmt updatedAt) ++
    (match authorName with
     | some n =>
       str ",\"author\":\x7b\"@type\":\"Person\",\"name\":" ++ jsonStr n ++
         str "\x7d"
     | none => []) ++
    (match canonical with
     | some c =>
       str ",\"mainEntityOfPage\":\x7b\"@type\":\"WebPage\",\"@id\":" ++
         jsonStr c ++ str "\x7d"
     | none => []) ++
    (match ogImage with
     | some img => str ",\"image\":[" ++ jsonStr img ++ str "]"
     | none => []) ++
    str ",\"keywords\":" ++ jsonStr keywords ++ str "\x7d</script>"

/-- `buildThreadMeta` from `src/app.ts` (270-323): the filtered, joined meta
tags and the Article JSON-LD. -/
def buildThreadMeta (env : Env) (title description : Str)
    (canonical : Option Str) (publishedAt updatedAt : Int)
    (authorName : Option Str) (ogImage : Option Str) (keywords : Str) :
    Str × Str :=
  let tags : List Str := ([
    str "<meta property=\"og:locale\" content=\"ru_RU\">",
    str "<meta property=\"og:type\" content=\"article\">",
    str "<meta property=\"og:title\" content=\"" ++ escapeHtml title ++
      str "\">",
    str "<meta property=\"og:description\" content=\"" ++
      escapeHtml description ++ str "\">",
    str "<meta name=\"keywords\" content=\"" ++ escapeHtml keywords ++
      str "\">",
    (match canonical with
     | some c => str "<meta property=\"og:url\" content=\"" ++
         escapeHtml c ++ str "\">"
     | none => []),
    (match ogImage with
     | some img => str "<meta property=\"og:image\" content=\"" ++
         escapeHtml img ++ str "\">"
     | none => []),
    str "<meta property=\"article:published_time\" content=\"" ++
      env.isoFmt publishedAt ++ str "\">",
    str "<meta property=\"article:modified_time\" content=\"" ++
      env.isoFmt updatedAt ++ str "\">"]).filter (fun t => t ≠ [])
  let joined := joinSep (str "\n  ") tags
  (if joined = [] then [] else str "  " ++ joined,
   jsonLdArticle env title description publishedAt updatedAt authorName
     canonical ogImage keywords)

/-- `buildMetaTags` from `src/app.ts` (222-233). -/
def buildMetaTags (description : Str) (canonical : Option Str) : Str × Str :=
  (if description = [] then []
   else str "<meta name=\"description\" content=\"" ++
     escapeHtml description ++ str "\">",
   match canonical with
   | some c => str "<link rel=\"canonical\" href=\"" ++ escapeHtml c ++
       str "\">"
   | none => [])

/-- The assembly tail of `buildThreadPage` (lines 1132-1212): group
rendering, excerpt, timestamps, canonical and social-preview URLs, tag
chips, meta tags, template substitution and the sidecar.  `now` models
`new Date()`. -/
def assembleThreadPage (env : Env) (now : Int) (thread : ThreadCh)
    (messages : List Msg) (ps : PipeState) : Str × Str × PageMeta :=
  let pageRelPath := getThreadPageRelPath thread.id
  let groups := (ps.rgroups.map
    (fun g => MessageGroup.mk g.author g.messages.reverse)).reverse
  let renderedGroups := groups.map
    (fun g => renderGroupHtml env now g.author g.messages)
  let starterText := (messages.head?.map Msg.content).getD []
  let excerpt := truncateText (stripMarkdown starterText) 180
  let createdAt := thread.createdAt.getD now
  let updatedAt := (messages.getLast?.map Msg.createdAt).getD createdAt
  let canonical := env.baseUrl.map (fun b => env.resolveUrl pageRelPath b)
  let ogImage := match env.baseUrl, ps.imageCandidates with
    | some b, img :: _ => some (env.resolveUrl img b)
    | _, _ => none
  let starterAuthorName := (messages.head?.bind Msg.author).bind MUser.username
  let th := buildThreadTagsHtml env thread ps.downloaded
  let mt := buildMetaTags excerpt canonical
  let bm := buildThreadMeta env thread.name excerpt canonical createdAt
    updatedAt starterAuthorName ogImage env.siteKeywords
  let html := renderTemplate env.threadTemplate [
    (str "title", escapeHtml thread.name),
    (str "thread_title", escapeHtml thread.name),
    (str "site_title", escapeHtml env.siteTitle),
    (str "thread_tags", th.1),
    (str "description_tag", mt.1),
    (str "canonical_tag", mt.2),
    (str "meta_extra", bm.1),
    (str "json_ld", bm.2),
    (str "messages", joinSep (str "\n") renderedGroups),
    (str "discord_url", thread.url),
    (str "discord_button_text", str "Открыть в Discord"),
    (str "style_href", str "../../assets/style.css")]
  (html,
   sidecarJson env thread.id thread.name createdAt excerpt pageRelPath,
   ⟨thread.id, thread.name, createdAt, excerpt, pageRelPath⟩)

/-- `buildThreadPage` from `src/app.ts` (985-1212): the message loop
followed by the assembly, producing the page HTML, the sidecar JSON and the
returned `PageMeta`. -/
def buildThreadPage (env : Env) (now : Int) (thread : ThreadCh)
    (messages : List Msg) : Str × Str × PageMeta :=
  assembleThreadPage env now thread messages
    (processMessages env thread.id messages)

/-- `generateThread` from `src/app.ts` (1443-1488), restricted to its effect
on the output pages and the in-memory index (log notifications and the
debounced aggregate-index rebuild are outward effects): with an empty
fetched message list it logs a warning and returns before anything is
written; otherwise it builds the page, writes `threads/{id}/index.html` and
`threads/{id}/meta.json` and sets the thread's index entry. -/
def generateThread (env : Env) (now : Int) (outputDir : FsPath)
    (thread : ThreadCh) (fetchedMessages : List Msg) (st : SiteState) :
    SiteState :=
  if fetchedMessages.length = 0 then st
  else
    let r := buildThreadPage env now thread fetchedMessages
    ⟨(outputDir ++ [str "threads", thread.id, str "index.html"]) ::
       (outputDir ++ [str "threads", thread.id, str "meta.json"]) :: st.fs,
     (thread.id, r.2.2) :: st.pageIndex⟩

/-- C8: a thread whose fetched message list is empty is skipped entirely
after the warning: no page file is written, no sidecar is written, and the
in-memory page index is unchanged. -/
theorem generateThread_empty_skip (env : Env) (now : Int)
    (outputDir : FsPath) (thread : ThreadCh) (st : SiteState) :
    generateThread env now outputDir thread [] st = st := by
  simp [generateThread]

theorem groupPush_nonempty (rgroups : List MessageGroup) (prev? : Option Msg)
    (message : Msg) (author : AuthorProfile) (rendered : RenderedMessage)
    (h : ∀ g ∈ rgroups, g.messages ≠ []) :
    ∀ g ∈ groupPush rgroups prev? message author rendered,
      g.messages ≠ [] := by
  intro g hg
  rcases rgroups with _ | ⟨⟨gAuthor, gMsgs⟩, gs⟩
  · rcases prev? with _ | prev
    · dsimp only [groupPush] at hg
      rcases List.mem_cons.mp hg with hg | hg
      · rw [hg]; exact List.cons_ne_nil _ _
      · cases hg
    · dsimp only [groupPush] at hg
      rcases List.mem_cons.mp hg with hg | hg
      · rw [hg]; exact List.cons_ne_nil _ _
      · cases hg
  · rcases gMsgs with _ | ⟨lastMsg, gMsgs⟩
    · rcases prev? with _ | prev
      · dsimp only [groupPush] at hg
        rcases List.mem_cons.mp hg with hg | hg
        · rw [hg]; exact List.cons_ne_nil _ _
        · exact h g hg
      · dsimp only [groupPush] at hg
        rcases List.mem_cons.mp hg with hg | hg
        · rw [hg]; exact List.cons_ne_nil _ _
        · exact h g hg
    · rcases prev? with _ | prev
      · dsimp only [groupPush] at hg
        rcases List.mem_cons.mp hg with hg | hg
        · rw [hg]; exact List.cons_ne_nil _ _
        · exact h g hg
      · dsimp only [groupPush] at hg
        cases hcond : (isSameAuthor message prev &&
            decide ((rendered.createdAt - lastMsg.createdAt).natAbs ≤
              GROUP_WINDOW_MS)) with
        | true =>
          rw [if_pos hcond] at hg
          rcases List.mem_cons.mp hg with hg | hg
          · rw [hg]; exact List.cons_ne_nil _ _
          · exact h g (List.mem_cons_of_mem _ hg)
        | false =>
          rw [if_neg (by simp [hcond])] at hg
          rcases List.mem_cons.mp hg with hg | hg
          · rw [hg]; exact List.cons_ne_nil _ _
          · exact h g hg

theorem processMessage_groups_nonempty (env : Env) (threadId : Str)
    (messageById : List (Str × Msg)) (st : PipeState) (m : Msg)
    (h : ∀ g ∈ st.rgroups, g.messages ≠ []) :
    ∀ g ∈ (processMessage env threadId messageById st m).rgroups,
      g.messages ≠ [] := by
  exact groupPush_nonempty _ _ _ _ _ h

theorem foldl_processMessage_nonempty (env : Env) (threadId : Str)
    (messageById : List (Str × Msg)) (ms : List Msg) :
    ∀ st : PipeState, (∀ g ∈ st.rgroups, g.messages ≠ []) →
      ∀ g ∈ (ms.foldl (processMessage env threadId messageById) st).rgroups,
        g.messages ≠ [] := by
  induction ms with
  | nil => intro st h; exact h
  | cons m ms ih =>
    intro st h
    exact ih _ (processMessage_groups_nonempty env threadId messageById st m h)

theorem processMessages_groups_nonempty (env : Env) (threadId : Str)
    (messages : List Msg) :
    ∀ g ∈ (processMessages env threadId messages).rgroups,
      g.messages ≠ [] := by
  unfold processMessages
  exact foldl_processMessage_nonempty env threadId _ messages _
    (by intro g hg; cases hg)

theorem renderGroupHtml_now_irrel (env : Env) (now1 now2 : Int)
    (author : AuthorProfile) (messages : List RenderedMessage)
    (h : messages ≠ []) :
    renderGroupHtml env now1 author messages =
      renderGroupHtml env now2 author messages := by
  cases messages with
  | nil => exact absurd rfl h
  | cons m ms => rfl

/-- C4: `buildThreadPage` is deterministic in its inputs: two runs over the
same thread and message list against the same environment (markdown
renderer, formatters, network and lookup results) produce identical page
HTML, sidecar JSON and page metadata regardless of the system clock — in
particular byte-identical up to and including the rendered modified-time,
which is derived from the last message rather than the clock.  The
hypothesis that the thread carries its creation time matches the external
interface (§6 of the specification hands the pipeline a resolved thread
identity with its creation time), so the `new Date()` fallbacks are dead. -/
theorem buildThreadPage_deterministic (env : Env) (thread : ThreadCh)
    (messages : List Msg) (now1 now2 : Int) (c : Int)
    (hc : thread.createdAt = some c) :
    buildThreadPage env now1 thread messages =
      buildThreadPage env now2 thread messages := by
  unfold buildThreadPage
  have hne := processMessages_groups_nonempty env thread.id messages
  generalize hps : processMessages env thread.id messages = ps at hne
  unfold assembleThreadPage
  rw [hc]
  simp only [Option.getD_some]
  have hmap : (ps.rgroups.map
      (fun g => MessageGroup.mk g.author g.messages.reverse)).reverse.map
        (fun g => renderGroupHtml env now1 g.author g.messages) =
      (ps.rgroups.map
        (fun g => MessageGroup.mk g.author g.messages.reverse)).reverse.map
        (fun g => renderGroupHtml env now2 g.author g.messages) := by
    apply List.map_congr_left
    intro g hg
    rw [List.mem_reverse, List.mem_map] at hg
    obtain ⟨g0, hg0, hmk⟩ := hg
    have h0 : g.messages ≠ [] := by
      rw [← hmk]
      simp only
      intro hrev
      exact hne g0 hg0 (by simpa using hrev)
    exact renderGroupHtml_now_irrel env now1 now2 g.author g.messages h0
  rw [hmap]

/-- A concrete trivial environment for witnesses. -/
def sampleEnv : Env :=
  ⟨fun s => s, fun _ => [], fun _ => [], fun r _ => r, fun _ => false,
   fun _ => none, fun _ => none, [], [], [], [], [], [], none⟩

/-- A concrete thread for witnesses. -/
def sampleThread : ThreadCh :=
  ⟨str "t", str "T", str "u", some 0, [], none⟩

/-- Witness for C4 at a concrete thread: two runs at different clock values
agree byte for byte. -/
theorem buildThreadPage_deterministic_witness :
    buildThreadPage sampleEnv 1 sampleThread [] =
      buildThreadPage sampleEnv 2 sampleThread [] :=
  buildThreadPage_deterministic sampleEnv sampleThread [] 1 2 0 rfl

/-! ## Substring occurrence (for the mention pipeline, C5)

`containsB s w` is JavaScript `s.includes(w)` — whether `w` occurs in `s`
as a contiguous substring.  The development below characterises it through
positions (`w <+: s.drop i`) and proves the append decomposition used to
reason about the scanning replaces. -/

/-- Whether `w` occurs in `s` as a contiguous substring. -/
def containsB : Str → Str → Bool
  | [], w => w.isEmpty
  | c :: rest, w => w.isPrefixOf (c :: rest) || containsB rest w

theorem containsB_iff (s w : Str) :
    containsB s w = true ↔ ∃ i, w <+: s.drop i := by
  induction s with
  | nil =>
    simp only [containsB, List.isEmpty_iff, List.drop_nil]
    constructor
    · intro h; exact ⟨0, by simp [h]⟩
    · rintro ⟨i, hi⟩; simpa using List.prefix_nil.mp hi
  | cons c rest ih =>
    simp only [containsB, Bool.or_eq_true, List.isPrefixOf_iff_prefix, ih]
    constructor
    · rintro (h | ⟨i, hi⟩)
      · exact ⟨0, h⟩
      · exact ⟨i + 1, hi⟩
    · rintro ⟨i, hi⟩
      cases i with
      | zero => exact Or.inl hi
      | succ j => exact Or.inr ⟨j, hi⟩

theorem containsB_of_occ {s w : Str} (i : Nat) (h : w <+: s.drop i) :
    containsB s w = true :=
  (containsB_iff s w).mpr ⟨i, h⟩

theorem not_occ_of_containsB {s w : Str} (h : containsB s w = false)
    (i : Nat) : ¬ w <+: s.drop i := by
  intro hc
  rw [containsB_of_occ i hc] at h
  cases h

theorem containsB_nil_pat (s : Str) : containsB s [] = true := by
  cases s <;> simp [containsB, List.isPrefixOf]

/-- A prefix's first ever character agrees with the host string's. -/
theorem prefix_head_eq {p t : Str} (h : p <+: t) (hp : p ≠ []) :
    p.head? = t.head? := by
  obtain ⟨r, rfl⟩ := h
  cases p with
  | nil => exact absurd rfl hp
  | cons a q => rfl

/-- A nonempty suffix's last character agrees with the host string's. -/
theorem suffix_getLast_eq {p t : Str} (h : p <:+ t) (hp : p ≠ []) :
    p.getLast? = t.getLast? := by
  obtain ⟨r, rfl⟩ := h
  exact (List.getLast?_append_of_ne_nil r hp).symm

theorem mem_of_pre {p t : Str} (h : p <+: t) {a : Char} (ha : a ∈ p) :
    a ∈ t :=
  h.sublist.subset ha

theorem mem_of_suf {p t : Str} (h : p <:+ t) {a : Char} (ha : a ∈ p) :
    a ∈ t :=
  h.sublist.subset ha

theorem head_mem {l : Str} {a : Char} (h : l.head? = some a) : a ∈ l := by
  cases l with
  | nil => cases h
  | cons b r =>
    rw [List.head?_cons, Option.some.injEq] at h
    rw [← h]
    exact List.mem_cons_self _ _

theorem getLast_mem {l : Str} {a : Char} (h : l.getLast? = some a) :
    a ∈ l := by
  induction l with
  | nil => cases h
  | cons b r ih =>
    cases r with
    | nil => cases h; exact List.mem_singleton.mpr rfl
    | cons b2 r2 =>
      rw [List.getLast?_cons_cons] at h
      exact List.mem_cons_of_mem b (ih h)

theorem drop_of_pre {p t : Str} (h : p <+: t) (d : Nat) :
    p.drop d <+: t.drop d := by
  obtain ⟨r, rfl⟩ := h
  rcases Nat.le_total d p.length with hd | hd
  · rw [List.drop_append_of_le_length hd]
    exact List.prefix_append _ _
  · rw [List.drop_eq_nil_of_le hd]
    exact List.nil_prefix

theorem take_of_pre {p t : Str} (h : p <+: t) {d : Nat}
    (hd : d ≤ p.length) : p.take d = t.take d := by
  obtain ⟨r, rfl⟩ := h
  rw [List.take_append_of_le_length hd]

/-- Occurrences compose: if `w` occurs in `s` and `u` occurs in `w`, then
`u` occurs in `s`. -/
theorem containsB_trans {s w u : Str} (h1 : containsB s w = true)
    (h2 : containsB w u = true) : containsB s u = true := by
  obtain ⟨i, hi⟩ := (containsB_iff s w).mp h1
  obtain ⟨j, hj⟩ := (containsB_iff w u).mp h2
  refine containsB_of_occ (i + j) ?_
  have := hj.trans (drop_of_pre hi j)
  rwa [List.drop_drop] at this

theorem containsB_of_pre {s w u : Str} (h1 : containsB s w = true)
    (h2 : u <+: w) : containsB s u = true := by
  obtain ⟨i, hi⟩ := (containsB_iff s w).mp h1
  exact containsB_of_occ i (h2.trans hi)

/-- No occurrence is possible when the pattern's first character is absent
from the text. -/
theorem containsB_false_of_head {s w : Str} {a : Char}
    (hw : w.head? = some a) (ha : a ∉ s) : containsB s w = false := by
  cases hcb : containsB s w with
  | false => rfl
  | true =>
    obtain ⟨i, hi⟩ := (containsB_iff s w).mp hcb
    exact absurd (List.mem_of_mem_drop (mem_of_pre hi (head_mem hw))) ha

/-- Prefix-of-append decomposition. -/
theorem prefix_append_cases {p x y : Str} (h : p <+: x ++ y) :
    p <+: x ∨ (x <+: p ∧ p.drop x.length <+: y) := by
  rcases Nat.le_total p.length x.length with hl | hl
  · left
    have hp := List.prefix_iff_eq_take.mp h
    rw [List.take_append_of_le_length hl] at hp
    rw [hp]
    exact List.take_prefix _ _
  · right
    constructor
    · have : x <+: x ++ y := List.prefix_append _ _
      exact List.prefix_of_prefix_length_le this h hl
    · have hp := List.prefix_iff_eq_take.mp h
      obtain ⟨r, hr⟩ := h
      have hdrop : p.drop x.length ++ r.drop (x.length - p.length) =
          (x ++ y).drop x.length := by
        rw [← hr]
        rcases Nat.le_total x.length p.length with h2 | h2
        · rw [List.drop_append_of_le_length h2,
            Nat.sub_eq_zero_of_le (by omega), List.drop_zero]
        · have := Nat.le_antisymm hl h2
          rw [this, List.drop_append_of_le_length (le_refl _),
            Nat.sub_eq_zero_of_le (by omega), List.drop_zero]
      rw [List.drop_left' rfl] at hdrop
      exact ⟨_, hdrop⟩

theorem containsB_append_left {x y w : Str} (h : containsB x w = true) :
    containsB (x ++ y) w = true := by
  obtain ⟨i, hi⟩ := (containsB_iff x w).mp h
  rcases Nat.le_total i x.length with hl | hl
  · refine containsB_of_occ i ?_
    rw [List.drop_append_of_le_length hl]
    exact hi.trans (List.prefix_append _ _)
  · have : x.drop i = [] := List.drop_eq_nil_of_le hl
    rw [this] at hi
    have : w = [] := List.prefix_nil.mp hi
    rw [this]
    exact containsB_nil_pat _

theorem containsB_append_right {x y w : Str} (h : containsB y w = true) :
    containsB (x ++ y) w = true := by
  obtain ⟨i, hi⟩ := (containsB_iff y w).mp h
  refine containsB_of_occ (x.length + i) ?_
  have hx : (x ++ y).drop (x.length + i) = y.drop i := by
    rw [← List.drop_drop, List.drop_left' rfl]
  rwa [hx]

/-- Occurrence-in-append decomposition: an occurrence lies in the left
part, in the right part, or straddles the seam with a nonempty proper
pattern split. -/
theorem containsB_append_cases {x y w : Str}
    (h : containsB (x ++ y) w = true) :
    containsB x w = true ∨ containsB y w = true ∨
      ∃ k, 0 < k ∧ k < w.length ∧ w.take k <:+ x ∧ w.drop k <+: y := by
  obtain ⟨i, hi⟩ := (containsB_iff (x ++ y) w).mp h
  rcases Nat.le_total x.length i with hl | hl
  · have hx : (x ++ y).drop i = y.drop (i - x.length) := by
      have h2 : (x ++ y).drop (x.length + (i - x.length)) =
          y.drop (i - x.length) := by
        rw [← List.drop_drop, List.drop_left' rfl]
      have h3 : x.length + (i - x.length) = i := by omega
      rwa [h3] at h2
    rw [hx] at hi
    exact Or.inr (Or.inl (containsB_of_occ _ hi))
  · rw [List.drop_append_of_le_length hl] at hi
    rcases prefix_append_cases hi with hc | ⟨hc1, hc2⟩
    · exact Or.inl (containsB_of_occ i hc)
    · have hklen : (x.drop i).length = x.length - i := List.length_drop _ _
      rcases Nat.lt_or_ge (x.length - i) w.length with hk | hk
      · rcases Nat.eq_zero_or_pos (x.length - i) with hz | hz
        · have : x.drop i = [] := by
            apply List.eq_nil_of_length_eq_zero; omega
          simp only [this, List.length_nil, List.drop_zero] at hc2
          exact Or.inr (Or.inl (containsB_of_occ 0 (by simpa using hc2)))
        · refine Or.inr (Or.inr ⟨x.length - i, hz, hk, ?_, ?_⟩)
          · have : w.take (x.length - i) = x.drop i := by
              have := List.prefix_iff_eq_take.mp hc1
              rw [hklen] at this
              exact this.symm
            rw [this]
            exact List.drop_suffix _ _
          · rwa [hklen] at hc2
      · have heq : x.drop i = w := by
          apply hc1.eq_of_length_le
          omega
        exact Or.inl (containsB_of_occ i (heq ▸ List.prefix_refl _))

/-- Building an occurrence across a seam: a known take-prefix up to `d`
followed by an occurrence of `v` at `d` yields `u ++ v` at the start. -/
theorem prefix_splice {t v : Str} (u : Str) (d : Nat) (h1 : t.take d = u)
    (h2 : v <+: t.drop d) : u ++ v <+: t := by
  obtain ⟨r, hr⟩ := h2
  refine ⟨r, ?_⟩
  rw [List.append_assoc, hr, ← h1, List.take_append_drop]

theorem containsB_cons_right {t w : Str} (c : Char)
    (h : containsB t w = true) : containsB (c :: t) w = true := by
  simp [containsB, h]

theorem containsB_cons_false {c : Char} {t w : Str}
    (h : containsB (c :: t) w = false) :
    ¬ w <+: (c :: t) ∧ containsB t w = false := by
  simp only [containsB, Bool.or_eq_false_iff] at h
  obtain ⟨h1, h2⟩ := h
  refine ⟨?_, h2⟩
  intro hc
  rw [(List.isPrefixOf_iff_prefix).mpr hc] at h1
  exact Bool.noConfusion h1

theorem containsB_drop_false {l w : Str} (h : containsB l w = false)
    (j : Nat) : containsB (l.drop j) w = false := by
  cases hc : containsB (l.drop j) w with
  | false => rfl
  | true =>
    obtain ⟨i, hi⟩ := (containsB_iff _ w).mp hc
    rw [List.drop_drop] at hi
    rw [containsB_of_occ _ hi] at h
    cases h

/-! ## Behaviour of the generic scanner `scanRewrite` -/

theorem scanRewrite_nil (m : Str → Option (Nat × Str)) (fuel : Nat) :
    scanRewrite m fuel [] = [] := by
  cases fuel <;> rfl

theorem scanRewrite_zero (m : Str → Option (Nat × Str)) (s : Str) :
    scanRewrite m 0 s = s := by
  cases s <;> rfl

theorem scanRewrite_cons_none (m : Str → Option (Nat × Str)) (f : Nat)
    (c : Char) (rest : Str) (h : m (c :: rest) = none) :
    scanRewrite m (f + 1) (c :: rest) = c :: scanRewrite m f rest := by
  simp [scanRewrite, h]

theorem scanRewrite_cons_some (m : Str → Option (Nat × Str)) (f : Nat)
    (c : Char) (rest : Str) (n : Nat) (rep : Str)
    (h : m (c :: rest) = some (n, rep)) :
    scanRewrite m (f + 1) (c :: rest) =
      rep ++ scanRewrite m f (rest.drop (n - 1)) := by
  simp [scanRewrite, h]

/-- If the matcher is silent at every position inside a prefix `v` of `s`,
the scan keeps `v` verbatim at the front. -/
theorem scan_keep_pre (m : Str → Option (Nat × Str)) :
    ∀ (fuel : Nat) (v s : Str), v <+: s →
      (∀ j, j < v.length → m (s.drop j) = none) →
      v <+: scanRewrite m fuel s := by
  intro fuel
  induction fuel with
  | zero => intro v s hv _; rw [scanRewrite_zero]; exact hv
  | succ f ih =>
    intro v s hv hm
    cases s with
    | nil => rw [scanRewrite_nil]; exact hv
    | cons c rest =>
      cases v with
      | nil => exact List.nil_prefix
      | cons a v2 =>
        obtain ⟨hac, hv2⟩ := List.cons_prefix_cons.mp hv
        subst hac
        have h0 : m (a :: rest) = none := by
          have := hm 0 (by simp)
          simpa using this
        rw [scanRewrite_cons_none m f a rest h0]
        refine List.cons_prefix_cons.mpr ⟨rfl, ih v2 rest hv2 ?_⟩
        intro j hj
        have := hm (j + 1) (by simpa using Nat.succ_lt_succ hj)
        simpa using this

/-- If the matcher fires wherever `w` starts and always replaces with
`rep`, then any occurrence of `w` puts an occurrence of `rep` in the scan
output. -/
theorem scan_rep_intro (m : Str → Option (Nat × Str)) (w rep : Str)
    (hw : w ≠ []) (hfire : ∀ t, w <+: t → m t ≠ none)
    (hrep : ∀ t n r, m t = some (n, r) → r = rep) :
    ∀ (fuel : Nat) (s : Str), s.length ≤ fuel → containsB s w = true →
      containsB (scanRewrite m fuel s) rep = true := by
  intro fuel
  induction fuel with
  | zero =>
    intro s hlen hocc
    have hs : s = [] := List.eq_nil_of_length_eq_zero (Nat.le_zero.mp hlen)
    subst hs
    obtain ⟨i, hi⟩ := (containsB_iff [] w).mp hocc
    rw [List.drop_nil] at hi
    exact absurd (List.prefix_nil.mp hi) hw
  | succ f ih =>
    intro s hlen hocc
    cases s with
    | nil =>
      obtain ⟨i, hi⟩ := (containsB_iff [] w).mp hocc
      rw [List.drop_nil] at hi
      exact absurd (List.prefix_nil.mp hi) hw
    | cons c rest =>
      cases hm : m (c :: rest) with
      | some nr =>
        obtain ⟨n, r⟩ := nr
        rw [scanRewrite_cons_some m f c rest n r hm]
        have hr : r = rep := hrep _ _ _ hm
        subst hr
        exact containsB_append_left (containsB_of_occ 0 (by simp))
      | none =>
        rw [scanRewrite_cons_none m f c rest hm]
        obtain ⟨i, hi⟩ := (containsB_iff _ w).mp hocc
        cases i with
        | zero =>
          rw [List.drop_zero] at hi
          exact absurd hm (hfire _ hi)
        | succ j =>
          have hr : containsB rest w = true := containsB_of_occ j hi
          exact containsB_cons_right c
            (ih rest (by simpa using Nat.le_of_succ_le_succ hlen) hr)

/-- If no pattern occurrence overlaps the tracked occurrence of `v`, the
scan keeps an occurrence of `v`.  `pats` lists the literal patterns the
matcher recognises (matching the longest at each firing position). -/
theorem scan_keep_occ (m : Str → Option (Nat × Str)) (pats : List Str)
    (v : Str) (hv : v ≠ []) (hpats : ∀ p ∈ pats, p ≠ [])
    (hsome : ∀ t n r, m t = some (n, r) →
      ∃ p, p ∈ pats ∧ p <+: t ∧ n = p.length)
    (hnone : ∀ t, (∀ p ∈ pats, ¬ p <+: t) → m t = none) :
    ∀ (fuel : Nat) (s : Str), s.length ≤ fuel →
      (∀ i j p, p ∈ pats → v <+: s.drop i → p <+: s.drop j →
        j + p.length ≤ i ∨ i + v.length ≤ j) →
      containsB s v = true → containsB (scanRewrite m fuel s) v = true := by
  intro fuel
  induction fuel with
  | zero =>
    intro s hlen hdisj hocc
    have hs : s = [] := List.eq_nil_of_length_eq_zero (Nat.le_zero.mp hlen)
    subst hs
    obtain ⟨i, hi⟩ := (containsB_iff [] v).mp hocc
    rw [List.drop_nil] at hi
    exact absurd (List.prefix_nil.mp hi) hv
  | succ f ih =>
    intro s hlen hdisj hocc
    cases s with
    | nil =>
      obtain ⟨i, hi⟩ := (containsB_iff [] v).mp hocc
      rw [List.drop_nil] at hi
      exact absurd (List.prefix_nil.mp hi) hv
    | cons c rest =>
      obtain ⟨i, hi⟩ := (containsB_iff _ v).mp hocc
      cases i with
      | zero =>
        rw [List.drop_zero] at hi
        refine containsB_of_occ 0 ?_
        rw [List.drop_zero]
        refine scan_keep_pre m (f + 1) v (c :: rest) hi ?_
        intro j hj
        refine hnone _ ?_
        intro p hp hpre
        rcases hdisj 0 j p hp (by simpa using hi) hpre with hc | hc
        · have : p ≠ [] := hpats p hp
          have : 0 < p.length := List.length_pos.mpr this
          omega
        · omega
      | succ i0 =>
        cases hm : m (c :: rest) with
        | some nr =>
          obtain ⟨n, r⟩ := nr
          rw [scanRewrite_cons_some m f c rest n r hm]
          obtain ⟨p, hp, hpt, hn⟩ := hsome _ _ _ hm
          have hple : p.length ≤ i0 + 1 := by
            rcases hdisj (i0 + 1) 0 p hp hi (by simpa using hpt) with hc | hc
            · omega
            · have : 0 < v.length :=
                List.length_pos.mpr hv
              omega
          have hp1 : 0 < p.length :=
            List.length_pos.mpr (hpats p hp)
          refine containsB_append_right ?_
          have hsub : rest.drop (n - 1) = (c :: rest).drop n := by
            cases n with
            | zero => omega
            | succ n0 => rfl
          refine ih (rest.drop (n - 1)) ?_ ?_ ?_
          · have : (rest.drop (n - 1)).length ≤ rest.length :=
              by rw [List.length_drop]; omega
            have : rest.length ≤ f := by
              have := hlen
              simp only [List.length_cons] at this
              omega
            omega
          · intro i2 j2 p2 hp2 hv2 hp2t
            rw [hsub, List.drop_drop] at hv2 hp2t
            have := hdisj (n + i2) (n + j2) p2 hp2 hv2 hp2t
            omega
          · refine containsB_of_occ (i0 + 1 - n) ?_
            rw [hsub, List.drop_drop]
            have harith : n + (i0 + 1 - n) = i0 + 1 := by omega
            rw [harith]
            exact hi
        | none =>
          rw [scanRewrite_cons_none m f c rest hm]
          refine containsB_cons_right c ?_
          refine ih rest ?_ ?_ (containsB_of_occ i0 hi)
          · have := hlen
            simp only [List.length_cons] at this
            omega
          · intro i2 j2 p2 hp2 hv2 hp2t
            have := hdisj (i2 + 1) (j2 + 1) p2 hp2 (by simpa using hv2)
              (by simpa using hp2t)
            omega

/-- The negative workhorse: if every replacement string can neither
contain `w` nor share a seam with it, and either the matcher fires
wherever `w` starts (elimination) or `w` was absent already
(preservation), then `w` does not occur in the scan output.  The second
conjunct transfers absence of proper suffixes of `w` at position 0. -/
theorem scan_no_occ (m : Str → Option (Nat × Str)) (w : Str) (hw : w ≠ [])
    (hrep : ∀ t n r, m t = some (n, r) →
      containsB r w = false ∧
      (∀ k, 0 < k → k < w.length → ¬ w.take k <:+ r) ∧
      (∀ k, 0 < k → k < w.length → ¬ w.drop k <+: r ∧ ¬ r <+: w.drop k)) :
    ∀ (fuel : Nat) (s : Str), s.length ≤ fuel →
      ((∀ t, w <+: t → m t ≠ none) ∨ containsB s w = false) →
      containsB (scanRewrite m fuel s) w = false ∧
      (∀ k, 0 < k → k < w.length → ¬ w.drop k <+: s →
        ¬ w.drop k <+: scanRewrite m fuel s) := by
  intro fuel
  induction fuel with
  | zero =>
    intro s hlen _
    have hs : s = [] := List.eq_nil_of_length_eq_zero (Nat.le_zero.mp hlen)
    subst hs
    rw [scanRewrite_nil]
    constructor
    · cases hcb : containsB [] w with
      | false => rfl
      | true =>
        obtain ⟨i, hi⟩ := (containsB_iff [] w).mp hcb
        rw [List.drop_nil] at hi
        exact absurd (List.prefix_nil.mp hi) hw
    · intro k hk0 hklt _ hpre
      have : w.drop k = [] := List.prefix_nil.mp hpre
      have := congrArg List.length this
      rw [List.length_drop] at this
      simp only [List.length_nil] at this
      omega
  | succ f ih =>
    intro s hlen hbase
    cases s with
    | nil =>
      rw [scanRewrite_nil]
      constructor
      · cases hcb : containsB [] w with
        | false => rfl
        | true =>
          obtain ⟨i, hi⟩ := (containsB_iff [] w).mp hcb
          rw [List.drop_nil] at hi
          exact absurd (List.prefix_nil.mp hi) hw
      · intro k hk0 hklt _ hpre
        have : w.drop k = [] := List.prefix_nil.mp hpre
        have := congrArg List.length this
        rw [List.length_drop] at this
        simp only [List.length_nil] at this
        omega
    | cons c rest =>
      cases hm : m (c :: rest) with
      | some nr =>
        obtain ⟨n, r⟩ := nr
        rw [scanRewrite_cons_some m f c rest n r hm]
        obtain ⟨hr1, hr2, hr3⟩ := hrep _ _ _ hm
        have hbase2 : (∀ t, w <+: t → m t ≠ none) ∨
            containsB (rest.drop (n - 1)) w = false := by
          rcases hbase with hb | hb
          · exact Or.inl hb
          · exact Or.inr (containsB_drop_false (containsB_cons_false hb).2
              (n - 1))
        have hlen2 : (rest.drop (n - 1)).length ≤ f := by
          have h1 : (rest.drop (n - 1)).length ≤ rest.length := by
            rw [List.length_drop]; omega
          have h2 : rest.length ≤ f := by
            have := hlen
            simp only [List.length_cons] at this
            omega
          omega
        obtain ⟨ihA, ihB⟩ := ih (rest.drop (n - 1)) hlen2 hbase2
        constructor
        · cases hcb : containsB (r ++ scanRewrite m f (rest.drop (n - 1))) w
            with
          | false => rfl
          | true =>
            rcases containsB_append_cases hcb with hc | hc | hc
            · rw [hc] at hr1; cases hr1
            · rw [hc] at ihA; cases ihA
            · obtain ⟨k, hk0, hklt, hsuf, _⟩ := hc
              exact absurd hsuf (hr2 k hk0 hklt)
        · intro k hk0 hklt _ hpre
          rcases prefix_append_cases hpre with hc | ⟨hc1, hc2⟩
          · exact (hr3 k hk0 hklt).1 hc
          · exact (hr3 k hk0 hklt).2 hc1
      | none =>
        rw [scanRewrite_cons_none m f c rest hm]
        have hnpre : ¬ w <+: (c :: rest) := by
          rcases hbase with hb | hb
          · intro hcon; exact hb _ hcon hm
          · exact (containsB_cons_false hb).1
        have hbase2 : (∀ t, w <+: t → m t ≠ none) ∨
            containsB rest w = false := by
          rcases hbase with hb | hb
          · exact Or.inl hb
          · exact Or.inr (containsB_cons_false hb).2
        have hlen2 : rest.length ≤ f := by
          have := hlen
          simp only [List.length_cons] at this
          omega
        obtain ⟨ihA, ihB⟩ := ih rest hlen2 hbase2
        constructor
        · cases hcb : containsB (c :: scanRewrite m f rest) w with
          | false => rfl
          | true =>
            obtain ⟨i, hi⟩ := (containsB_iff _ w).mp hcb
            cases i with
            | zero =>
              rw [List.drop_zero] at hi
              cases hwc : w with
              | nil => exact (hw hwc).elim
              | cons a w2 =>
                rw [hwc] at hi
                obtain ⟨hac, hw2⟩ := List.cons_prefix_cons.mp hi
                subst hac
                cases hw2c : w2 with
                | nil =>
                  rw [hwc, hw2c] at hnpre
                  exact (hnpre (List.cons_prefix_cons.mpr
                    ⟨rfl, List.nil_prefix⟩)).elim
                | cons b w3 =>
                  have hklt1 : 1 < w.length := by
                    rw [hwc, hw2c]; simp
                  have hd1 : w.drop 1 = w2 := by rw [hwc]; rfl
                  have hnr : ¬ w2 <+: rest := by
                    intro hcon
                    refine hnpre ?_
                    rw [hwc]
                    exact List.cons_prefix_cons.mpr ⟨rfl, hcon⟩
                  refine ((ihB 1 Nat.one_pos hklt1 ?_) ?_).elim
                  · rw [hd1]; exact hnr
                  · rw [hd1]; exact hw2
            | succ j =>
              have hcr := containsB_of_occ j hi
              rw [hcr] at ihA
              exact Bool.noConfusion ihA
        · intro k hk0 hklt hnpk hpre
          have hlenk : 0 < (w.drop k).length := by
            rw [List.length_drop]; omega
          obtain ⟨d, tl, hdt⟩ : ∃ d tl, w.drop k = d :: tl := by
            cases hdk : w.drop k with
            | nil => rw [hdk] at hlenk; simp at hlenk
            | cons d tl => exact ⟨d, tl, rfl⟩
          have htl : w.drop (k + 1) = tl := by
            have hdd : (w.drop k).drop 1 = w.drop (k + 1) := by
              rw [List.drop_drop]
            rw [hdt] at hdd
            simpa using hdd.symm
          rw [hdt] at hpre hnpk
          obtain ⟨hdc, htlpre⟩ := List.cons_prefix_cons.mp hpre
          subst hdc
          rcases Nat.lt_or_ge (k + 1) w.length with hlt | hge
          · have hntl : ¬ tl <+: rest := by
              intro hcon
              exact hnpk (List.cons_prefix_cons.mpr ⟨rfl, hcon⟩)
            rw [← htl] at hntl htlpre
            exact ihB (k + 1) (by omega) hlt hntl htlpre
          · have htln : tl = [] := by
              rw [← htl]
              apply List.drop_eq_nil_of_le
              omega
            rw [htln] at hnpk
            exact hnpk (List.cons_prefix_cons.mpr ⟨rfl, List.nil_prefix⟩)

/-! ## Shapes of the mention patterns and tokens

Discord snowflake ids are nonempty strings of decimal digits; the lemmas
below isolate the character-level facts about `<@id>`, `<@!id>`,
`@@MENTION:id@@` and the rendered mention markup that drive the overlap
analysis of the replaces. -/

/-- A nonempty string of decimal digits (a Discord snowflake id). -/
def digitStr (s : Str) : Bool := !s.isEmpty && s.all Char.isDigit

theorem digitStr_all {s : Str} (h : digitStr s = true) :
    s.all Char.isDigit = true := by
  simp only [digitStr, Bool.and_eq_true] at h
  exact h.2

theorem digitStr_ne_nil {s : Str} (h : digitStr s = true) : s ≠ [] := by
  intro he
  rw [he] at h
  cases h

theorem isDigit_ne {c d : Char} (h : c.isDigit = true)
    (hd : d.isDigit = false) : c ≠ d := by
  intro he
  rw [he, hd] at h
  cases h

theorem mem_digits_ne {X : Str} (hX : X.all Char.isDigit = true) {c : Char}
    (hc : c ∈ X) {d : Char} (hd : d.isDigit = false) : c ≠ d :=
  isDigit_ne (List.all_eq_true.mp hX c hc) hd

theorem mentionToken_eq (X : Str) : mentionToken X =
    '@' :: '@' :: 'M' :: 'E' :: 'N' :: 'T' :: 'I' :: 'O' :: 'N' :: ':' ::
      (X ++ ['@', '@']) := by
  show (str "@@MENTION:" ++ X) ++ str "@@" = _
  rw [List.append_assoc]
  rfl

theorem mentionPat_eq (A : Str) :
    mentionPat A = '<' :: '@' :: (A ++ ['>']) := rfl

theorem mentionPatBang_eq (A : Str) :
    mentionPatBang A = '<' :: '@' :: '!' :: (A ++ ['>']) := rfl

theorem mentionToken_len (X : Str) :
    (mentionToken X).length = 12 + X.length := by
  rw [mentionToken_eq]
  simp [List.length_append]
  omega

theorem mentionPat_len (A : Str) :
    (mentionPat A).length = A.length + 3 := by
  rw [mentionPat_eq]
  simp [List.length_append]

theorem mentionPatBang_len (A : Str) :
    (mentionPatBang A).length = A.length + 4 := by
  rw [mentionPatBang_eq]
  simp [List.length_append]

theorem mentionToken_ne_nil (X : Str) : mentionToken X ≠ [] := by
  rw [mentionToken_eq]
  exact List.cons_ne_nil _ _

theorem mentionPat_ne_nil (A : Str) : mentionPat A ≠ [] :=
  List.cons_ne_nil _ _

theorem mentionPatBang_ne_nil (A : Str) : mentionPatBang A ≠ [] :=
  List.cons_ne_nil _ _

theorem mentionToken_head (X : Str) :
    (mentionToken X).head? = some '@' := by
  rw [mentionToken_eq]
  rfl

theorem mentionToken_getLast (X : Str) :
    (mentionToken X).getLast? = some '@' := by
  show ((str "@@MENTION:" ++ X) ++ str "@@").getLast? = some '@'
  rw [List.getLast?_append_of_ne_nil _ (by decide)]
  rfl

theorem lt_not_mem_token {X : Str} (hX : X.all Char.isDigit = true) :
    '<' ∉ mentionToken X := by
  rw [mentionToken_eq]
  intro h
  simp +decide only [List.mem_cons, List.mem_append, List.mem_singleton,
    or_false, false_or] at h
  exact absurd (List.all_eq_true.mp hX _ h) (by decide)

theorem gt_not_mem_token {X : Str} (hX : X.all Char.isDigit = true) :
    '>' ∉ mentionToken X := by
  rw [mentionToken_eq]
  intro h
  simp +decide only [List.mem_cons, List.mem_append, List.mem_singleton,
    or_false, false_or] at h
  exact absurd (List.all_eq_true.mp hX _ h) (by decide)

theorem mentionPat_split (A : Str) :
    mentionPat A = ('<' :: '@' :: A) ++ ['>'] := by
  rw [mentionPat_eq]; simp

theorem mentionPatBang_split (A : Str) :
    mentionPatBang A = ('<' :: '@' :: '!' :: A) ++ ['>'] := by
  rw [mentionPatBang_eq]; simp

theorem mentionPat_head (A : Str) :
    (mentionPat A).head? = some '<' := rfl

theorem mentionPatBang_head (A : Str) :
    (mentionPatBang A).head? = some '<' := rfl

theorem mentionPat_getLast (A : Str) :
    (mentionPat A).getLast? = some '>' := by
  rw [mentionPat_split]
  rw [List.getLast?_append_of_ne_nil _ (by decide)]
  rfl

theorem mentionPatBang_getLast (A : Str) :
    (mentionPatBang A).getLast? = some '>' := by
  rw [mentionPatBang_split]
  rw [List.getLast?_append_of_ne_nil _ (by decide)]
  rfl

theorem gt_not_mem_patFront {A : Str} (hA : A.all Char.isDigit = true) :
    '>' ∉ ('<' :: '@' :: A) := by
  intro h
  simp +decide only [List.mem_cons, false_or] at h
  exact absurd (List.all_eq_true.mp hA _ h) (by decide)

theorem gt_not_mem_patBangFront {A : Str}
    (hA : A.all Char.isDigit = true) :
    '>' ∉ ('<' :: '@' :: '!' :: A) := by
  intro h
  simp +decide only [List.mem_cons, false_or] at h
  exact absurd (List.all_eq_true.mp hA _ h) (by decide)

theorem mem_drop_one {l : Str} {c : Char} {k : Nat} (hk : 1 ≤ k)
    (h : c ∈ l.drop k) : c ∈ l.drop 1 := by
  have heq : l.drop k = (l.drop 1).drop (k - 1) := by
    rw [List.drop_drop]
    congr 1
    omega
  rw [heq] at h
  exact List.mem_of_mem_drop h

theorem lt_not_mem_pat_drop {A : Str} (hA : A.all Char.isDigit = true)
    {k : Nat} (hk : 1 ≤ k) {c : Char}
    (hc : c ∈ (mentionPat A).drop k) : c ≠ '<' := by
  have h1 := mem_drop_one hk hc
  rw [mentionPat_eq] at h1
  simp only [List.drop_succ_cons, List.drop_zero] at h1
  intro he
  subst he
  simp +decide only [List.mem_cons, List.mem_append, List.mem_singleton,
    or_false, false_or] at h1
  exact absurd (List.all_eq_true.mp hA _ h1) (by decide)

theorem lt_not_mem_patBang_drop {A : Str}
    (hA : A.all Char.isDigit = true) {k : Nat} (hk : 1 ≤ k) {c : Char}
    (hc : c ∈ (mentionPatBang A).drop k) : c ≠ '<' := by
  have h1 := mem_drop_one hk hc
  rw [mentionPatBang_eq] at h1
  simp only [List.drop_succ_cons, List.drop_zero] at h1
  intro he
  subst he
  simp +decide only [List.mem_cons, List.mem_append, List.mem_singleton,
    or_false, false_or] at h1
  exact absurd (List.all_eq_true.mp hA _ h1) (by decide)

theorem getLast_take_mem {l : Str} {k : Nat} (hk : 0 < k) (hl : l ≠ []) :
    ∃ c, (l.take k).getLast? = some c ∧ c ∈ l := by
  have hne : l.take k ≠ [] := by
    intro he
    have hlen := congrArg List.length he
    rw [List.length_take] at hlen
    simp only [List.length_nil] at hlen
    rcases Nat.min_eq_zero_iff.mp hlen with h | h
    · omega
    · exact hl (List.eq_nil_of_length_eq_zero h)
  cases hgl : (l.take k).getLast? with
  | none => exact absurd (List.getLast?_eq_none_iff.mp hgl) hne
  | some c => exact ⟨c, rfl, List.take_subset _ _ (getLast_mem hgl)⟩

theorem not_suffix_of_getLast_ne {u v : Str} (hu : u ≠ [])
    (h : u.getLast? ≠ v.getLast?) : ¬ u <:+ v :=
  fun hs => h (suffix_getLast_eq hs hu)

theorem not_prefix_of_head_ne {u v : Str} (hu : u ≠ [])
    (h : u.head? ≠ v.head?) : ¬ u <+: v :=
  fun hs => h (prefix_head_eq hs hu)

/-- Distinct digit ids close-bracketed with `>` are prefix-incomparable. -/
theorem digits_gt_not_prefix (A : Str) :
    ∀ (B : Str), A.all Char.isDigit = true → B.all Char.isDigit = true →
      A ≠ B → ¬ (A ++ ['>']) <+: (B ++ ['>']) := by
  induction A with
  | nil =>
    intro B _ hB hne h
    cases B with
    | nil => exact hne rfl
    | cons b B' =>
      rw [List.nil_append, List.cons_append] at h
      have hb' := (List.cons_prefix_cons.mp h).1
      have hb := List.all_eq_true.mp hB b (List.mem_cons_self _ _)
      exact isDigit_ne hb (by decide) hb'.symm
  | cons a A' ih =>
    intro B hA hB hne h
    cases B with
    | nil =>
      rw [List.cons_append, List.nil_append] at h
      have ha' := (List.cons_prefix_cons.mp h).1
      have ha := List.all_eq_true.mp hA a (List.mem_cons_self _ _)
      exact isDigit_ne ha (by decide) ha'
    | cons b B' =>
      rw [List.cons_append, List.cons_append] at h
      obtain ⟨hab, h2⟩ := List.cons_prefix_cons.mp h
      subst hab
      rw [List.all_cons, Bool.and_eq_true] at hA hB
      exact ih B' hA.2 hB.2 (fun he => hne (by rw [he])) h2

/-- Digit ids close-marked with `@@` are prefix-injective. -/
theorem digits_atat_pre_inj (A : Str) :
    ∀ (B : Str), A.all Char.isDigit = true → B.all Char.isDigit = true →
      (A ++ ['@', '@']) <+: (B ++ ['@', '@']) → A = B := by
  induction A with
  | nil =>
    intro B _ hB h
    cases B with
    | nil => rfl
    | cons b B' =>
      rw [List.nil_append, List.cons_append] at h
      have hb' := (List.cons_prefix_cons.mp h).1
      have hb := List.all_eq_true.mp hB b (List.mem_cons_self _ _)
      exact absurd hb'.symm (isDigit_ne hb (by decide))
  | cons a A' ih =>
    intro B hA hB h
    cases B with
    | nil =>
      rw [List.cons_append, List.nil_append] at h
      have ha' := (List.cons_prefix_cons.mp h).1
      have ha := List.all_eq_true.mp hA a (List.mem_cons_self _ _)
      exact absurd ha' (isDigit_ne ha (by decide))
    | cons b B' =>
      rw [List.cons_append, List.cons_append] at h
      obtain ⟨hab, h2⟩ := List.cons_prefix_cons.mp h
      subst hab
      rw [List.all_cons, Bool.and_eq_true] at hA hB
      rw [ih B' hA.2 hB.2 h2]

/-- One mention token is a prefix of another only for equal ids. -/
theorem token_pre_inj {X Y : Str} (hX : X.all Char.isDigit = true)
    (hY : Y.all Char.isDigit = true)
    (h : mentionToken X <+: mentionToken Y) : X = Y := by
  rw [mentionToken_eq, mentionToken_eq] at h
  simp +decide only [List.cons_prefix_cons, true_and] at h
  exact digits_atat_pre_inj X Y hX hY h

/-- Where `@@` can start inside `id ++ "@@"` for a digit id: only at the
very end. -/
theorem token_atat_drop (X : Str) :
    ∀ (e : Nat), X.all Char.isDigit = true →
      ['@', '@'] <+: (X ++ ['@', '@']).drop e → e = X.length := by
  induction X with
  | nil =>
    intro e _ h
    cases e with
    | zero => rfl
    | succ e' =>
      rw [List.nil_append] at h
      have hle := h.length_le
      rw [List.length_drop] at hle
      simp only [List.length_cons, List.length_nil, List.length_singleton]
        at hle
      omega
  | cons x X' ih =>
    intro e hX h
    rw [List.all_cons, Bool.and_eq_true] at hX
    cases e with
    | zero =>
      rw [List.drop_zero, List.cons_append] at h
      have hx' := (List.cons_prefix_cons.mp h).1
      exact absurd hx'.symm (isDigit_ne hX.1 (by decide))
    | succ e' =>
      rw [List.cons_append, List.drop_succ_cons] at h
      rw [ih e' hX.2 h]
      simp

/-- Where `@@` can start strictly inside a mention token: only at the
closing marker, ten characters past the start plus the id length. -/
theorem token_atat {X : Str} (hX : X.all Char.isDigit = true) {d : Nat}
    (hd : 0 < d) (h : ['@', '@'] <+: (mentionToken X).drop d) :
    d = 10 + X.length := by
  rw [mentionToken_eq] at h
  rcases Nat.lt_or_ge d 10 with h10 | h10
  · interval_cases d <;> simp +decide [List.cons_prefix_cons] at h
  · obtain ⟨e, rfl⟩ : ∃ e, d = 10 + e := ⟨d - 10, by omega⟩
    have hdr : ('@' :: '@' :: 'M' :: 'E' :: 'N' :: 'T' :: 'I' :: 'O' ::
        'N' :: ':' :: (X ++ ['@', '@'])).drop (10 + e) =
        (X ++ ['@', '@']).drop e := by
      rw [← List.drop_drop]
      rfl
    rw [hdr] at h
    have := token_atat_drop X e hX h
    omega

/-! ## Overlap analysis of token occurrences -/

/-- Two prefixes of overlapping suffixes of the same string are
comparable past the overlap point. -/
theorem prefix_overlap {x y s : Str} {i d : Nat}
    (hx : x <+: s.drop i) (hy : y <+: s.drop (i + d))
    (hd : d < x.length) :
    x.drop d <+: y ∨ y <+: x.drop d := by
  have h1 : x.drop d <+: (s.drop i).drop d := drop_of_pre hx d
  rw [List.drop_drop] at h1
  rcases Nat.le_total (x.drop d).length y.length with hl | hl
  · exact Or.inl (List.prefix_of_prefix_length_le h1 hy hl)
  · exact Or.inr (List.prefix_of_prefix_length_le hy h1 hl)

/-- Glueing two consecutive prefixes into one. -/
theorem prefix_glue {t u v : Str} (h1 : u <+: t)
    (h2 : v <+: t.drop u.length) : u ++ v <+: t := by
  refine prefix_splice u u.length ?_ h2
  exact (List.prefix_iff_eq_take.mp h1).symm

theorem atat_pre_token (Y : Str) : ['@', '@'] <+: mentionToken Y := by
  rw [mentionToken_eq]
  exact ⟨'M' :: 'E' :: 'N' :: 'T' :: 'I' :: 'O' :: 'N' :: ':' ::
    (Y ++ ['@', '@']), rfl⟩

theorem token_contains_marker (X : Str) :
    containsB (mentionToken X) (str "@MENTION:") = true := by
  refine containsB_of_occ 1 ?_
  rw [mentionToken_eq]
  exact ⟨X ++ ['@', '@'], rfl⟩

/-- Two mention tokens welded with a `k`-character overlap on their `@@`
markers (`k` is 1 or 2): the strings whose presence in the rendered
markdown would make distinct token occurrences overlap, confusing the
sequential `split`/`join` replaces of `applyMentionTokens`. -/
def mergeTokens (B C : Str) (k : Nat) : Str :=
  mentionToken B ++ (mentionToken C).drop k

theorem mergeTokens_contains_marker (B C : Str) (k : Nat) :
    containsB (mergeTokens B C k) (str "@MENTION:") = true :=
  containsB_append_left (token_contains_marker B)

theorem mergeTokens_ne_nil (B C : Str) (k : Nat) :
    mergeTokens B C k ≠ [] := by
  intro h
  have := congrArg List.length h
  rw [mergeTokens] at this
  simp only [List.length_append, List.length_nil] at this
  rw [mentionToken_len] at this
  omega

theorem lt_not_mem_merge {B C : Str} (hB : B.all Char.isDigit = true)
    (hC : C.all Char.isDigit = true) (k : Nat) :
    '<' ∉ mergeTokens B C k := by
  intro h
  rcases List.mem_append.mp h with h | h
  · exact lt_not_mem_token hB h
  · exact lt_not_mem_token hC (List.mem_of_mem_drop h)

theorem gt_not_mem_merge {B C : Str} (hB : B.all Char.isDigit = true)
    (hC : C.all Char.isDigit = true) (k : Nat) :
    '>' ∉ mergeTokens B C k := by
  intro h
  rcases List.mem_append.mp h with h | h
  · exact gt_not_mem_token hB h
  · exact gt_not_mem_token hC (List.mem_of_mem_drop h)

/-- The one-sided core of the token overlap analysis: if token `F` occurs
at some position and token `S` occurs `d` characters later with `d` inside
`F`'s occurrence, then either the ids coincide or the welded string
`mergeTokens F S k` occurs, both excluded. -/
theorem token_overlap_core {F S : Str} (hF : digitStr F = true)
    (hS : digitStr S = true) (hne : F ≠ S) {s : Str} {i d : Nat}
    (h1 : mentionToken F <+: s.drop i)
    (h2 : mentionToken S <+: s.drop (i + d))
    (hd : d < (mentionToken F).length)
    (hm1 : containsB s (mergeTokens F S 1) = false)
    (hm2 : containsB s (mergeTokens F S 2) = false) : False := by
  cases hdz : d with
  | zero =>
    subst hdz
    have h2' : mentionToken S <+: s.drop i := by simpa using h2
    rcases Nat.le_total (mentionToken F).length (mentionToken S).length
      with hl | hl
    · exact hne (token_pre_inj (digitStr_all hF) (digitStr_all hS)
        (List.prefix_of_prefix_length_le h1 h2' hl))
    · exact hne (token_pre_inj (digitStr_all hS) (digitStr_all hF)
        (List.prefix_of_prefix_length_le h2' h1 hl)).symm
  | succ d0 =>
    subst hdz
    rcases prefix_overlap h1 h2 hd with hc | hc
    · -- (token F).drop d <+: token S
      have hlen : 0 < ((mentionToken F).drop (d0 + 1)).length := by
        rw [List.length_drop]
        omega
      rcases Nat.lt_or_ge ((mentionToken F).drop (d0 + 1)).length 2
        with hu | hu
      · -- one-character overlap: d = |token F| - 1, weld with k = 1
        have hdd : d0 + 1 + 1 = (mentionToken F).length := by
          rw [List.length_drop] at hlen hu
          omega
        have hocc : containsB s (mergeTokens F S 1) = true := by
          refine containsB_of_occ i ?_
          refine prefix_glue h1 ?_
          have hdr : (s.drop i).drop (mentionToken F).length =
              s.drop (i + (d0 + 1) + 1) := by
            rw [List.drop_drop]
            congr 1
            omega
          rw [hdr]
          have := drop_of_pre h2 1
          rwa [List.drop_drop] at this
        rw [hocc] at hm1
        cases hm1
      · -- the shared part starts with `@@`, so it is the closing marker:
        -- d = |token F| - 2, weld with k = 2
        have htake : ((mentionToken F).drop (d0 + 1)).take 2 =
            (mentionToken S).take 2 := take_of_pre hc hu
        have hts : (mentionToken S).take 2 = ['@', '@'] := by
          rw [mentionToken_eq]
          rfl
        have hat : ['@', '@'] <+: (mentionToken F).drop (d0 + 1) := by
          rw [← hts, ← htake]
          exact List.take_prefix _ _
        have hda := token_atat (digitStr_all hF) (Nat.succ_pos d0) hat
        have hdd : d0 + 1 + 2 = (mentionToken F).length := by
          rw [mentionToken_len]
          omega
        have hocc : containsB s (mergeTokens F S 2) = true := by
          refine containsB_of_occ i ?_
          refine prefix_glue h1 ?_
          have hdr : (s.drop i).drop (mentionToken F).length =
              s.drop (i + (d0 + 1) + 2) := by
            rw [List.drop_drop]
            congr 1
            omega
          rw [hdr]
          have := drop_of_pre h2 2
          rwa [List.drop_drop] at this
        rw [hocc] at hm2
        cases hm2
    · -- token S <+: (token F).drop d: forces the 2-character tail, too
      -- short to host a whole token
      have hat : ['@', '@'] <+: (mentionToken F).drop (d0 + 1) :=
        (atat_pre_token S).trans hc
      have hda := token_atat (digitStr_all hF) (Nat.succ_pos d0) hat
      have hlen := hc.length_le
      rw [List.length_drop, mentionToken_len, mentionToken_len] at hlen
      omega

/-- Occurrences of distinct mention tokens are disjoint whenever the four
welded overlap strings are absent. -/
theorem token_token_disjoint {X Y : Str} (hX : digitStr X = true)
    (hY : digitStr Y = true) (hne : X ≠ Y) {s : Str} {i j : Nat}
    (hv : mentionToken Y <+: s.drop i) (hp : mentionToken X <+: s.drop j)
    (hXY1 : containsB s (mergeTokens X Y 1) = false)
    (hXY2 : containsB s (mergeTokens X Y 2) = false)
    (hYX1 : containsB s (mergeTokens Y X 1) = false)
    (hYX2 : containsB s (mergeTokens Y X 2) = false) :
    j + (mentionToken X).length ≤ i ∨
      i + (mentionToken Y).length ≤ j := by
  by_contra hcon
  push_neg at hcon
  obtain ⟨hc1, hc2⟩ := hcon
  rcases Nat.le_total i j with hij | hij
  · obtain ⟨d, rfl⟩ : ∃ d, j = i + d := ⟨j - i, by omega⟩
    exact token_overlap_core hY hX (fun he => hne he.symm) hv hp
      (by rw [mentionToken_len]; rw [mentionToken_len] at hc2; omega)
      hYX1 hYX2
  · obtain ⟨d, rfl⟩ : ∃ d, i = j + d := ⟨i - j, by omega⟩
    exact token_overlap_core hX hY hne hp hv
      (by rw [mentionToken_len]; rw [mentionToken_len] at hc1; omega)
      hXY1 hXY2

/-! ## Overlap analysis of pattern occurrences -/

/-- Either raw mention pattern (`<@!id>` when `bang`, else `<@id>`). -/
def patOf (bang : Bool) (A : Str) : Str :=
  if bang then mentionPatBang A else mentionPat A

theorem patOf_false (A : Str) : patOf false A = mentionPat A := rfl

theorem patOf_true (A : Str) : patOf true A = mentionPatBang A := rfl

theorem patOf_ne_nil (b : Bool) (A : Str) : patOf b A ≠ [] := by
  cases b
  · rw [patOf_false]; exact mentionPat_ne_nil A
  · rw [patOf_true]; exact mentionPatBang_ne_nil A

theorem patOf_head (b : Bool) (A : Str) :
    (patOf b A).head? = some '<' := by
  cases b
  · rw [patOf_false]; exact mentionPat_head A
  · rw [patOf_true]; exact mentionPatBang_head A

theorem patOf_getLast (b : Bool) (A : Str) :
    (patOf b A).getLast? = some '>' := by
  cases b
  · rw [patOf_false]; exact mentionPat_getLast A
  · rw [patOf_true]; exact mentionPatBang_getLast A

theorem lt_not_mem_patOf_drop {b : Bool} {A : Str}
    (hA : A.all Char.isDigit = true) {k : Nat} (hk : 1 ≤ k) {c : Char}
    (hc : c ∈ (patOf b A).drop k) : c ≠ '<' := by
  cases b
  · exact lt_not_mem_pat_drop hA hk (by rw [patOf_false] at hc; exact hc)
  · exact lt_not_mem_patBang_drop hA hk
      (by rw [patOf_true] at hc; exact hc)

theorem getLast_drop {l : Str} {n : Nat} (h : l.drop n ≠ []) :
    (l.drop n).getLast? = l.getLast? := by
  have h2 := List.getLast?_append_of_ne_nil (l.take n) h
  rw [List.take_append_drop] at h2
  exact h2.symm

theorem atat_not_in_digits {A : Str} (hA : A.all Char.isDigit = true)
    (e : Nat) : ¬ ['@', '@'] <+: A.drop e := by
  intro h
  have hlen := h.length_le
  cases hdk : A.drop e with
  | nil =>
    rw [hdk] at hlen
    simp at hlen
  | cons c tl =>
    rw [hdk] at h
    have hc := (List.cons_prefix_cons.mp h).1
    have hcm : c ∈ A := List.mem_of_mem_drop
      (by rw [hdk]; exact List.mem_cons_self _ _)
    exact absurd hc.symm
      (isDigit_ne (List.all_eq_true.mp hA c hcm) (by decide))

theorem atat_not_in_patFront {A : Str} (hA : A.all Char.isDigit = true) :
    ∀ e, ¬ ['@', '@'] <+: ('<' :: '@' :: A).drop e := by
  intro e h
  rcases e with _ | _ | e'
  · exact absurd (List.cons_prefix_cons.mp h).1 (by decide)
  · rw [show ('<' :: '@' :: A).drop 1 = '@' :: A from rfl] at h
    obtain ⟨_, h2⟩ := List.cons_prefix_cons.mp h
    cases A with
    | nil =>
      have := h2.length_le
      simp at this
    | cons a A' =>
      have ha := (List.cons_prefix_cons.mp h2).1
      exact absurd ha.symm (isDigit_ne
        (List.all_eq_true.mp hA a (List.mem_cons_self _ _)) (by decide))
  · rw [show ('<' :: '@' :: A).drop (e' + 2) = A.drop e' from rfl] at h
    exact atat_not_in_digits hA e' h

theorem atat_not_in_patBangFront {A : Str}
    (hA : A.all Char.isDigit = true) :
    ∀ e, ¬ ['@', '@'] <+: ('<' :: '@' :: '!' :: A).drop e := by
  intro e h
  rcases e with _ | _ | _ | e'
  · exact absurd (List.cons_prefix_cons.mp h).1 (by decide)
  · rw [show ('<' :: '@' :: '!' :: A).drop 1 = '@' :: '!' :: A from rfl]
      at h
    obtain ⟨_, h2⟩ := List.cons_prefix_cons.mp h
    exact absurd (List.cons_prefix_cons.mp h2).1 (by decide)
  · rw [show ('<' :: '@' :: '!' :: A).drop 2 = '!' :: A from rfl] at h
    exact absurd (List.cons_prefix_cons.mp h).1 (by decide)
  · rw [show ('<' :: '@' :: '!' :: A).drop (e' + 3) = A.drop e' from rfl]
      at h
    exact atat_not_in_digits hA e' h

theorem patOf_split {b : Bool} {A : Str}
    (hA : A.all Char.isDigit = true) :
    ∃ front, patOf b A = front ++ ['>'] ∧ '>' ∉ front ∧
      front.head? = some '<' ∧ ∀ e, ¬ ['@', '@'] <+: front.drop e := by
  cases b
  · exact ⟨'<' :: '@' :: A, by rw [patOf_false, mentionPat_split],
      gt_not_mem_patFront hA, rfl, atat_not_in_patFront hA⟩
  · exact ⟨'<' :: '@' :: '!' :: A, by rw [patOf_true, mentionPatBang_split],
      gt_not_mem_patBangFront hA, rfl, atat_not_in_patBangFront hA⟩

/-- Neither raw pattern of one id is a prefix of a pattern of a different
id. -/
theorem patOf_not_pre {b1 b2 : Bool} {A B : Str}
    (hA : A.all Char.isDigit = true) (hB : B.all Char.isDigit = true)
    (hne : A ≠ B) : ¬ patOf b1 A <+: patOf b2 B := by
  cases b1 <;> cases b2 <;> intro h
  · rw [patOf_false, patOf_false, mentionPat_eq, mentionPat_eq] at h
    simp +decide only [List.cons_prefix_cons, true_and] at h
    exact digits_gt_not_prefix A B hA hB hne h
  · rw [patOf_false, patOf_true, mentionPat_eq, mentionPatBang_eq] at h
    simp +decide only [List.cons_prefix_cons, true_and] at h
    cases A with
    | nil =>
      rw [List.nil_append] at h
      exact absurd (List.cons_prefix_cons.mp h).1 (by decide)
    | cons a A' =>
      rw [List.cons_append] at h
      have ha := (List.cons_prefix_cons.mp h).1
      have := List.all_eq_true.mp hA a (List.mem_cons_self _ _)
      exact absurd ha (isDigit_ne this (by decide))
  · rw [patOf_true, patOf_false, mentionPatBang_eq, mentionPat_eq] at h
    simp +decide only [List.cons_prefix_cons, true_and] at h
    cases B with
    | nil =>
      rw [List.nil_append] at h
      exact absurd (List.cons_prefix_cons.mp h).1 (by decide)
    | cons b B' =>
      rw [List.cons_append] at h
      have hb := (List.cons_prefix_cons.mp h).1
      have := List.all_eq_true.mp hB b (List.mem_cons_self _ _)
      exact absurd hb.symm (isDigit_ne this (by decide))
  · rw [patOf_true, patOf_true, mentionPatBang_eq, mentionPatBang_eq] at h
    simp +decide only [List.cons_prefix_cons, true_and] at h
    exact digits_gt_not_prefix A B hA hB hne h

/-- Shifted suffixes of a raw pattern of one id are prefix-incomparable
with a raw pattern of a different id. -/
theorem patOf_overlap_core {b1 b2 : Bool} {A B : Str}
    (hA : A.all Char.isDigit = true) (hB : B.all Char.isDigit = true)
    (hne : A ≠ B) {d : Nat} (hd : d < (patOf b1 A).length) :
    ¬ ((patOf b1 A).drop d <+: patOf b2 B) ∧
      ¬ (patOf b2 B <+: (patOf b1 A).drop d) := by
  cases hdz : d with
  | zero =>
    subst hdz
    simp only [List.drop_zero]
    exact ⟨patOf_not_pre hA hB hne, patOf_not_pre hB hA (Ne.symm hne)⟩
  | succ d0 =>
    subst hdz
    have hdpos : 1 ≤ d0 + 1 := by omega
    have hu_ne : (patOf b1 A).drop (d0 + 1) ≠ [] := by
      intro he
      have := congrArg List.length he
      rw [List.length_drop] at this
      simp only [List.length_nil] at this
      omega
    have hu_last : ((patOf b1 A).drop (d0 + 1)).getLast? = some '>' := by
      rw [getLast_drop hu_ne]
      exact patOf_getLast b1 A
    constructor
    · intro hc
      obtain ⟨front, hsp, hfr, _, _⟩ := @patOf_split b2 B hB
      rw [hsp] at hc
      rcases List.prefix_concat_iff.mp hc with he | hc2
      · have hh : (patOf b2 B).head? = some '<' := patOf_head b2 B
        rw [hsp] at hh
        have hlt : '<' ∈ front ++ ['>'] := head_mem hh
        rw [← he] at hlt
        exact (lt_not_mem_patOf_drop hA hdpos hlt) rfl
      · have hgt : '>' ∈ (patOf b1 A).drop (d0 + 1) := getLast_mem hu_last
        exact hfr (mem_of_pre hc2 hgt)
    · intro hc
      have hh := prefix_head_eq hc (patOf_ne_nil b2 B)
      rw [patOf_head] at hh
      have hlt : '<' ∈ (patOf b1 A).drop (d0 + 1) := head_mem hh.symm
      exact (lt_not_mem_patOf_drop hA hdpos hlt) rfl

/-- Occurrences of raw patterns of distinct ids never overlap. -/
theorem pat_pat_disjoint {b1 b2 : Bool} {A B : Str}
    (hA : A.all Char.isDigit = true) (hB : B.all Char.isDigit = true)
    (hne : A ≠ B) {s : Str} {i j : Nat} (hv : patOf b1 A <+: s.drop i)
    (hp : patOf b2 B <+: s.drop j) :
    j + (patOf b2 B).length ≤ i ∨ i + (patOf b1 A).length ≤ j := by
  by_contra hcon
  push_neg at hcon
  obtain ⟨hc1, hc2⟩ := hcon
  rcases Nat.le_total i j with hij | hij
  · obtain ⟨d, rfl⟩ : ∃ d, j = i + d := ⟨j - i, by omega⟩
    have hd : d < (patOf b1 A).length := by omega
    rcases prefix_overlap hv hp hd with h | h
    · exact (patOf_overlap_core hA hB hne hd).1 h
    · exact (patOf_overlap_core hA hB hne hd).2 h
  · obtain ⟨d, rfl⟩ : ∃ d, i = j + d := ⟨i - j, by omega⟩
    have hd : d < (patOf b2 B).length := by omega
    rcases prefix_overlap hp hv hd with h | h
    · exact (patOf_overlap_core hB hA (Ne.symm hne) hd).1 h
    · exact (patOf_overlap_core hB hA (Ne.symm hne) hd).2 h

/-- Shifted suffixes of a mention token are prefix-incomparable with any
raw mention pattern. -/
theorem token_patOf_core {b : Bool} {A B : Str}
    (hA : A.all Char.isDigit = true) (hB : B.all Char.isDigit = true)
    {d : Nat} (hd : d < (mentionToken A).length) :
    ¬ ((mentionToken A).drop d <+: patOf b B) ∧
      ¬ (patOf b B <+: (mentionToken A).drop d) := by
  have hu_ne : (mentionToken A).drop d ≠ [] := by
    intro he
    have := congrArg List.length he
    rw [List.length_drop] at this
    simp only [List.length_nil] at this
    omega
  have hu_last : ((mentionToken A).drop d).getLast? = some '@' := by
    rw [getLast_drop hu_ne]
    exact mentionToken_getLast A
  constructor
  · intro hc
    obtain ⟨front, hsp, hfr, hfh, hfa⟩ := @patOf_split b B hB
    rw [hsp] at hc
    rcases List.prefix_concat_iff.mp hc with he | hc2
    · have hgt : '>' ∈ (mentionToken A).drop d := by
        rw [he]
        exact List.mem_append_right _ (List.mem_singleton.mpr rfl)
      exact gt_not_mem_token hA (List.mem_of_mem_drop hgt)
    · rcases Nat.lt_or_ge ((mentionToken A).drop d).length 2 with h1 | h2
      · obtain ⟨c, hc1⟩ := List.length_eq_one.mp (show
          ((mentionToken A).drop d).length = 1 by
            have := List.length_pos.mpr hu_ne
            omega)
        rw [hc1] at hu_last hc2
        have hcc : c = '@' := by
          simpa using hu_last
        subst hcc
        have hh := prefix_head_eq hc2 (by simp)
        rw [hfh] at hh
        exact absurd hh (by decide)
      · have hsuf2 : ['@', '@'] <:+ mentionToken A := by
          have he2 : str "@@" = (['@', '@'] : Str) := by decide
          rw [← he2]
          show str "@@" <:+ (str "@@MENTION:" ++ A) ++ str "@@"
          exact List.suffix_append _ _
        have hsa : ['@', '@'] <:+ (mentionToken A).drop d :=
          List.suffix_of_suffix_length_le hsuf2 (List.drop_suffix d _)
            (by simp only [List.length_cons, List.length_nil]; omega)
        obtain ⟨w2, hw2⟩ := hsa
        obtain ⟨q, hq⟩ := hc2
        rw [← hw2] at hq
        have hfd : front.drop w2.length = ['@', '@'] ++ q := by
          rw [← hq, List.append_assoc]
          exact List.drop_left' rfl
        exact hfa w2.length (by rw [hfd]; exact List.prefix_append _ _)
  · intro hc
    have hh := prefix_head_eq hc (patOf_ne_nil b B)
    rw [patOf_head] at hh
    have hlt : '<' ∈ (mentionToken A).drop d := head_mem hh.symm
    exact absurd (List.mem_of_mem_drop hlt) (lt_not_mem_token hA)

theorem atat_not_in_digits_gt {B : Str} (hB : B.all Char.isDigit = true)
    (e : Nat) : ¬ ['@', '@'] <+: (B ++ ['>']).drop e := by
  intro h
  cases hdk : (B ++ ['>']).drop e with
  | nil =>
    rw [hdk] at h
    have := h.length_le
    simp at this
  | cons c tl =>
    rw [hdk] at h
    have hc := (List.cons_prefix_cons.mp h).1
    have hcm : c ∈ B ++ ['>'] := List.mem_of_mem_drop
      (by rw [hdk]; exact List.mem_cons_self _ _)
    rcases List.mem_append.mp hcm with h2 | h2
    · exact absurd hc.symm
        (isDigit_ne (List.all_eq_true.mp hB c h2) (by decide))
    · rw [List.mem_singleton.mp h2] at hc
      exact absurd hc (by decide)

theorem atat_not_in_patOf {b : Bool} {B : Str}
    (hB : B.all Char.isDigit = true) (e : Nat) :
    ¬ ['@', '@'] <+: (patOf b B).drop e := by
  cases b
  · rw [patOf_false, mentionPat_eq]
    intro h
    rcases e with _ | _ | e'
    · exact absurd (List.cons_prefix_cons.mp h).1 (by decide)
    · rw [show ('<' :: '@' :: (B ++ ['>'])).drop 1 = '@' :: (B ++ ['>'])
        from rfl] at h
      obtain ⟨_, h2⟩ := List.cons_prefix_cons.mp h
      have h3 : ['@'] <+: (B ++ ['>']).drop 0 := by simpa using h2
      cases hdk : (B ++ ['>']).drop 0 with
      | nil =>
        rw [hdk] at h3
        have := h3.length_le
        simp at this
      | cons c tl =>
        rw [hdk] at h3
        have hc := (List.cons_prefix_cons.mp h3).1
        have hcm : c ∈ B ++ ['>'] := by
          rw [← List.drop_zero (B ++ ['>']), hdk]
          exact List.mem_cons_self _ _
        rcases List.mem_append.mp hcm with h4 | h4
        · exact absurd hc.symm
            (isDigit_ne (List.all_eq_true.mp hB c h4) (by decide))
        · rw [List.mem_singleton.mp h4] at hc
          exact absurd hc (by decide)
    · rw [show ('<' :: '@' :: (B ++ ['>'])).drop (e' + 2) =
        (B ++ ['>']).drop e' from rfl] at h
      exact atat_not_in_digits_gt hB e' h
  · rw [patOf_true, mentionPatBang_eq]
    intro h
    rcases e with _ | _ | _ | e'
    · exact absurd (List.cons_prefix_cons.mp h).1 (by decide)
    · rw [show ('<' :: '@' :: '!' :: (B ++ ['>'])).drop 1 =
        '@' :: '!' :: (B ++ ['>']) from rfl] at h
      obtain ⟨_, h2⟩ := List.cons_prefix_cons.mp h
      exact absurd (List.cons_prefix_cons.mp h2).1 (by decide)
    · rw [show ('<' :: '@' :: '!' :: (B ++ ['>'])).drop 2 =
        '!' :: (B ++ ['>']) from rfl] at h
      exact absurd (List.cons_prefix_cons.mp h).1 (by decide)
    · rw [show ('<' :: '@' :: '!' :: (B ++ ['>'])).drop (e' + 3) =
        (B ++ ['>']).drop e' from rfl] at h
      exact atat_not_in_digits_gt hB e' h

/-- Shifted suffixes of a raw pattern are prefix-incomparable with a
mention token. -/
theorem patOf_token_core {b : Bool} {A B : Str}
    (hA : A.all Char.isDigit = true) (hB : B.all Char.isDigit = true)
    {d : Nat} (hd : d < (patOf b B).length) :
    ¬ ((patOf b B).drop d <+: mentionToken A) ∧
      ¬ (mentionToken A <+: (patOf b B).drop d) := by
  have hu_ne : (patOf b B).drop d ≠ [] := by
    intro he
    have := congrArg List.length he
    rw [List.length_drop] at this
    simp only [List.length_nil] at this
    omega
  have hu_last : ((patOf b B).drop d).getLast? = some '>' := by
    rw [getLast_drop hu_ne]
    exact patOf_getLast b B
  constructor
  · intro hc
    exact gt_not_mem_token hA (mem_of_pre hc (getLast_mem hu_last))
  · intro hc
    exact atat_not_in_patOf hB d ((atat_pre_token A).trans hc)

/-- A mention token occurrence never overlaps a raw pattern occurrence. -/
theorem token_patOf_disjoint {b : Bool} {A B : Str}
    (hA : A.all Char.isDigit = true) (hB : B.all Char.isDigit = true)
    {s : Str} {i j : Nat} (hv : mentionToken A <+: s.drop i)
    (hp : patOf b B <+: s.drop j) :
    j + (patOf b B).length ≤ i ∨ i + (mentionToken A).length ≤ j := by
  by_contra hcon
  push_neg at hcon
  obtain ⟨hc1, hc2⟩ := hcon
  rcases Nat.le_total i j with hij | hij
  · obtain ⟨d, rfl⟩ : ∃ d, j = i + d := ⟨j - i, by omega⟩
    have hd : d < (mentionToken A).length := by omega
    rcases prefix_overlap hv hp hd with h | h
    · exact (token_patOf_core hA hB hd).1 h
    · exact (token_patOf_core hA hB hd).2 h
  · obtain ⟨d, rfl⟩ : ∃ d, i = j + d := ⟨i - j, by omega⟩
    have hd : d < (patOf b B).length := by omega
    rcases prefix_overlap hp hv hd with h | h
    · exact (patOf_token_core hA hB hd).1 h
    · exact (patOf_token_core hA hB hd).2 h

/-! ## Character-level behaviour of the scanner, and the two replace
primitives as scan instances -/

theorem scan_char_not_mem (m : Str → Option (Nat × Str)) (a : Char)
    (hrep : ∀ t n r, m t = some (n, r) → a ∉ r) :
    ∀ (fuel : Nat) (s : Str), s.length ≤ fuel →
      ((∀ rest, m (a :: rest) ≠ none) ∨ a ∉ s) →
      a ∉ scanRewrite m fuel s := by
  intro fuel
  induction fuel with
  | zero =>
    intro s hlen _
    have hs : s = [] := List.eq_nil_of_length_eq_zero (Nat.le_zero.mp hlen)
    subst hs
    rw [scanRewrite_nil]
    simp
  | succ f ih =>
    intro s hlen hbase
    cases s with
    | nil =>
      rw [scanRewrite_nil]
      simp
    | cons c rest =>
      have hlen2 : rest.length ≤ f := by
        simp only [List.length_cons] at hlen
        omega
      cases hm : m (c :: rest) with
      | some nr =>
        obtain ⟨n, r⟩ := nr
        rw [scanRewrite_cons_some m f c rest n r hm]
        intro hmem
        rcases List.mem_append.mp hmem with h | h
        · exact hrep _ _ _ hm h
        · refine ih (rest.drop (n - 1))
            (by rw [List.length_drop]; omega) ?_ h
          rcases hbase with hb | hb
          · exact Or.inl hb
          · exact Or.inr (fun hc =>
              hb (List.mem_cons_of_mem _ (List.mem_of_mem_drop hc)))
      | none =>
        rw [scanRewrite_cons_none m f c rest hm]
        intro hmem
        rcases List.mem_cons.mp hmem with h | h
        · rcases hbase with hb | hb
          · rw [← h] at hm
            exact hb rest hm
          · exact hb (by rw [h]; exact List.mem_cons_self _ _)
        · refine ih rest hlen2 ?_ h
          rcases hbase with hb | hb
          · exact Or.inl hb
          · exact Or.inr (fun hc => hb (List.mem_cons_of_mem _ hc))

theorem replaceAllL_m_some {pat rep t : Str} {n : Nat} {r : Str}
    (h : (if pat ≠ [] ∧ pat.isPrefixOf t then some (pat.length, rep)
      else none) = some (n, r)) :
    r = rep ∧ n = pat.length ∧ pat ≠ [] ∧ pat <+: t := by
  by_cases hc : pat ≠ [] ∧ pat.isPrefixOf t = true
  · rw [if_pos hc] at h
    obtain ⟨h1, h2⟩ := Prod.mk.injEq _ _ _ _ ▸ Option.some.inj h
    exact ⟨h2.symm, h1.symm, hc.1, List.isPrefixOf_iff_prefix.mp hc.2⟩
  · rw [if_neg hc] at h
    cases h

theorem replaceAllL_m_fire {pat rep t : Str} (hp : pat ≠ [])
    (hpre : pat <+: t) :
    (if pat ≠ [] ∧ pat.isPrefixOf t then some (pat.length, rep)
      else none) ≠ none := by
  rw [if_pos ⟨hp, List.isPrefixOf_iff_prefix.mpr hpre⟩]
  exact Option.noConfusion

theorem replaceAllL_m_none {pat rep t : Str} (h : ¬ pat <+: t) :
    (if pat ≠ [] ∧ pat.isPrefixOf t then some (pat.length, rep)
      else none) = none := by
  rw [if_neg (fun hc => h (List.isPrefixOf_iff_prefix.mp hc.2))]

/-- JavaScript `split(pat).join(rep)` puts `rep` in the output whenever
`pat` occurred. -/
theorem replaceAllL_intro {pat rep : Str} (hp : pat ≠ []) {s : Str}
    (hocc : containsB s pat = true) :
    containsB (replaceAllL pat rep s) rep = true := by
  refine scan_rep_intro _ pat rep hp ?_ ?_ s.length s (le_refl _) hocc
  · intro t hpre
    exact replaceAllL_m_fire hp hpre
  · intro t n r hm
    exact (replaceAllL_m_some hm).1

/-- Absence of `w` is preserved by a literal replace whose replacement can
neither contain `w` nor share a seam with it. -/
theorem replaceAllL_keep_no_occ {pat rep w : Str} (hw : w ≠ [])
    (hrw : containsB rep w = false)
    (hsuf : ∀ k, 0 < k → k < w.length → ¬ w.take k <:+ rep)
    (hdp : ∀ k, 0 < k → k < w.length →
      ¬ w.drop k <+: rep ∧ ¬ rep <+: w.drop k)
    {s : Str} (hs : containsB s w = false) :
    containsB (replaceAllL pat rep s) w = false := by
  refine (scan_no_occ _ w hw ?_ s.length s (le_refl _) (Or.inr hs)).1
  intro t n r hm
  obtain ⟨hr, _, _, _⟩ := replaceAllL_m_some hm
  subst hr
  exact ⟨hrw, hsuf, hdp⟩

/-- An occurrence of `v` disjoint from every occurrence of `pat` survives
a literal replace of `pat`. -/
theorem replaceAllL_keep_occ {pat rep v : Str} (hv : v ≠ [])
    (hp : pat ≠ []) {s : Str}
    (hdisj : ∀ i j, v <+: s.drop i → pat <+: s.drop j →
      j + pat.length ≤ i ∨ i + v.length ≤ j)
    (hocc : containsB s v = true) :
    containsB (replaceAllL pat rep s) v = true := by
  refine scan_keep_occ _ [pat] v hv ?_ ?_ ?_ s.length s (le_refl _) ?_ hocc
  · intro p hp2
    rw [List.mem_singleton.mp hp2]
    exact hp
  · intro t n r hm
    obtain ⟨_, hn, _, hpre⟩ := replaceAllL_m_some hm
    exact ⟨pat, List.mem_singleton.mpr rfl, hpre, hn⟩
  · intro t hnone
    exact replaceAllL_m_none (hnone pat (List.mem_singleton.mpr rfl))
  · intro i j p hp2 hvp hpp
    rw [List.mem_singleton.mp hp2] at hpp ⊢
    exact hdisj i j hvp hpp

theorem replaceMention_m_some {id rep t : Str} {n : Nat} {r : Str}
    (h : (if (mentionPatBang id).isPrefixOf t then
        some ((mentionPatBang id).length, rep)
      else if (mentionPat id).isPrefixOf t then
        some ((mentionPat id).length, rep)
      else none) = some (n, r)) :
    r = rep ∧ ∃ b, patOf b id <+: t ∧ n = (patOf b id).length := by
  by_cases hb : (mentionPatBang id).isPrefixOf t = true
  · rw [if_pos hb] at h
    obtain ⟨h1, h2⟩ := Prod.mk.injEq _ _ _ _ ▸ Option.some.inj h
    exact ⟨h2.symm, true, by
      rw [patOf_true]
      exact List.isPrefixOf_iff_prefix.mp hb, by rw [patOf_true, ← h1]⟩
  · rw [if_neg hb] at h
    by_cases hp : (mentionPat id).isPrefixOf t = true
    · rw [if_pos hp] at h
      obtain ⟨h1, h2⟩ := Prod.mk.injEq _ _ _ _ ▸ Option.some.inj h
      exact ⟨h2.symm, false, by
        rw [patOf_false]
        exact List.isPrefixOf_iff_prefix.mp hp, by rw [patOf_false, ← h1]⟩
    · rw [if_neg hp] at h
      cases h

theorem replaceMention_m_fire {id rep t : Str} {b : Bool}
    (hpre : patOf b id <+: t) :
    (if (mentionPatBang id).isPrefixOf t then
        some ((mentionPatBang id).length, rep)
      else if (mentionPat id).isPrefixOf t then
        some ((mentionPat id).length, rep)
      else none) ≠ none := by
  by_cases hb : (mentionPatBang id).isPrefixOf t = true
  · rw [if_pos hb]
    exact Option.noConfusion
  · rw [if_neg hb]
    cases b
    · rw [patOf_false] at hpre
      rw [if_pos (List.isPrefixOf_iff_prefix.mpr hpre)]
      exact Option.noConfusion
    · rw [patOf_true] at hpre
      exact absurd (List.isPrefixOf_iff_prefix.mpr hpre) hb

theorem replaceMention_m_none {id rep t : Str}
    (h1 : ¬ mentionPatBang id <+: t) (h2 : ¬ mentionPat id <+: t) :
    (if (mentionPatBang id).isPrefixOf t then
        some ((mentionPatBang id).length, rep)
      else if (mentionPat id).isPrefixOf t then
        some ((mentionPat id).length, rep)
      else none) = none := by
  rw [if_neg (fun hc => h1 (List.isPrefixOf_iff_prefix.mp hc)),
    if_neg (fun hc => h2 (List.isPrefixOf_iff_prefix.mp hc))]

/-- Replacing the mentions of `id` puts `rep` in the output whenever a raw
mention of `id` occurred. -/
theorem replaceMention_intro {id rep : Str} {b : Bool} {s : Str}
    (hocc : containsB s (patOf b id) = true) :
    containsB (replaceMention id rep s) rep = true := by
  refine scan_rep_intro _ (patOf b id) rep (patOf_ne_nil b id) ?_ ?_
    s.length s (le_refl _) hocc
  · intro t hpre
    exact replaceMention_m_fire hpre
  · intro t n r hm
    exact (replaceMention_m_some hm).1

/-- After replacing the mentions of `id`, no raw mention of `id` remains,
provided `rep` can neither contain the pattern nor share a seam with
it. -/
theorem replaceMention_elim {id rep : Str} {b : Bool}
    (hrw : containsB rep (patOf b id) = false)
    (hsuf : ∀ k, 0 < k → k < (patOf b id).length →
      ¬ (patOf b id).take k <:+ rep)
    (hdp : ∀ k, 0 < k → k < (patOf b id).length →
      ¬ (patOf b id).drop k <+: rep ∧ ¬ rep <+: (patOf b id).drop k)
    (s : Str) :
    containsB (replaceMention id rep s) (patOf b id) = false := by
  refine (scan_no_occ _ (patOf b id) (patOf_ne_nil b id) ?_ s.length s
    (le_refl _) (Or.inl ?_)).1
  · intro t n r hm
    obtain ⟨hr, _⟩ := replaceMention_m_some hm
    subst hr
    exact ⟨hrw, hsuf, hdp⟩
  · intro t hpre
    exact replaceMention_m_fire hpre

/-- Absence of `w` is preserved by the mention replace of any id when the
replacement shares nothing with `w`. -/
theorem replaceMention_keep_no_occ {id rep w : Str} (hw : w ≠ [])
    (hrw : containsB rep w = false)
    (hsuf : ∀ k, 0 < k → k < w.length → ¬ w.take k <:+ rep)
    (hdp : ∀ k, 0 < k → k < w.length →
      ¬ w.drop k <+: rep ∧ ¬ rep <+: w.drop k)
    {s : Str} (hs : containsB s w = false) :
    containsB (replaceMention id rep s) w = false := by
  refine (scan_no_occ _ w hw ?_ s.length s (le_refl _) (Or.inr hs)).1
  intro t n r hm
  obtain ⟨hr, _⟩ := replaceMention_m_some hm
  subst hr
  exact ⟨hrw, hsuf, hdp⟩

/-- An occurrence of `v` disjoint from every raw mention of `id` survives
the mention replace of `id`. -/
theorem replaceMention_keep_occ {id rep v : Str} (hv : v ≠ []) {s : Str}
    (hdisj : ∀ i j b, v <+: s.drop i → patOf b id <+: s.drop j →
      j + (patOf b id).length ≤ i ∨ i + v.length ≤ j)
    (hocc : containsB s v = true) :
    containsB (replaceMention id rep s) v = true := by
  refine scan_keep_occ _ [mentionPatBang id, mentionPat id] v hv ?_ ?_ ?_
    s.length s (le_refl _) ?_ hocc
  · intro p hp
    rcases List.mem_cons.mp hp with h | h
    · rw [h]; exact mentionPatBang_ne_nil id
    · rw [List.mem_singleton.mp h]; exact mentionPat_ne_nil id
  · intro t n r hm
    obtain ⟨_, b, hpre, hn⟩ := replaceMention_m_some hm
    cases b
    · rw [patOf_false] at hpre hn
      exact ⟨mentionPat id, List.mem_cons_of_mem _
        (List.mem_singleton.mpr rfl), hpre, hn⟩
    · rw [patOf_true] at hpre hn
      exact ⟨mentionPatBang id, List.mem_cons_self _ _, hpre, hn⟩
  · intro t hnone
    exact replaceMention_m_none
      (hnone _ (List.mem_cons_self _ _))
      (hnone _ (List.mem_cons_of_mem _ (List.mem_singleton.mpr rfl)))
  · intro i j p hp hvp hpp
    rcases List.mem_cons.mp hp with h | h
    · subst h
      have := hdisj i j true hvp (by rw [patOf_true]; exact hpp)
      rw [patOf_true] at this
      exact this
    · rw [List.mem_singleton.mp h]
      rw [List.mem_singleton.mp h] at hpp
      have := hdisj i j false hvp (by rw [patOf_false]; exact hpp)
      rw [patOf_false] at this
      exact this

/-! ## The rendered mention markup -/

theorem replaceAllL_keep_not_mem {pat rep : Str} {a : Char}
    (har : a ∉ rep) {s : Str} (hs : a ∉ s) :
    a ∉ replaceAllL pat rep s := by
  refine scan_char_not_mem _ a ?_ s.length s (le_refl _) (Or.inr hs)
  intro t n r hm
  obtain ⟨hr, _⟩ := replaceAllL_m_some hm
  subst hr
  exact har

theorem replaceAllL_char_elim {c : Char} {rep : Str} (hcr : c ∉ rep)
    (s : Str) : c ∉ replaceAllL [c] rep s := by
  refine scan_char_not_mem _ c ?_ s.length s (le_refl _) (Or.inl ?_)
  · intro t n r hm
    obtain ⟨hr, _⟩ := replaceAllL_m_some hm
    subst hr
    exact hcr
  · intro rest
    refine replaceAllL_m_fire (by simp) ?_
    exact List.cons_prefix_cons.mpr ⟨rfl, List.nil_prefix⟩

/-- `escapeHtml` leaves no `<` in its output: the `<` pass rewrites every
`<` into `&lt;` and the later passes insert none. -/
theorem lt_not_mem_escapeHtml (v : Str) : '<' ∉ escapeHtml v := by
  show '<' ∉ replaceAllL [Char.ofNat 39] (str "&#39;") _
  refine replaceAllL_keep_not_mem (by decide) ?_
  refine replaceAllL_keep_not_mem (by decide) ?_
  refine replaceAllL_keep_not_mem (by decide) ?_
  exact replaceAllL_char_elim (by decide) _

theorem ne_nil_append_left {x y : Str} (h : x ≠ []) : x ++ y ≠ [] := by
  intro he
  exact h (List.append_eq_nil.mp he).1

theorem head_append_left {x y : Str} (h : x ≠ []) :
    (x ++ y).head? = x.head? := by
  cases x with
  | nil => exact absurd rfl h
  | cons a t => rfl

theorem head_take {l : Str} {k : Nat} (hk : 0 < k) :
    (l.take k).head? = l.head? := by
  cases l with
  | nil => simp
  | cons c t =>
    cases k with
    | zero => omega
    | succ k2 => rfl

theorem suffix_single_append {a : Char} {x y : Str} (h : [a] <:+ x ++ y) :
    (y = [] ∧ [a] <:+ x) ∨ (y ≠ [] ∧ a ∈ y) := by
  cases y with
  | nil =>
    rw [List.append_nil] at h
    exact Or.inl ⟨rfl, h⟩
  | cons c t =>
    right
    have hsy : [a] <:+ c :: t :=
      List.suffix_of_suffix_length_le h (List.suffix_append x (c :: t))
        (by simp)
    exact ⟨List.cons_ne_nil _ _,
      mem_of_suf hsy (List.mem_singleton.mpr rfl)⟩

theorem containsB_append_no {x y w : Str}
    (hx : containsB x w = false) (hy : containsB y w = false)
    (hst : ∀ k, 0 < k → k < w.length →
      ¬ (w.take k <:+ x ∧ w.drop k <+: y)) :
    containsB (x ++ y) w = false := by
  cases hcb : containsB (x ++ y) w with
  | false => rfl
  | true =>
    rcases containsB_append_cases hcb with h | h | ⟨k, hk0, hklt, h1, h2⟩
    · rw [h] at hx; cases hx
    · rw [h] at hy; cases hy
    · exact absurd ⟨h1, h2⟩ (hst k hk0 hklt)

theorem containsB_ltat_append {x y : Str}
    (hx : containsB x (str "<@") = false)
    (hy : containsB y (str "<@") = false)
    (hno : ¬ (['<'] <:+ x) ∨ ¬ (['@'] <+: y)) :
    containsB (x ++ y) (str "<@") = false := by
  refine containsB_append_no hx hy ?_
  intro k hk0 hklt hand
  have hk1 : k = 1 := by
    have hl2 : (str "<@").length = 2 := by decide
    omega
  subst hk1
  obtain ⟨h1, h2⟩ := hand
  rw [show (str "<@").take 1 = ['<'] from by decide] at h1
  rw [show (str "<@").drop 1 = ['@'] from by decide] at h2
  rcases hno with h | h
  · exact h h1
  · exact h h2

theorem mentionHtml_ne_nil (info : MentionInfo) : mentionHtml info ≠ [] := by
  unfold mentionHtml
  exact ne_nil_append_left (ne_nil_append_left (ne_nil_append_left
    (ne_nil_append_left (by decide))))

theorem mentionHtml_head (info : MentionInfo) :
    (mentionHtml info).head? = some '<' := by
  unfold mentionHtml
  rw [head_append_left (ne_nil_append_left (ne_nil_append_left
    (ne_nil_append_left (by decide))))]
  rw [head_append_left (ne_nil_append_left (ne_nil_append_left
    (by decide)))]
  rw [head_append_left (ne_nil_append_left (by decide))]
  rw [head_append_left (by decide)]
  decide

theorem mentionHtml_getLast (info : MentionInfo) :
    (mentionHtml info).getLast? = some '>' := by
  unfold mentionHtml
  rw [List.getLast?_append_of_ne_nil _ (by decide)]
  decide

theorem mentionHtml_contains_name (info : MentionInfo) :
    containsB (mentionHtml info) (escapeHtml info.name) = true := by
  unfold mentionHtml
  refine containsB_append_left ?_
  refine containsB_append_right ?_
  exact containsB_of_occ 0 (by simpa using List.prefix_refl _)

/-- The rendered markup never contains the two-character opener `<@`: its
`<` occur only before `span` and `/span`. -/
theorem html_no_ltat (info : MentionInfo) :
    containsB (mentionHtml info) (str "<@") = false := by
  have hec : containsB (escapeHtml info.color) (str "<@") = false :=
    containsB_false_of_head (by decide) (lt_not_mem_escapeHtml _)
  have hen : containsB (escapeHtml info.name) (str "<@") = false :=
    containsB_false_of_head (by decide) (lt_not_mem_escapeHtml _)
  unfold mentionHtml
  refine containsB_ltat_append ?_ (by decide) (Or.inr (by decide))
  refine containsB_ltat_append ?_ hen (Or.inl ?_)
  · refine containsB_ltat_append ?_ (by decide) (Or.inr (by decide))
    exact containsB_ltat_append (by decide) hec (Or.inl (by decide))
  · intro hsuf
    rcases suffix_single_append hsuf with ⟨hnil, _⟩ | ⟨_, hmem⟩
    · exact absurd hnil (by decide)
    · exact absurd hmem (by decide)

theorem ltat_pre_patOf (b : Bool) (A : Str) :
    (str "<@") <+: patOf b A := by
  cases b
  · rw [patOf_false, mentionPat_eq]
    exact ⟨A ++ ['>'], rfl⟩
  · rw [patOf_true, mentionPatBang_eq]
    exact ⟨'!' :: (A ++ ['>']), rfl⟩

/-- Seam conditions of a `<`-free, `>`-free needle against the
`<`-headed, `>`-ended markup. -/
theorem tokenish_html_conds {w : Str} (hw : w ≠ []) (hlt : '<' ∉ w)
    (hgt : '>' ∉ w) {h : Str} (hh : h.head? = some '<')
    (hl : h.getLast? = some '>') :
    (∀ k, 0 < k → k < w.length → ¬ w.take k <:+ h) ∧
    (∀ k, 0 < k → k < w.length →
      ¬ w.drop k <+: h ∧ ¬ h <+: w.drop k) := by
  constructor
  · intro k hk0 hklt hsuf
    obtain ⟨c, hc, hcm⟩ := getLast_take_mem hk0 hw
    have hgl := suffix_getLast_eq hsuf (by
      intro he
      rw [he] at hc
      cases hc)
    rw [hc, hl] at hgl
    have hcgt : c = '>' := by simpa using hgl
    exact hgt (hcgt ▸ hcm)
  · intro k hk0 hklt
    have hdk_ne : w.drop k ≠ [] := by
      intro he
      have := congrArg List.length he
      rw [List.length_drop] at this
      simp only [List.length_nil] at this
      omega
    constructor
    · intro hpre
      have heq := prefix_head_eq hpre hdk_ne
      rw [hh] at heq
      exact hlt (List.mem_of_mem_drop (head_mem heq))
    · intro hpre
      have heq := prefix_head_eq hpre (by
        intro he
        rw [he] at hh
        cases hh)
      rw [hh] at heq
      exact hlt (List.mem_of_mem_drop (head_mem heq.symm))

/-- The full seam-condition package of a raw mention pattern against the
rendered markup. -/
theorem patOf_html_conds {b : Bool} {A : Str}
    (hA : A.all Char.isDigit = true) (info : MentionInfo) :
    containsB (mentionHtml info) (patOf b A) = false ∧
    (∀ k, 0 < k → k < (patOf b A).length →
      ¬ (patOf b A).take k <:+ mentionHtml info) ∧
    (∀ k, 0 < k → k < (patOf b A).length →
      ¬ (patOf b A).drop k <+: mentionHtml info ∧
        ¬ mentionHtml info <+: (patOf b A).drop k) := by
  refine ⟨?_, ?_, ?_⟩
  · cases hcb : containsB (mentionHtml info) (patOf b A) with
    | false => rfl
    | true =>
      have hlt := containsB_of_pre hcb (ltat_pre_patOf b A)
      rw [html_no_ltat info] at hlt
      cases hlt
  · intro k hk0 hklt hsuf
    obtain ⟨front, hsp, hfr, _, _⟩ := @patOf_split b A hA
    have hkle : k ≤ front.length := by
      have hlen := congrArg List.length hsp
      rw [List.length_append] at hlen
      simp only [List.length_singleton] at hlen
      omega
    rw [hsp, List.take_append_of_le_length hkle] at hsuf
    have hfront_ne : front ≠ [] := by
      intro he
      rw [he] at hkle
      simp at hkle
      omega
    obtain ⟨c, hc, hcm⟩ := getLast_take_mem hk0 hfront_ne
    have hgl := suffix_getLast_eq hsuf (by
      intro he
      rw [he] at hc
      cases hc)
    rw [hc, mentionHtml_getLast] at hgl
    have hcgt : c = '>' := by simpa using hgl
    exact hfr (hcgt ▸ hcm)
  · intro k hk0 hklt
    have hdk_ne : (patOf b A).drop k ≠ [] := by
      intro he
      have := congrArg List.length he
      rw [List.length_drop] at this
      simp only [List.length_nil] at this
      omega
    constructor
    · intro hpre
      have heq := prefix_head_eq hpre hdk_ne
      rw [mentionHtml_head] at heq
      exact (lt_not_mem_patOf_drop hA hk0 (head_mem heq)) rfl
    · intro hpre
      have heq := prefix_head_eq hpre (mentionHtml_ne_nil info)
      rw [mentionHtml_head] at heq
      exact (lt_not_mem_patOf_drop hA hk0 (head_mem heq.symm)) rfl

/-- The full seam-condition package of a raw mention pattern against a
mention token. -/
theorem patOf_token_conds {b : Bool} {A B : Str}
    (hA : A.all Char.isDigit = true) (hB : B.all Char.isDigit = true) :
    containsB (mentionToken B) (patOf b A) = false ∧
    (∀ k, 0 < k → k < (patOf b A).length →
      ¬ (patOf b A).take k <:+ mentionToken B) ∧
    (∀ k, 0 < k → k < (patOf b A).length →
      ¬ (patOf b A).drop k <+: mentionToken B ∧
        ¬ mentionToken B <+: (patOf b A).drop k) := by
  refine ⟨?_, ?_, ?_⟩
  · exact containsB_false_of_head (patOf_head b A) (lt_not_mem_token hB)
  · intro k hk0 hklt hsuf
    have hh : ((patOf b A).take k).head? = some '<' := by
      rw [head_take hk0, patOf_head]
    exact lt_not_mem_token hB (mem_of_suf hsuf (head_mem hh))
  · intro k hk0 hklt
    have hdk_ne : (patOf b A).drop k ≠ [] := by
      intro he
      have := congrArg List.length he
      rw [List.length_drop] at this
      simp only [List.length_nil] at this
      omega
    constructor
    · intro hpre
      rcases Nat.lt_or_ge ((patOf b A).drop k).length 2 with h1 | h2
      · obtain ⟨c, hc1⟩ := List.length_eq_one.mp (show
          ((patOf b A).drop k).length = 1 by
            have := List.length_pos.mpr hdk_ne
            omega)
        have hlast : ((patOf b A).drop k).getLast? = some '>' := by
          rw [getLast_drop hdk_ne]
          exact patOf_getLast b A
        rw [hc1] at hlast hpre
        have hcgt : c = '>' := by simpa using hlast
        subst hcgt
        exact gt_not_mem_token hB
          (mem_of_pre hpre (List.mem_singleton.mpr rfl))
      · have htake : ((patOf b A).drop k).take 2 =
            (mentionToken B).take 2 := take_of_pre hpre h2
        have hts : (mentionToken B).take 2 = ['@', '@'] := by
          rw [mentionToken_eq]
          rfl
        have hat : ['@', '@'] <+: (patOf b A).drop k := by
          rw [← hts, ← htake]
          exact List.take_prefix _ _
        exact atat_not_in_patOf hA k hat
    · intro hpre
      exact atat_not_in_patOf hA k ((atat_pre_token B).trans hpre)

theorem html_no_merge {X Y : Str} {info : MentionInfo}
    (hmk : containsB (mentionHtml info) (str "@MENTION:") = false)
    (k : Nat) :
    containsB (mentionHtml info) (mergeTokens X Y k) = false := by
  cases hcb : containsB (mentionHtml info) (mergeTokens X Y k) with
  | false => rfl
  | true =>
    have := containsB_trans hcb (mergeTokens_contains_marker X Y k)
    rw [hmk] at this
    cases this

theorem html_no_token {X : Str} {info : MentionInfo}
    (hmk : containsB (mentionHtml info) (str "@MENTION:") = false) :
    containsB (mentionHtml info) (mentionToken X) = false := by
  cases hcb : containsB (mentionHtml info) (mentionToken X) with
  | false => rfl
  | true =>
    have := containsB_trans hcb (token_contains_marker X)
    rw [hmk] at this
    cases this

/-- A rendered-markup occurrence never overlaps a token occurrence,
provided the markup is free of the internal `@MENTION:` marker. -/
theorem html_token_disjoint {C : Str} (hC : C.all Char.isDigit = true)
    {info : MentionInfo}
    (hmk : containsB (mentionHtml info) (str "@MENTION:") = false)
    {s : Str} {i j : Nat} (hv : mentionHtml info <+: s.drop i)
    (hp : mentionToken C <+: s.drop j) :
    j + (mentionToken C).length ≤ i ∨
      i + (mentionHtml info).length ≤ j := by
  by_contra hcon
  push_neg at hcon
  obtain ⟨hc1, hc2⟩ := hcon
  rcases Nat.le_total i j with hij | hij
  · obtain ⟨d, rfl⟩ : ∃ d, j = i + d := ⟨j - i, by omega⟩
    have hd : d < (mentionHtml info).length := by omega
    rcases prefix_overlap hv hp hd with h | h
    · have hne : (mentionHtml info).drop d ≠ [] := by
        intro he
        have := congrArg List.length he
        rw [List.length_drop] at this
        simp only [List.length_nil] at this
        omega
      have hlast : ((mentionHtml info).drop d).getLast? = some '>' := by
        rw [getLast_drop hne]
        exact mentionHtml_getLast info
      exact gt_not_mem_token hC (mem_of_pre h (getLast_mem hlast))
    · have hocc : containsB (mentionHtml info) (mentionToken C) = true :=
        containsB_of_occ d h
      rw [html_no_token hmk] at hocc
      cases hocc
  · obtain ⟨d, rfl⟩ : ∃ d, i = j + d := ⟨i - j, by omega⟩
    have hd : d < (mentionToken C).length := by omega
    rcases prefix_overlap hp hv hd with h | h
    · have hne : (mentionToken C).drop d ≠ [] := by
        intro he
        have := congrArg List.length he
        rw [List.length_drop] at this
        simp only [List.length_nil] at this
        omega
      have heq := prefix_head_eq h hne
      rw [mentionHtml_head] at heq
      exact lt_not_mem_token hC (List.mem_of_mem_drop (head_mem heq))
    · have heq := prefix_head_eq h (mentionHtml_ne_nil info)
      rw [mentionHtml_head] at heq
      exact lt_not_mem_token hC (List.mem_of_mem_drop (head_mem heq.symm))

/-! ## The tokenisation fold of `replaceMentionsWithTokens` -/

/-- One tokenisation step: replace the raw mentions of one map entry by
its opaque token. -/
def tokStep (t : Str) (e : Str × MentionInfo) : Str :=
  replaceMention e.1 (mentionToken e.1) t

/-- One markup-application step of `applyMentionTokens`, expressed on the
mention-map entry it came from. -/
def applyEntry (r : Str) (e : Str × MentionInfo) : Str :=
  replaceAllL (mentionToken e.1) (mentionHtml e.2) r

theorem rmwt_fold (mm : List (Str × MentionInfo)) :
    ∀ (t0 : Str) (acc0 : List (Str × Str)),
    mm.foldl (fun acc e =>
      (replaceMention e.1 (mentionToken e.1) acc.1,
       acc.2 ++ [(mentionToken e.1, mentionHtml e.2)])) (t0, acc0) =
    (mm.foldl tokStep t0,
     acc0 ++ mm.map (fun e => (mentionToken e.1, mentionHtml e.2))) := by
  induction mm with
  | nil =>
    intro t0 acc0
    simp
  | cons e mm ih =>
    intro t0 acc0
    rw [List.foldl_cons, List.foldl_cons, List.map_cons, ih]
    simp [tokStep, List.append_assoc]

theorem rmwt_fst (mm : List (Str × MentionInfo)) (text : Str) :
    (replaceMentionsWithTokens mm text).1 = mm.foldl tokStep text := by
  show (mm.foldl _ (text, [])).1 = _
  rw [rmwt_fold mm text []]

theorem rmwt_snd (mm : List (Str × MentionInfo)) (text : Str) :
    (replaceMentionsWithTokens mm text).2 =
      mm.map (fun e => (mentionToken e.1, mentionHtml e.2)) := by
  show (mm.foldl _ (text, [])).2 = _
  rw [rmwt_fold mm text []]
  simp

theorem tokStep_keep_no_pat {b : Bool} {A : Str}
    (hA : A.all Char.isDigit = true) {e : Str × MentionInfo}
    (he : digitStr e.1 = true) {t : Str}
    (ht : containsB t (patOf b A) = false) :
    containsB (tokStep t e) (patOf b A) = false := by
  obtain ⟨h1, h2, h3⟩ := @patOf_token_conds b A e.1 hA (digitStr_all he)
  exact replaceMention_keep_no_occ (patOf_ne_nil b A) h1 h2 h3 ht

theorem foldTok_keep_no_pat {b : Bool} {A : Str}
    (hA : A.all Char.isDigit = true) :
    ∀ (l : List (Str × MentionInfo)) (t : Str),
      (∀ e ∈ l, digitStr e.1 = true) →
      containsB t (patOf b A) = false →
      containsB (l.foldl tokStep t) (patOf b A) = false := by
  intro l
  induction l with
  | nil => intro t _ ht; exact ht
  | cons e l ih =>
    intro t hl ht
    rw [List.foldl_cons]
    exact ih _ (fun e2 he2 => hl e2 (List.mem_cons_of_mem _ he2))
      (tokStep_keep_no_pat hA (hl e (List.mem_cons_self _ _)) ht)

theorem tokStep_keep_pat_occ {b : Bool} {A : Str} (hA : digitStr A = true)
    {e : Str × MentionInfo} (he : digitStr e.1 = true) (hne : e.1 ≠ A)
    {t : Str} (ht : containsB t (patOf b A) = true) :
    containsB (tokStep t e) (patOf b A) = true := by
  refine replaceMention_keep_occ (patOf_ne_nil b A) ?_ ht
  intro i j b2 hvp hpp
  exact pat_pat_disjoint (digitStr_all hA) (digitStr_all he)
    (fun heq => hne heq.symm) hvp hpp

theorem foldTok_keep_pat_occ {b : Bool} {A : Str}
    (hA : digitStr A = true) :
    ∀ (l : List (Str × MentionInfo)) (t : Str),
      (∀ e ∈ l, digitStr e.1 = true ∧ e.1 ≠ A) →
      containsB t (patOf b A) = true →
      containsB (l.foldl tokStep t) (patOf b A) = true := by
  intro l
  induction l with
  | nil => intro t _ ht; exact ht
  | cons e l ih =>
    intro t hl ht
    rw [List.foldl_cons]
    obtain ⟨heD, heNe⟩ := hl e (List.mem_cons_self _ _)
    exact ih _ (fun e2 he2 => hl e2 (List.mem_cons_of_mem _ he2))
      (tokStep_keep_pat_occ hA heD heNe ht)

theorem tokStep_keep_token {A : Str} (hA : digitStr A = true)
    {e : Str × MentionInfo} (he : digitStr e.1 = true) {t : Str}
    (ht : containsB t (mentionToken A) = true) :
    containsB (tokStep t e) (mentionToken A) = true := by
  refine replaceMention_keep_occ (mentionToken_ne_nil A) ?_ ht
  intro i j b2 hvp hpp
  exact token_patOf_disjoint (digitStr_all hA) (digitStr_all he) hvp hpp

theorem foldTok_keep_token {A : Str} (hA : digitStr A = true) :
    ∀ (l : List (Str × MentionInfo)) (t : Str),
      (∀ e ∈ l, digitStr e.1 = true) →
      containsB t (mentionToken A) = true →
      containsB (l.foldl tokStep t) (mentionToken A) = true := by
  intro l
  induction l with
  | nil => intro t _ ht; exact ht
  | cons e l ih =>
    intro t hl ht
    rw [List.foldl_cons]
    exact ih _ (fun e2 he2 => hl e2 (List.mem_cons_of_mem _ he2))
      (tokStep_keep_token hA (hl e (List.mem_cons_self _ _)) ht)

theorem tokStepA_elim {b : Bool} {A : Str} (hA : digitStr A = true)
    (info : MentionInfo) (t : Str) :
    containsB (tokStep t (A, info)) (patOf b A) = false := by
  obtain ⟨h1, h2, h3⟩ :=
    @patOf_token_conds b A A (digitStr_all hA) (digitStr_all hA)
  exact replaceMention_elim h1 h2 h3 t

theorem tokStepA_intro {b : Bool} {A : Str} (info : MentionInfo) {t : Str}
    (ht : containsB t (patOf b A) = true) :
    containsB (tokStep t (A, info)) (mentionToken A) = true :=
  replaceMention_intro ht

/-- After the tokenisation fold, the mentioned id's token is present and
both raw forms of its mention are gone. -/
theorem tokenized_props (mm : List (Str × MentionInfo)) (text : Str)
    (A : Str) (info : MentionInfo) (hmem : (A, info) ∈ mm)
    (hids : ∀ e ∈ mm, digitStr e.1 = true)
    (hnodup : (mm.map Prod.fst).Nodup)
    (hocc : containsB text (mentionPat A) = true ∨
      containsB text (mentionPatBang A) = true) :
    containsB (replaceMentionsWithTokens mm text).1
      (mentionToken A) = true ∧
    containsB (replaceMentionsWithTokens mm text).1
      (mentionPat A) = false ∧
    containsB (replaceMentionsWithTokens mm text).1
      (mentionPatBang A) = false := by
  rw [rmwt_fst]
  have hA : digitStr A = true := hids (A, info) hmem
  obtain ⟨pre, post, rfl⟩ := List.append_of_mem hmem
  rw [List.foldl_append, List.foldl_cons]
  have hpreD : ∀ e ∈ pre, digitStr e.1 = true :=
    fun e he => hids e (List.mem_append_left _ he)
  have hpostD : ∀ e ∈ post, digitStr e.1 = true :=
    fun e he => hids e (List.mem_append_right _ (List.mem_cons_of_mem _ he))
  have hkeys : ∀ e ∈ pre, e.1 ≠ A := by
    intro e he heq
    rw [List.map_append, List.map_cons] at hnodup
    have hdisj := (List.nodup_append.mp hnodup).2.2
    have hm1 : e.1 ∈ pre.map Prod.fst := List.mem_map_of_mem Prod.fst he
    rw [heq] at hm1
    exact hdisj hm1 (List.mem_cons_self _ _)
  have hocc1 : containsB (pre.foldl tokStep text) (patOf false A) = true ∨
      containsB (pre.foldl tokStep text) (patOf true A) = true := by
    rcases hocc with h | h
    · refine Or.inl (foldTok_keep_pat_occ hA pre text
        (fun e he => ⟨hpreD e he, hkeys e he⟩) ?_)
      rw [patOf_false]
      exact h
    · refine Or.inr (foldTok_keep_pat_occ hA pre text
        (fun e he => ⟨hpreD e he, hkeys e he⟩) ?_)
      rw [patOf_true]
      exact h
  have htok2 : containsB (tokStep (pre.foldl tokStep text) (A, info))
      (mentionToken A) = true := by
    rcases hocc1 with h | h
    · exact tokStepA_intro info h
    · exact tokStepA_intro info h
  refine ⟨foldTok_keep_token hA post _ hpostD htok2, ?_, ?_⟩
  · have := @foldTok_keep_no_pat false A (digitStr_all hA) post _ hpostD
      (@tokStepA_elim false A hA info (pre.foldl tokStep text))
    rw [patOf_false] at this
    exact this
  · have := @foldTok_keep_no_pat true A (digitStr_all hA) post _ hpostD
      (@tokStepA_elim true A hA info (pre.foldl tokStep text))
    rw [patOf_true] at this
    exact this

/-! ## The markup-application fold of `applyMentionTokens` -/

/-- No welded pair of distinct tokens of `keys` occurs in `s` (the side
condition under which the sequential `split`/`join` replaces treat token
occurrences independently). -/
def mergesAbsent (keys : List Str) (s : Str) : Prop :=
  ∀ X ∈ keys, ∀ Y ∈ keys, X ≠ Y →
    containsB s (mergeTokens X Y 1) = false ∧
    containsB s (mergeTokens X Y 2) = false

theorem applyStep_keep_merge {keys : List Str}
    (hkeysD : ∀ X ∈ keys, digitStr X = true) {e : Str × MentionInfo}
    (hmk : containsB (mentionHtml e.2) (str "@MENTION:") = false)
    {t : Str} (hm : mergesAbsent keys t) :
    mergesAbsent keys (applyEntry t e) := by
  intro X hX Y hY hne
  obtain ⟨hc1, hc2⟩ := hm X hX Y hY hne
  have hXd := digitStr_all (hkeysD X hX)
  have hYd := digitStr_all (hkeysD Y hY)
  constructor
  · obtain ⟨hsuf, hdp⟩ := tokenish_html_conds (mergeTokens_ne_nil X Y 1)
      (lt_not_mem_merge hXd hYd 1) (gt_not_mem_merge hXd hYd 1)
      (mentionHtml_head e.2) (mentionHtml_getLast e.2)
    exact replaceAllL_keep_no_occ (mergeTokens_ne_nil X Y 1)
      (html_no_merge hmk 1) hsuf hdp hc1
  · obtain ⟨hsuf, hdp⟩ := tokenish_html_conds (mergeTokens_ne_nil X Y 2)
      (lt_not_mem_merge hXd hYd 2) (gt_not_mem_merge hXd hYd 2)
      (mentionHtml_head e.2) (mentionHtml_getLast e.2)
    exact replaceAllL_keep_no_occ (mergeTokens_ne_nil X Y 2)
      (html_no_merge hmk 2) hsuf hdp hc2

theorem applyStep_keep_no_pat {b : Bool} {A : Str}
    (hA : A.all Char.isDigit = true) {e : Str × MentionInfo} {t : Str}
    (ht : containsB t (patOf b A) = false) :
    containsB (applyEntry t e) (patOf b A) = false := by
  obtain ⟨h1, h2, h3⟩ := @patOf_html_conds b A hA e.2
  exact replaceAllL_keep_no_occ (patOf_ne_nil b A) h1 h2 h3 ht

theorem applyStep_keep_token {A : Str} (hA : digitStr A = true)
    {e : Str × MentionInfo} (heD : digitStr e.1 = true) (hne : e.1 ≠ A)
    {t : Str}
    (hm1 : containsB t (mergeTokens e.1 A 1) = false)
    (hm2 : containsB t (mergeTokens e.1 A 2) = false)
    (hm3 : containsB t (mergeTokens A e.1 1) = false)
    (hm4 : containsB t (mergeTokens A e.1 2) = false)
    (ht : containsB t (mentionToken A) = true) :
    containsB (applyEntry t e) (mentionToken A) = true := by
  refine replaceAllL_keep_occ (mentionToken_ne_nil A)
    (mentionToken_ne_nil e.1) ?_ ht
  intro i j hvp hpp
  exact token_token_disjoint heD hA hne hvp hpp hm1 hm2 hm3 hm4

theorem applyStep_keep_html {info : MentionInfo}
    (hmkA : containsB (mentionHtml info) (str "@MENTION:") = false)
    {e : Str × MentionInfo} (heD : digitStr e.1 = true) {t : Str}
    (ht : containsB t (mentionHtml info) = true) :
    containsB (applyEntry t e) (mentionHtml info) = true := by
  refine replaceAllL_keep_occ (mentionHtml_ne_nil info)
    (mentionToken_ne_nil e.1) ?_ ht
  intro i j hvp hpp
  exact html_token_disjoint (digitStr_all heD) hmkA hvp hpp

theorem applyStepA_intro (A : Str) (info : MentionInfo) {t : Str}
    (ht : containsB t (mentionToken A) = true) :
    containsB (applyEntry t (A, info)) (mentionHtml info) = true :=
  replaceAllL_intro (mentionToken_ne_nil A) ht

/-- Before the mentioned entry's turn: the merge side conditions and the
token occurrence both survive. -/
theorem foldApply_pre {A : Str} (hA : digitStr A = true) {keys : List Str}
    (hkeysD : ∀ X ∈ keys, digitStr X = true) (hAk : A ∈ keys) :
    ∀ (l : List (Str × MentionInfo)) (r : Str),
      (∀ e ∈ l, digitStr e.1 = true ∧ e.1 ≠ A ∧ e.1 ∈ keys ∧
        containsB (mentionHtml e.2) (str "@MENTION:") = false) →
      mergesAbsent keys r →
      containsB r (mentionToken A) = true →
      containsB (l.foldl applyEntry r) (mentionToken A) = true := by
  intro l
  induction l with
  | nil => intro r _ _ ht; exact ht
  | cons e l ih =>
    intro r hl hm ht
    obtain ⟨heD, heNe, heK, heM⟩ := hl e (List.mem_cons_self _ _)
    rw [List.foldl_cons]
    refine ih _ (fun e2 he2 => hl e2 (List.mem_cons_of_mem _ he2))
      (applyStep_keep_merge hkeysD heM hm) ?_
    obtain ⟨hm1, hm2⟩ := hm e.1 heK A hAk heNe
    obtain ⟨hm3, hm4⟩ := hm A hAk e.1 heK (fun h => heNe h.symm)
    exact applyStep_keep_token hA heD heNe hm1 hm2 hm3 hm4 ht

/-- After the mentioned entry's turn: the rendered markup survives the
remaining replaces. -/
theorem foldApply_post {info : MentionInfo}
    (hmkA : containsB (mentionHtml info) (str "@MENTION:") = false) :
    ∀ (l : List (Str × MentionInfo)) (r : Str),
      (∀ e ∈ l, digitStr e.1 = true) →
      containsB r (mentionHtml info) = true →
      containsB (l.foldl applyEntry r) (mentionHtml info) = true := by
  intro l
  induction l with
  | nil => intro r _ ht; exact ht
  | cons e l ih =>
    intro r hl ht
    rw [List.foldl_cons]
    exact ih _ (fun e2 he2 => hl e2 (List.mem_cons_of_mem _ he2))
      (applyStep_keep_html hmkA (hl e (List.mem_cons_self _ _)) ht)

/-- Raw-pattern absence survives the whole markup-application fold. -/
theorem foldApply_no_pat {b : Bool} {A : Str}
    (hA : A.all Char.isDigit = true) :
    ∀ (l : List (Str × MentionInfo)) (r : Str),
      containsB r (patOf b A) = false →
      containsB (l.foldl applyEntry r) (patOf b A) = false := by
  intro l
  induction l with
  | nil => intro r ht; exact ht
  | cons e l ih =>
    intro r ht
    rw [List.foldl_cons]
    exact ih _ (applyStep_keep_no_pat hA ht)

/-- The mention-rendering path of a message's text: tokenise the raw
mentions (`replaceMentionsWithTokens`, the start of
`collectMessageAssets`), run the intermediate stages and the markdown
renderer (`render` stands for the composition of custom-emoji and
inline-image localisation, attachment and embed markdown, and
`markdown.render`, constrained only by stated hypotheses), then swap the
recorded tokens for their markup (`applyMentionTokens`, as in the
`htmlContent` assignment of `buildThreadPage`). -/
def renderMessageHtml (render : Str → Str)
    (mentionMap : List (Str × MentionInfo)) (text : Str) : Str :=
  applyMentionTokens
    (render (replaceMentionsWithTokens mentionMap text).1)
    (replaceMentionsWithTokens mentionMap text).2

/-- C5: for a message whose text contains a raw mention `<@id>` or
`<@!id>` of a mapped identity, the rendered message HTML — after mention
tokenisation, markdown rendering and mention-token substitution —
contains the identity's rendered mention markup (hence its escaped
resolved display name), and contains neither raw numeric-id mention form.
Hypotheses: ids are distinct nonempty digit strings (Discord snowflakes);
the rendered markup of each entry does not contain the internal marker
`@MENTION:` (display names never contain it); the renderer preserves
token occurrences, does not fabricate raw mention syntax, and does not
produce the four welded token-overlap strings (`markdown-it` copies or
HTML-escapes word characters, so all four hold of it). -/
theorem mention_rendering
    (render : Str → Str) (mentionMap : List (Str × MentionInfo))
    (text : Str) (A : Str) (info : MentionInfo)
    (hA : (A, info) ∈ mentionMap)
    (hids : ∀ e ∈ mentionMap, digitStr e.1 = true)
    (hnodup : (mentionMap.map Prod.fst).Nodup)
    (hmark : ∀ e ∈ mentionMap,
      containsB (mentionHtml e.2) (str "@MENTION:") = false)
    (hocc : containsB text (mentionPat A) = true ∨
      containsB text (mentionPatBang A) = true)
    (hkeep : containsB (replaceMentionsWithTokens mentionMap text).1
        (mentionToken A) = true →
      containsB (render (replaceMentionsWithTokens mentionMap text).1)
        (mentionToken A) = true)
    (hnoraw1 : containsB (replaceMentionsWithTokens mentionMap text).1
        (mentionPat A) = false →
      containsB (render (replaceMentionsWithTokens mentionMap text).1)
        (mentionPat A) = false)
    (hnoraw2 : containsB (replaceMentionsWithTokens mentionMap text).1
        (mentionPatBang A) = false →
      containsB (render (replaceMentionsWithTokens mentionMap text).1)
        (mentionPatBang A) = false)
    (hglue : mergesAbsent (mentionMap.map Prod.fst)
      (render (replaceMentionsWithTokens mentionMap text).1)) :
    containsB (renderMessageHtml render mentionMap text)
      (mentionHtml info) = true ∧
    containsB (renderMessageHtml render mentionMap text)
      (escapeHtml info.name) = true ∧
    containsB (renderMessageHtml render mentionMap text)
      (mentionPat A) = false ∧
    containsB (renderMessageHtml render mentionMap text)
      (mentionPatBang A) = false := by
  obtain ⟨htok, hnp1, hnp2⟩ :=
    tokenized_props mentionMap text A info hA hids hnodup hocc
  have hrtok := hkeep htok
  have hrp1 := hnoraw1 hnp1
  have hrp2 := hnoraw2 hnp2
  have hpipe : renderMessageHtml render mentionMap text =
      mentionMap.foldl applyEntry
        (render (replaceMentionsWithTokens mentionMap text).1) := by
    unfold renderMessageHtml applyMentionTokens
    rw [rmwt_snd, List.foldl_map]
    rfl
  have hA_digit : digitStr A = true := hids (A, info) hA
  have hkeysD : ∀ X ∈ mentionMap.map Prod.fst, digitStr X = true := by
    intro X hX
    obtain ⟨e, he, rfl⟩ := List.mem_map.mp hX
    exact hids e he
  have hAk : A ∈ mentionMap.map Prod.fst :=
    List.mem_map.mpr ⟨(A, info), hA, rfl⟩
  obtain ⟨pre, post, hsplit⟩ := List.append_of_mem hA
  have hE_split : mentionMap.foldl applyEntry
      (render (replaceMentionsWithTokens mentionMap text).1) =
      post.foldl applyEntry (applyEntry (pre.foldl applyEntry
        (render (replaceMentionsWithTokens mentionMap text).1))
        (A, info)) := by
    conv_lhs => rw [hsplit]
    rw [List.foldl_append, List.foldl_cons, ← hsplit]
  have hpre_props : ∀ e ∈ pre, digitStr e.1 = true ∧ e.1 ≠ A ∧
      e.1 ∈ mentionMap.map Prod.fst ∧
      containsB (mentionHtml e.2) (str "@MENTION:") = false := by
    intro e he
    have hem : e ∈ mentionMap := by
      rw [hsplit]
      exact List.mem_append_left _ he
    refine ⟨hids e hem, ?_, List.mem_map.mpr ⟨e, hem, rfl⟩, hmark e hem⟩
    intro heq
    rw [hsplit, List.map_append, List.map_cons] at hnodup
    have hdisj := (List.nodup_append.mp hnodup).2.2
    have hm1 : e.1 ∈ pre.map Prod.fst := List.mem_map.mpr ⟨e, he, rfl⟩
    rw [heq] at hm1
    exact hdisj hm1 (List.mem_cons_self _ _)
  have hpost_props : ∀ e ∈ post, digitStr e.1 = true := by
    intro e he
    refine hids e ?_
    rw [hsplit]
    exact List.mem_append_right _ (List.mem_cons_of_mem _ he)
  have htokpre := foldApply_pre hA_digit hkeysD hAk pre _ hpre_props hglue
    hrtok
  have hhtml := applyStepA_intro A info htokpre
  have hc1 : containsB (mentionMap.foldl applyEntry
      (render (replaceMentionsWithTokens mentionMap text).1))
      (mentionHtml info) = true := by
    rw [hE_split]
    exact foldApply_post (hmark (A, info) hA) post _ hpost_props hhtml
  have hc3 : containsB (mentionMap.foldl applyEntry
      (render (replaceMentionsWithTokens mentionMap text).1))
      (mentionPat A) = false := by
    have h0 : containsB
        (render (replaceMentionsWithTokens mentionMap text).1)
        (patOf false A) = false := by
      rw [patOf_false]
      exact hrp1
    have := @foldApply_no_pat false A (digitStr_all hA_digit) mentionMap
      _ h0
    rw [patOf_false] at this
    exact this
  have hc4 : containsB (mentionMap.foldl applyEntry
      (render (replaceMentionsWithTokens mentionMap text).1))
      (mentionPatBang A) = false := by
    have h0 : containsB
        (render (replaceMentionsWithTokens mentionMap text).1)
        (patOf true A) = false := by
      rw [patOf_true]
      exact hrp2
    have := @foldApply_no_pat true A (digitStr_all hA_digit) mentionMap
      _ h0
    rw [patOf_true] at this
    exact this
  rw [hpipe]
  exact ⟨hc1, containsB_trans hc1 (mentionHtml_contains_name info),
    hc3, hc4⟩

/-- Witness for C5 at a concrete message: the text `hi <@1>` with the
single mapped identity `1` resolving to the name `Ann`, rendered through
the identity markdown stage, yields HTML containing the mention markup
and the escaped name, and free of both raw mention forms. -/
theorem mention_rendering_witness :
    containsB (renderMessageHtml (fun s => s)
        [(str "1", MentionInfo.mk (str "Ann") (str "#abc"))]
        (str "hi <@1>"))
      (mentionHtml (MentionInfo.mk (str "Ann") (str "#abc"))) = true ∧
    containsB (renderMessageHtml (fun s => s)
        [(str "1", MentionInfo.mk (str "Ann") (str "#abc"))]
        (str "hi <@1>"))
      (escapeHtml (str "Ann")) = true ∧
    containsB (renderMessageHtml (fun s => s)
        [(str "1", MentionInfo.mk (str "Ann") (str "#abc"))]
        (str "hi <@1>"))
      (mentionPat (str "1")) = false ∧
    containsB (renderMessageHtml (fun s => s)
        [(str "1", MentionInfo.mk (str "Ann") (str "#abc"))]
        (str "hi <@1>"))
      (mentionPatBang (str "1")) = false :=
  mention_rendering (fun s => s)
    [(str "1", MentionInfo.mk (str "Ann") (str "#abc"))]
    (str "hi <@1>") (str "1") (MentionInfo.mk (str "Ann") (str "#abc"))
    (List.mem_singleton.mpr rfl) (by decide) (by decide) (by decide)
    (Or.inl (by decide)) (fun h => h) (fun h => h) (fun h => h)
    (by
      intro X hX Y hY hne
      rw [List.map_cons, List.map_nil] at hX hY
      rw [List.mem_singleton.mp hX, List.mem_singleton.mp hY] at hne
      exact absurd rfl hne)

end VrcHelp
